import Mathlib

/-!
Verification of the `core-sim` crowd-simulation engine against its
specification.  The Rust sources are shallowly embedded:

* machine integers (`usize`, `u8`, `u32`, `i32`) become `ℕ` or `ℤ`;
* `f64` values that the code only ever adds and compares (flow-field
  integration costs, which are sums of `u8` cell costs seeded at `0.0`)
  become `ℕ`, with `Option ℕ` representing a field whose `none` stands for
  the `f64::MAX` sentinel — all comparisons performed by the code on such
  values are exact in `f64`, so this carrier is faithful;
* `f64` coordinates fed to rounding helpers become `ℚ` (every finite `f64`
  is a rational and `round`/comparison are exact on it);
* genuinely irrational `f64` computation (the avoidance solver's square
  roots and normalisations) is embedded over `ℝ`;
* loops whose termination the Rust code does not make structural are given
  an explicit fuel argument and return `Option`, with `none` meaning the
  fuel ran out before the loop ended; theorems quantify over the fuel and
  condition on a `some` result, which covers every terminating execution
  of the source.
-/

/-- Two-component vector, the carrier-polymorphic shadow of `glam::DVec2`
and `glam::IVec2`. -/
structure Vec2 (α : Type) where
  x : α
  y : α
deriving DecidableEq, Repr

/-- Rust's `f64::round` (round half away from zero), on the rational
carrier, written on the numerator/denominator so that it kernel-reduces:
for `q ≥ 0` the value is `⌊q + 1/2⌋ = (2·num + den) fdiv (2·den)`, and a
negative input rounds to minus the rounding of its negation. -/
def rustRound (q : ℚ) : ℤ :=
  if q < 0 then -((2 * (-q.num) + q.den).fdiv (2 * q.den))
  else (2 * q.num + q.den).fdiv (2 * q.den)

/-- Rust's saturating `as usize` cast applied to a rounded value: negative
values clamp to `0`.  (`f64 as usize` saturates since Rust 1.45.) -/
def intToUsize (z : ℤ) : ℕ := z.toNat

/-! ## Flow field (src/core-sim/src/pathfinding/flow.rs) -/

/-- `FlowField` of `flow.rs`: `costs` holds the `u8` cell costs
(1 = walkable, 255 = wall), `integration` the Dijkstra distances
(`none` = `f64::MAX`), `vectors` the per-cell gradients. -/
structure FlowField where
  width : ℕ
  height : ℕ
  costs : List ℕ
  integration : List (Option ℕ)
  vectors : List (Vec2 ℚ)
deriving DecidableEq, Repr

/-- `FlowField::new`. -/
def FlowField.new (w h : ℕ) : FlowField :=
  ⟨w, h, List.replicate (w * h) 1, List.replicate (w * h) none,
    List.replicate (w * h) ⟨0, 0⟩⟩

/-- `FlowField::set_obstacle`. -/
def FlowField.set_obstacle (f : FlowField) (x y : ℕ) (isWall : Bool) : FlowField :=
  if x < f.width ∧ y < f.height then
    { f with costs := f.costs.set (y * f.width + x) (if isWall then 255 else 1) }
  else f

/-- `next_cost < integration[n]` where `none` plays `f64::MAX`: every cost the
algorithm ever forms is a (small) natural number, hence `< f64::MAX`. -/
def fLt (n : ℕ) : Option ℕ → Bool
  | none => true
  | some v => n < v

/-- Comparison of two integration values (`none` = `f64::MAX`). -/
def oLt : Option ℕ → Option ℕ → Bool
  | none, _ => false
  | some _, none => true
  | some a, some b => a < b

/-- Neighbour offsets used by the Dijkstra loop of `generate_target`,
in source order `[(0,1),(1,0),(0,-1),(-1,0)]`. -/
def dijkDirs : List (ℤ × ℤ) := [(0, 1), (1, 0), (0, -1), (-1, 0)]

/-- The source computes `nx = (cx as isize + dx) as usize` and then checks
`nx < width && ny < height`; for `|dx| ≤ 1` the wrap-around of a negative
value lands at `usize::MAX ≥ width`, so this is exactly an in-bounds check
of the signed coordinates, which is what we embed. -/
def stepIdx (w h i : ℕ) (d : ℤ × ℤ) : Option ℕ :=
  let nx : ℤ := (i % w : ℕ) + d.1
  let ny : ℤ := (i / w : ℕ) + d.2
  if 0 ≤ nx ∧ nx < (w : ℤ) ∧ 0 ≤ ny ∧ ny < (h : ℤ) then
    some (ny.toNat * w + nx.toNat)
  else none

/-- One relaxation attempt of the Dijkstra inner loop: state is
(integration array, pending queue). -/
def relaxOne (costs : List ℕ) (w h : ℕ) (cost i : ℕ)
    (st : List (Option ℕ) × List (ℕ × ℕ)) (d : ℤ × ℤ) :
    List (Option ℕ) × List (ℕ × ℕ) :=
  match stepIdx w h i d with
  | none => st
  | some n =>
    let tile := costs.getD n 0
    if tile < 255 then
      let next := cost + tile
      if fLt next (st.1.getD n none) then (st.1.set n (some next), st.2 ++ [(next, n)])
      else st
    else st

/-- Extract a minimum-cost entry from the pending queue (the `BinaryHeap`
with reversed ordering pops some minimum; ties are unspecified in Rust, we
take the first).  Returns the entry and the remaining queue. -/
def popMin : List (ℕ × ℕ) → Option ((ℕ × ℕ) × List (ℕ × ℕ))
  | [] => none
  | x :: xs =>
    match popMin xs with
    | none => some (x, [])
    | some (m, rest) => if x.1 ≤ m.1 then some (x, xs) else some (m, x :: rest)

/-- The `while let Some(State { cost, index }) = heap.pop()` loop of
`generate_target`, with fuel; `none` = fuel exhausted before the heap
emptied. -/
def dijkstraLoop (w h : ℕ) (costs : List ℕ) :
    ℕ → List (Option ℕ) → List (ℕ × ℕ) → Option (List (Option ℕ))
  | 0, _, _ => none
  | fuel + 1, integ, queue =>
    match popMin queue with
    | none => some integ
    | some ((cost, i), rest) =>
      if (integ.getD i none).elim false (fun v => decide (v < cost)) = true then
        dijkstraLoop w h costs fuel integ rest
      else
        let st := dijkDirs.foldl (relaxOne costs w h cost i) (integ, rest)
        dijkstraLoop w h costs fuel st.1 st.2

/-- Neighbour scan of `generate_vectors`, in source order up, right, down,
left, each with its direction vector. -/
def vecDirs : List ((ℤ × ℤ) × Vec2 ℚ) :=
  [((0, -1), ⟨0, -1⟩), ((1, 0), ⟨1, 0⟩), ((0, 1), ⟨0, 1⟩), ((-1, 0), ⟨-1, 0⟩)]

/-- One neighbour inspection of the `generate_vectors` scan. -/
def gradStep (w h : ℕ) (integ : List (Option ℕ)) (i : ℕ)
    (bg : Option ℕ × Vec2 ℚ) (dd : (ℤ × ℤ) × Vec2 ℚ) : Option ℕ × Vec2 ℚ :=
  match stepIdx w h i dd.1 with
  | none => bg
  | some n => if oLt (integ.getD n none) bg.1 then (integ.getD n none, dd.2) else bg

/-- Gradient of a single cell as computed by `generate_vectors`. -/
def gradAt (w h : ℕ) (costs : List ℕ) (integ : List (Option ℕ)) (i : ℕ) : Vec2 ℚ :=
  if costs.getD i 0 = 255 then ⟨0, 0⟩
  else (vecDirs.foldl (gradStep w h integ i) (integ.getD i none, ⟨0, 0⟩)).2

/-- `FlowField::generate_vectors`: rebuilds the whole `vectors` array from
the integration field (the source writes every index `y*width+x`). -/
def FlowField.generate_vectors (w h : ℕ) (costs : List ℕ)
    (integ : List (Option ℕ)) : List (Vec2 ℚ) :=
  (List.range (w * h)).map (gradAt w h costs integ)

/-- `FlowField::generate_target`, with fuel for the Dijkstra loop.
Out-of-bounds rounded targets are a no-op returning the field unchanged. -/
def FlowField.generate_target (fuel : ℕ) (f : FlowField) (tx ty : ℚ) : Option FlowField :=
  let txn := intToUsize (rustRound tx)
  let tyn := intToUsize (rustRound ty)
  if txn ≥ f.width ∨ tyn ≥ f.height then some f
  else
    let tIdx := tyn * f.width + txn
    let integ0 := (f.integration.map fun _ => (none : Option ℕ)).set tIdx (some 0)
    match dijkstraLoop f.width f.height f.costs fuel integ0 [(0, tIdx)] with
    | none => none
    | some integ' =>
      some { f with
        integration := integ'
        vectors := FlowField.generate_vectors f.width f.height f.costs integ' }

/-- `FlowField::get_direction`. -/
def FlowField.get_direction (f : FlowField) (x y : ℚ) : Vec2 ℚ :=
  let ix := intToUsize (rustRound x)
  let iy := intToUsize (rustRound y)
  if ix ≥ f.width ∨ iy ≥ f.height then ⟨0, 0⟩
  else f.vectors.getD (iy * f.width + ix) ⟨0, 0⟩

/-! ## Claim-side notions for the flow field -/

/-- Cell `b` is an in-bounds 4-neighbour of cell `a` (flat indices), phrased
through the same coordinate arithmetic the Dijkstra loop performs. -/
def cellAdj (w h : ℕ) (a b : ℕ) : Prop :=
  ∃ d ∈ dijkDirs, stepIdx w h a d = some b

instance (w h a b : ℕ) : Decidable (cellAdj w h a b) :=
  List.decidableBEx _ dijkDirs

/-- A 4-connected path from the target cell `t` to cell `c` whose every
step lands on a cell of cost `< 255` (cost-255 cells are never relaxed). -/
def ValidPath (w h : ℕ) (costs : List ℕ) (t c : ℕ) (p : List ℕ) : Prop :=
  p.head? = some t ∧ p.getLast? = some c ∧ List.Chain' (cellAdj w h) p ∧
    ∀ j ∈ p.tail, costs.getD j 0 < 255

/-- Kernel-reducible decidability of chained adjacency (Mathlib's generic
instance is built by tactics and gets stuck under `decide`). -/
instance chainAdjDec (w h : ℕ) : ∀ (p : List ℕ), Decidable (List.Chain' (cellAdj w h) p)
  | [] => isTrue (by simp)
  | [a] => isTrue (List.chain'_singleton a)
  | a :: b :: rest =>
    match chainAdjDec w h (b :: rest) with
    | isTrue hrest =>
      match inferInstanceAs (Decidable (cellAdj w h a b)) with
      | isTrue hab => isTrue (List.chain'_cons.mpr ⟨hab, hrest⟩)
      | isFalse hab => isFalse (fun hc => hab (List.chain'_cons.mp hc).1)
    | isFalse hrest => isFalse (fun hc => hrest (List.chain'_cons.mp hc).2)

instance validPathDec (w h : ℕ) (costs : List ℕ) (t c : ℕ) (p : List ℕ) :
    Decidable (ValidPath w h costs t c p) :=
  inferInstanceAs (Decidable (p.head? = some t ∧ p.getLast? = some c ∧
    List.Chain' (cellAdj w h) p ∧ ∀ j ∈ p.tail, costs.getD j 0 < 255))

/-- Accumulated traversal cost of a path: the sum of the destination cell's
cost over its steps. -/
def pathCost (costs : List ℕ) (p : List ℕ) : ℕ :=
  (p.tail.map fun j => costs.getD j 0).sum

/-- All accumulated costs of valid paths from `t` to `c`. -/
def reachCosts (w h : ℕ) (costs : List ℕ) (t c : ℕ) : Set ℕ :=
  {n | ∃ p, ValidPath w h costs t c p ∧ pathCost costs p = n}

/-- Cell `i`, currently at integration `di`, has all its walkable
4-neighbours fully relaxed. -/
def StableAt (w h : ℕ) (costs : List ℕ) (integ : List (Option ℕ)) (i di : ℕ) : Prop :=
  ∀ j, cellAdj w h i j → costs.getD j 0 < 255 →
    ∃ dj, integ.getD j none = some dj ∧ dj ≤ di + costs.getD j 0

/-- Pointwise decrease of integration fields (`none` = `f64::MAX`). -/
def integLE (a b : List (Option ℕ)) : Prop :=
  a.length = b.length ∧
    ∀ k v, b.getD k none = some v → ∃ u, a.getD k none = some u ∧ u ≤ v

/-- Invariant carried through the Dijkstra loop of `generate_target`. -/
structure DijkInv (w h : ℕ) (costs : List ℕ) (t : ℕ)
    (integ : List (Option ℕ)) (queue : List (ℕ × ℕ)) : Prop where
  ilen : integ.length = w * h
  tzero : integ.getD t none = some 0
  sound : ∀ i d, integ.getD i none = some d →
    ∃ p, ValidPath w h costs t i p ∧ pathCost costs p = d
  qsound : ∀ c i, (c, i) ∈ queue →
    ∃ p, ValidPath w h costs t i p ∧ pathCost costs p = c
  qle : ∀ c i, (c, i) ∈ queue → ∃ d, integ.getD i none = some d ∧ d ≤ c
  cover : ∀ i d, integ.getD i none = some d →
    (d, i) ∈ queue ∨ StableAt w h costs integ i d

/-- State of the integration field once the loop has drained its queue. -/
structure DijkFinal (w h : ℕ) (costs : List ℕ) (t : ℕ)
    (integ : List (Option ℕ)) : Prop where
  tzero : integ.getD t none = some 0
  sound : ∀ i d, integ.getD i none = some d →
    ∃ p, ValidPath w h costs t i p ∧ pathCost costs p = d
  stable : ∀ i d, integ.getD i none = some d → StableAt w h costs integ i d

/-- Invariant while the four neighbours of the popped entry `(c, i)` are
being relaxed: cell `i` may still owe its stability, recorded by the third
disjunct of `coverM`. -/
structure MidInv (w h : ℕ) (costs : List ℕ) (t c i : ℕ)
    (integ : List (Option ℕ)) (queue : List (ℕ × ℕ)) : Prop where
  ilen : integ.length = w * h
  tzero : integ.getD t none = some 0
  sound : ∀ k d, integ.getD k none = some d →
    ∃ p, ValidPath w h costs t k p ∧ pathCost costs p = d
  qsound : ∀ cq k, (cq, k) ∈ queue →
    ∃ p, ValidPath w h costs t k p ∧ pathCost costs p = cq
  qle : ∀ cq k, (cq, k) ∈ queue → ∃ d, integ.getD k none = some d ∧ d ≤ cq
  coverM : ∀ k dk, integ.getD k none = some dk →
    ((dk, k) ∈ queue ∨ StableAt w h costs integ k dk ∨ (k = i ∧ dk = c))
  pbase : ∃ p, ValidPath w h costs t i p ∧ pathCost costs p = c

/-- Recursive form of the gradient scan, used to restate the specification's
wording of the rule. -/
def scanGrad (w h : ℕ) (integ : List (Option ℕ)) (i : ℕ) :
    List ((ℤ × ℤ) × Vec2 ℚ) → Option ℕ → Vec2 ℚ → Vec2 ℚ
  | [], _, g => g
  | dd :: rest, best, g =>
    match stepIdx w h i dd.1 with
    | none => scanGrad w h integ i rest best g
    | some n =>
      if oLt (integ.getD n none) best then
        scanGrad w h integ i rest (integ.getD n none) dd.2
      else scanGrad w h integ i rest best g

/-- Gradient rule as the specification words it (claim C6): scan the
4-neighbours in the fixed order up, right, down, left; take each neighbour
whose integration is strictly below the running best, initialised to the
cell's own integration; zero if no neighbour is strictly smaller; zero at
walls. -/
def specGradient (w h : ℕ) (costs : List ℕ) (integ : List (Option ℕ)) (i : ℕ) : Vec2 ℚ :=
  if costs.getD i 0 = 255 then ⟨0, 0⟩
  else scanGrad w h integ i vecDirs (integ.getD i none) ⟨0, 0⟩

/-- The 5×5 field of spec scenario 2: column `x = 2` all walls except
`(2,2)`. -/
def wallColumnField : FlowField :=
  ((((FlowField.new 5 5).set_obstacle 2 0 true).set_obstacle 2 1
      true).set_obstacle 2 3 true).set_obstacle 2 4 true

/-! ## Avoidance solver (src/core-sim/src/physics.rs)

The solver's `f64` arithmetic (square roots, normalisation) is genuinely
irrational, so this part is embedded over `ℝ`; the only `f64`-specific
behaviours the code can reach (`0.0/0.0 = NaN` failing the `> 0.0` test,
`normalize` of a non-zero vector) coincide with the `ℝ` semantics used
here (`0/0 = 0` fails `> 0` too, and `normalize` is only reached on
non-zero vectors). -/

def v2add (a b : Vec2 ℝ) : Vec2 ℝ := ⟨a.x + b.x, a.y + b.y⟩

def v2sub (a b : Vec2 ℝ) : Vec2 ℝ := ⟨a.x - b.x, a.y - b.y⟩

def v2smul (a : Vec2 ℝ) (s : ℝ) : Vec2 ℝ := ⟨a.x * s, a.y * s⟩

def v2neg (a : Vec2 ℝ) : Vec2 ℝ := ⟨-a.x, -a.y⟩

def v2dot (a b : Vec2 ℝ) : ℝ := a.x * b.x + a.y * b.y

def v2lenSq (a : Vec2 ℝ) : ℝ := a.x * a.x + a.y * a.y

noncomputable def v2len (a : Vec2 ℝ) : ℝ := Real.sqrt (v2lenSq a)

/-- `DVec2::distance_squared`. -/
def v2distSq (a b : Vec2 ℝ) : ℝ := v2lenSq (v2sub b a)

/-- `DVec2::normalize` (`self * (1 / length)`). -/
noncomputable def v2normalize (a : Vec2 ℝ) : Vec2 ℝ := v2smul a (v2len a)⁻¹

/-- `DVec2::normalize_or_zero`: zero for the zero vector. -/
noncomputable def v2normalizeOrZero (a : Vec2 ℝ) : Vec2 ℝ :=
  if v2len a = 0 then ⟨0, 0⟩ else v2normalize a

/-- `physics.rs` `Agent`. -/
structure Agent where
  id : ℕ
  position : Vec2 ℝ
  velocity : Vec2 ℝ
  radius : ℝ
  max_speed : ℝ
  pref_velocity : Vec2 ℝ

def defaultAgent : Agent := ⟨0, ⟨0, 0⟩, ⟨0, 0⟩, 0, 0, ⟨0, 0⟩⟩

/-- `physics.rs` `RvoManager`. -/
structure RvoManager where
  agents : List Agent

def RvoManager.new : RvoManager := ⟨[]⟩

/-- `RvoManager::add_agent`. -/
def RvoManager.add_agent (m : RvoManager) (a : Agent) : RvoManager := ⟨m.agents ++ [a]⟩

/-- `iter_mut().find(|a| a.id == id)` mutation: update the first agent with
the given id, setting its position and preferred velocity. -/
def updateFirstAgent (idv : ℕ) (pos pv : Vec2 ℝ) : List Agent → List Agent
  | [] => []
  | a :: rest =>
    if a.id = idv then { a with position := pos, pref_velocity := pv } :: rest
    else a :: updateFirstAgent idv pos pv rest

/-- `RvoManager::update_agent_state`. -/
def RvoManager.update_agent_state (m : RvoManager) (idv : ℕ) (pos pv : Vec2 ℝ) :
    RvoManager := ⟨updateFirstAgent idv pos pv m.agents⟩

/-- The body of the per-neighbour loop of `compute_new_velocity`. -/
noncomputable def rvoPairStep (agent : Agent) (newVel : Vec2 ℝ) (other : Agent) : Vec2 ℝ :=
  let distSq := v2distSq agent.position other.position
  let combinedRadius := agent.radius + other.radius
  if distSq > (combinedRadius * 2) ^ 2 then newVel
  else
    let relPos := v2sub other.position agent.position
    let relVel := v2sub agent.velocity other.velocity
    let dist := Real.sqrt distSq
    if dist < combinedRadius then
      v2add newVel (v2smul (v2smul (v2normalizeOrZero relPos) (-1)) agent.max_speed)
    else
      let proj := v2dot relVel relPos / distSq
      if proj > 0 then
        let tangent := v2normalize ⟨-relPos.y, relPos.x⟩
        let steer := if v2dot newVel tangent > 0 then tangent else v2neg tangent
        let strength := 2 * (1 - dist / (combinedRadius * 3))
        v2add newVel (v2smul steer strength)
      else newVel

/-- The clamp at the end of `compute_new_velocity`. -/
noncomputable def clampToMax (maxSpeed : ℝ) (nv : Vec2 ℝ) : Vec2 ℝ :=
  if v2lenSq nv > maxSpeed * maxSpeed then v2smul (v2normalize nv) maxSpeed else nv

/-- `RvoManager::compute_new_velocity`. -/
noncomputable def RvoManager.compute_new_velocity (m : RvoManager) (agentIdx : ℕ) : Vec2 ℝ :=
  let agent := m.agents.getD agentIdx defaultAgent
  let nv := (m.agents.enum.foldl
    (fun nv pr => if pr.1 = agentIdx then nv else rvoPairStep agent nv pr.2)
    agent.pref_velocity)
  clampToMax agent.max_speed nv

/-! ## Simulation driver (src/core-sim/src/lib.rs)

`tick` takes the already-parsed command list (the JSON parsing of the host
boundary is outside the core; malformed input parses to the empty list).
The flow-field fuel threads through to `generate_target`. -/

/-- Rust's `f64::round` on the real carrier, for simulation positions. -/
noncomputable def rustRoundR (x : ℝ) : ℤ :=
  if x < 0 then -⌊-x + 1/2⌋ else ⌊x + 1/2⌋

/-- `FlowField::get_direction` sampled at real coordinates (the simulation
positions are `f64`s carrying irrational values). -/
noncomputable def FlowField.get_direction_r (f : FlowField) (x y : ℝ) : Vec2 ℚ :=
  let ix := intToUsize (rustRoundR x)
  let iy := intToUsize (rustRoundR y)
  if ix ≥ f.width ∨ iy ≥ f.height then ⟨0, 0⟩
  else f.vectors.getD (iy * f.width + ix) ⟨0, 0⟩

/-- `FlowField::generate_target` at real coordinates. -/
noncomputable def FlowField.generate_target_r (fuel : ℕ) (f : FlowField) (tx ty : ℝ) :
    Option FlowField :=
  let txn := intToUsize (rustRoundR tx)
  let tyn := intToUsize (rustRoundR ty)
  if txn ≥ f.width ∨ tyn ≥ f.height then some f
  else
    let tIdx := tyn * f.width + txn
    let integ0 := (f.integration.map fun _ => (none : Option ℕ)).set tIdx (some 0)
    match dijkstraLoop f.width f.height f.costs fuel integ0 [(0, tIdx)] with
    | none => none
    | some integ' =>
      some { f with
        integration := integ'
        vectors := FlowField.generate_vectors f.width f.height f.costs integ' }

/-- `navmesh.rs` `Triangle` (vertices on the rational carrier). -/
structure Triangle where
  id : ℕ
  vertices : Fin 3 → Vec2 ℚ
  neighbors : Fin 3 → Option ℕ

/-- `navmesh.rs` `NavMesh`. -/
structure NavMesh where
  triangles : List Triangle

def NavMesh.new : NavMesh := ⟨[]⟩

/-- `lib.rs` `InputCommand` (parsed form). -/
structure InputCommand where
  id : ℕ
  action : String
  target_x : ℝ
  target_y : ℝ
  mode : Option String

/-- `lib.rs` `Simulation`. -/
structure Simulation where
  tick_count : ℕ
  export_buffer : List ℝ
  flow_field : FlowField
  nav_mesh : NavMesh
  rvo : RvoManager

/-- `Simulation::new` (the panic hook is host-side logging, out of scope). -/
def Simulation.new : Simulation :=
  ⟨0, [], FlowField.new 100 100, NavMesh.new, RvoManager.new⟩

/-- `Simulation::add_agent`. -/
def Simulation.add_agent (s : Simulation) (idv : ℕ) (x y radius maxSpeed : ℝ) :
    Simulation :=
  { s with rvo := s.rvo.add_agent ⟨idv, ⟨x, y⟩, ⟨0, 0⟩, radius, maxSpeed, ⟨0, 0⟩⟩ }

/-- Dispatch of one parsed command (step 1 of `tick`). -/
noncomputable def processCommand (fuel : ℕ) (s : Simulation) (c : InputCommand) :
    Option Simulation :=
  if c.action = "MOVE" then
    if c.mode = some "FLOW" then
      (FlowField.generate_target_r fuel s.flow_field c.target_x c.target_y).map
        (fun ff => { s with flow_field := ff })
    else
      some { s with rvo := s.rvo.update_agent_state c.id ⟨c.target_x, c.target_y⟩ ⟨0, 0⟩ }
  else some s

/-- The input-processing loop of `tick`. -/
noncomputable def processInputs (fuel : ℕ) (s : Simulation) :
    List InputCommand → Option Simulation
  | [] => some s
  | c :: rest =>
    match processCommand fuel s c with
    | none => none
    | some s1 => processInputs fuel s1 rest

def qVecToR (v : Vec2 ℚ) : Vec2 ℝ := ⟨(v.x : ℝ), (v.y : ℝ)⟩

/-- Step 2 of `tick`: every agent's preferred velocity is set from the flow
field under its position. -/
noncomputable def pathfindingPhase (s : Simulation) : Simulation :=
  { s with rvo := RvoManager.mk (s.rvo.agents.map (fun a =>
      let dir := s.flow_field.get_direction_r a.position.x a.position.y
      { a with pref_velocity := v2smul (qVecToR dir) a.max_speed })) }

/-- Write-back of one computed velocity (step 4 of `tick`): assign the new
velocity and add it to the position (unit timestep). -/
def applyVel (pr : Agent × Vec2 ℝ) : Agent :=
  { pr.1 with velocity := pr.2, position := v2add pr.1.position pr.2 }

/-- Steps 3 and 4 of `tick`: compute all new velocities from the state at
the start of the step, then assign them and integrate positions. -/
noncomputable def updatePhase (s : Simulation) : Simulation :=
  let newVels := (List.range s.rvo.agents.length).map
    (fun i => s.rvo.compute_new_velocity i)
  { s with rvo := ⟨(s.rvo.agents.zip newVels).map applyVel⟩ }

/-- `Simulation::rebuild_export_buffer`. -/
def Simulation.rebuild_export_buffer (s : Simulation) : Simulation :=
  { s with export_buffer :=
      (s.rvo.agents.map (fun a =>
        [(a.id : ℝ), a.position.x, a.position.y, a.velocity.x, a.velocity.y])).join }

/-- `Simulation::get_state_len`. -/
def Simulation.get_state_len (s : Simulation) : ℕ := s.export_buffer.length

/-- `Simulation::tick`. -/
noncomputable def Simulation.tick (fuel : ℕ) (s : Simulation)
    (inputs : List InputCommand) : Option Simulation :=
  let s1 := { s with tick_count := s.tick_count + 1 }
  match processInputs fuel s1 inputs with
  | none => none
  | some s2 => some (Simulation.rebuild_export_buffer (updatePhase (pathfindingPhase s2)))

/-- Predicate for a MOVE command without FLOW mode addressed to agent
`idv` (claim C3's command shape). -/
def addressedMove (idv : ℕ) (c : InputCommand) : Bool :=
  c.action == "MOVE" && !(c.mode == some "FLOW") && c.id == idv

/-- Two agents head on: A at the origin moving right, B at (3,0) at rest;
radii 1, so B is within range, not overlapping, and approaching, and A's
adjusted velocity (its zero preferred velocity) is exactly perpendicular to
the relative position — the tie case of the steering rule. -/
def rvoAgentA : Agent := ⟨1, ⟨0, 0⟩, ⟨1, 0⟩, 1, 5, ⟨0, 0⟩⟩

def rvoAgentB : Agent := ⟨2, ⟨3, 0⟩, ⟨0, 0⟩, 1, 5, ⟨0, 0⟩⟩

/-- One-agent simulation for the MOVE-command claims: agent 7 sits at the
origin with velocity (1,0). -/
def c3Sim : Simulation :=
  { Simulation.new with rvo := ⟨[⟨7, ⟨0, 0⟩, ⟨1, 0⟩, 1, 5, ⟨0, 0⟩⟩]⟩ }

/-- A MOVE command without FLOW mode addressed to agent 7. -/
def c3Cmd : InputCommand := ⟨7, "MOVE", 2, 3, none⟩

/-- Placeholder triangle used to model Rust's panicking index
`self.triangles[i]`; every access in the verified runs is in bounds. -/
def defaultTriangle : Triangle := ⟨0, fun _ => ⟨0, 0⟩, fun _ => none⟩

/-- `astar.rs`: first-match lookup in a prepend-on-insert association list;
this models `HashMap::get` where `insert` overwrites (the newest binding
shadows older ones). -/
def alookup {N α : Type} [DecidableEq N] (k : N) : List (N × α) → Option α
  | [] => none
  | (k', v) :: rest => if k' = k then some v else alookup k rest

/-- `astar.rs`: `BinaryHeap::pop` on the reversed-`Ord` `State` wrapper,
i.e. a pop of a minimal-cost entry (`lt` is the cost order; ties are
resolved to the first minimal element, one legal heap behaviour). -/
def popMinBy {N C : Type} (lt : C → C → Bool) :
    List (N × C) → Option ((N × C) × List (N × C))
  | [] => none
  | x :: xs =>
    match popMinBy lt xs with
    | none => some (x, [])
    | some (m, rest) => if lt m.2 x.2 then some (m, x :: rest) else some (x, xs)

/-- `astar.rs`: the path reconstruction `while let Some(&prev) =
came_from.get(&curr)` followed by `reverse`, fueled (`none` = fuel ran
out, which covers a cyclic `came_from`, impossible in real runs). -/
def reconstructPath {N : Type} [DecidableEq N] (came_from : List (N × N)) :
    ℕ → N → Option (List N)
  | 0, _ => none
  | fuel + 1, curr =>
    match alookup curr came_from with
    | none => some [curr]
    | some prev => (reconstructPath came_from fuel prev).map (fun p => p ++ [curr])

/-- The body of the generic A*'s `for (neighbor, edge_cost) in
get_neighbors(current)` loop: a neighbor with no `g_score` entry or a
strictly better tentative score is rescored, re-parented and pushed. -/
def aStarStep {N C : Type} [DecidableEq N] (lt : C → C → Bool) (add : C → C → C)
    (get_heuristic : N → C) (current : N) (current_g : C)
    (acc : List (N × C) × List (N × N) × List (N × C)) (nc : N × C) :
    List (N × C) × List (N × N) × List (N × C) :=
  let tentative_g := add current_g nc.2
  let better := match alookup nc.1 acc.2.2 with
    | none => true
    | some g => lt tentative_g g
  if better then
    ((nc.1, add tentative_g (get_heuristic nc.1)) :: acc.1,
     (nc.1, current) :: acc.2.1,
     (nc.1, tentative_g) :: acc.2.2)
  else acc


/-- `astar.rs`: the main `while let Some(State {..}) = open_set.pop()` loop of
the generic `a_star`, fueled. State: open set (node, f_score), `came_from`,
`g_score`. Outer `none` = fuel ran out; `some none` = open set exhausted
(Rust returns `None`). The neighbor pass is the `for` loop: a neighbor with
no `g_score` entry or a strictly better tentative score is rescored and
pushed (lazy deletion: stale heap entries are left in place). -/
def aStarLoop {N C : Type} [DecidableEq N] (lt : C → C → Bool) (add : C → C → C)
    (dflt : C) (get_neighbors : N → List (N × C)) (get_heuristic : N → C)
    (is_goal : N → Bool) :
    ℕ → List (N × C) → List (N × N) → List (N × C) → Option (Option (C × List N))
  | 0, _, _, _ => none
  | fuel + 1, open_set, came_from, g_score =>
    match popMinBy lt open_set with
    | none => some none
    | some ((current, _), rest) =>
      if is_goal current then
        match alookup current g_score, reconstructPath came_from (fuel + 1) current with
        | some total, some path => some (some (total, path))
        | _, _ => none
      else
        let current_g := (alookup current g_score).getD dflt
        let st := (get_neighbors current).foldl
          (aStarStep lt add get_heuristic current current_g) (rest, came_from, g_score)
        aStarLoop lt add dflt get_neighbors get_heuristic is_goal fuel st.1 st.2.1 st.2.2

/-- `astar.rs` `a_star`: seeds `g_score[start] = C::default()` and the open
set with `(start, h(start))`, then runs the loop. -/
def a_star {N C : Type} [DecidableEq N] (lt : C → C → Bool) (add : C → C → C)
    (dflt : C) (fuel : ℕ) (start : N) (get_neighbors : N → List (N × C))
    (get_heuristic : N → C) (is_goal : N → Bool) : Option (Option (C × List N)) :=
  aStarLoop lt add dflt get_neighbors get_heuristic is_goal fuel
    [(start, get_heuristic start)] [] [(start, dflt)]

/-- `Triangle::center`: arithmetic mean of the three vertices. Exact
rational arithmetic; the value only feeds the A* cost/heuristic, which the
verified runs never compare, so f64 rounding of the division is moot. -/
def Triangle.center (t : Triangle) : Vec2 ℚ :=
  ⟨((t.vertices 0).x + (t.vertices 1).x + (t.vertices 2).x) / 3,
   ((t.vertices 0).y + (t.vertices 1).y + (t.vertices 2).y) / 3⟩

/-- `glam::DVec2::distance`, into the reals (`sqrt` is irrational). -/
noncomputable def qDist (a b : Vec2 ℚ) : ℝ :=
  Real.sqrt (((b.x - a.x) * (b.x - a.x) + (b.y - a.y) * (b.y - a.y) : ℚ) : ℝ)

/-- f64 `<` on the real carrier, as used by the A* cost order. -/
noncomputable def rltb (a b : ℝ) : Bool := decide (a < b)

/-- `navmesh.rs` `sign` (nested in `point_in_triangle`). -/
def navSign (p1 p2 p3 : Vec2 ℚ) : ℚ :=
  (p1.x - p3.x) * (p2.y - p3.y) - (p2.x - p3.x) * (p1.y - p3.y)

/-- `NavMesh::point_in_triangle`: the same-side technique. -/
def NavMesh.point_in_triangle (p : Vec2 ℚ) (v : Fin 3 → Vec2 ℚ) : Bool :=
  let d1 := navSign p (v 0) (v 1)
  let d2 := navSign p (v 1) (v 2)
  let d3 := navSign p (v 2) (v 0)
  let has_neg := decide (d1 < 0) || decide (d2 < 0) || decide (d3 < 0)
  let has_pos := decide (d1 > 0) || decide (d2 > 0) || decide (d3 > 0)
  !(has_neg && has_pos)

/-- `NavMesh::find_triangle`: linear scan, returns the `id` field of the
first containing triangle. -/
def NavMesh.find_triangle (m : NavMesh) (p : Vec2 ℚ) : Option ℕ :=
  (m.triangles.find? (fun t => NavMesh.point_in_triangle p t.vertices)).map Triangle.id

/-- `NavMesh::compute_a_star`: instantiates the generic A* on triangle ids
with center-distance edge costs and heuristic. `some []` is Rust's
`vec![]` fallback when `a_star` returns `None`. -/
noncomputable def NavMesh.compute_a_star (m : NavMesh) (fuel start_idx end_idx : ℕ) :
    Option (List ℕ) :=
  let tri := fun i => m.triangles.getD i defaultTriangle
  let end_center := (tri end_idx).center
  let get_neighbors := fun idx =>
    let c := (tri idx).center
    [(tri idx).neighbors 0, (tri idx).neighbors 1, (tri idx).neighbors 2].filterMap
      (fun o => o.map (fun n => (n, qDist c (tri n).center)))
  let get_heuristic := fun idx => qDist (tri idx).center end_center
  let is_goal := fun idx => idx == end_idx
  match a_star rltb (fun a b => a + b) 0 fuel start_idx get_neighbors get_heuristic is_goal with
  | none => none
  | some none => some []
  | some (some (_, path)) => some path

/-- `NavMesh::tri_area_2`: twice the signed triangle area,
`(b - a) × (c - a)` with the cross product taken `x`-component times
`y`-component minus `y` times `x`. -/
def tri_area_2 (a b c : Vec2 ℚ) : ℚ :=
  (b.x - a.x) * (c.y - a.y) - (b.y - a.y) * (c.x - a.x)

/-- `glam::DVec2::distance_squared` on the rational carrier. -/
def qdistSq (a b : Vec2 ℚ) : ℚ :=
  (a.x - b.x) * (a.x - b.x) + (a.y - b.y) * (a.y - b.y)

/-- The `1e-5` vertex-matching tolerance of `find_shared_edge`. The f64
constant is a dyadic approximation of 1/100000; every comparison in the
verified runs is of a nonnegative integer against it, so any value in
(0, 1) gives the same outcome. -/
def navEpsilon : ℚ := mkRat 1 100000

/-- `NavMesh::find_shared_edge`: collect the (ε-matched) shared vertices in
`curr`'s order, then orient the pair so that, crossing from `curr` to
`next`, the first component is the left vertex. `List.findIdx?` is Rust's
`Iterator::position`. -/
def NavMesh.find_shared_edge (curr next : Triangle) : Option (Vec2 ℚ × Vec2 ℚ) :=
  let cv := [curr.vertices 0, curr.vertices 1, curr.vertices 2]
  let nv := [next.vertices 0, next.vertices 1, next.vertices 2]
  let shared := cv.foldl
    (fun acc a => nv.foldl
      (fun acc2 b => if qdistSq a b < navEpsilon then acc2 ++ [a] else acc2) acc) []
  match shared with
  | [v1, v2] =>
    match cv.findIdx? (fun v => decide (qdistSq v v1 < navEpsilon)),
          cv.findIdx? (fun v => decide (qdistSq v v2 < navEpsilon)) with
    | some i1, some i2 =>
      if (i1 + 1) % 3 = i2 then some (v2, v1) else some (v1, v2)
    | _, _ => none
  | _ => none

/-- `NavMesh::string_pulling`'s `while i < portals.len()` funnel loop,
fueled. State: emitted corner points, funnel apex, left/right funnel
vertices, `left_index`/`right_index`, scan position `i`. The first branch
is Rust's "Right crossed Left" restart, the second the "Left crossed
Right" restart; otherwise the sides tighten exactly when the respective
area test fires. -/
def funnelLoop (portals : List (Vec2 ℚ × Vec2 ℚ)) :
    ℕ → List (Vec2 ℚ) → Vec2 ℚ → Vec2 ℚ → Vec2 ℚ → ℕ → ℕ → ℕ →
    Option (List (Vec2 ℚ))
  | 0, _, _, _, _, _, _, _ => none
  | fuel + 1, points, apex, pl, pr, li, ri, i =>
    match portals[i]? with
    | none => some points
    | some (left, right) =>
      if tri_area_2 apex pr right ≤ 0 ∧ ¬(apex = pr ∨ tri_area_2 apex pl right > 0) then
        funnelLoop portals fuel (points ++ [pl]) pl pl pl li li (li + 1)
      else
        let pr' := if tri_area_2 apex pr right ≤ 0 then right else pr
        let ri' := if tri_area_2 apex pr right ≤ 0 then i else ri
        if tri_area_2 apex pl left ≥ 0 ∧ ¬(apex = pl ∨ tri_area_2 apex pr' left < 0) then
          funnelLoop portals fuel (points ++ [pr']) pr' pr' pr' ri' ri' (ri' + 1)
        else
          let pl' := if tri_area_2 apex pl left ≥ 0 then left else pl
          let li' := if tri_area_2 apex pl left ≥ 0 then i else li
          funnelLoop portals fuel points apex pl' pr' li' ri' (i + 1)

/-- `NavMesh::string_pulling`: build the portal list from consecutive
shared edges, append the zero-width end portal, run the funnel from
`start`, then append `end`. -/
def NavMesh.string_pulling (m : NavMesh) (fuel : ℕ) (start endp : Vec2 ℚ)
    (tri_path : List ℕ) : Option (List (Vec2 ℚ)) :=
  let tri := fun i => m.triangles.getD i defaultTriangle
  let portals := ((List.range (tri_path.length - 1)).filterMap (fun i =>
    NavMesh.find_shared_edge (tri (tri_path.getD i 0)) (tri (tri_path.getD (i + 1) 0))))
    ++ [(endp, endp)]
  let first := portals.getD 0 (endp, endp)
  (funnelLoop portals fuel [start] start first.1 first.2 0 0 0).map
    (fun pts => pts ++ [endp])

/-- `NavMesh::find_path`: locate start/end triangles, shortcut when both
are the same triangle, run A* over triangle ids, then string-pull. -/
noncomputable def NavMesh.find_path (m : NavMesh) (fuel : ℕ) (start endp : Vec2 ℚ) :
    Option (List (Vec2 ℚ)) :=
  match m.find_triangle start, m.find_triangle endp with
  | some si, some ei =>
    if si = ei then some [start, endp]
    else
      match m.compute_a_star fuel si ei with
      | none => none
      | some path_indices =>
        if path_indices = [] then some []
        else m.string_pulling fuel start endp path_indices
  | _, _ => some []

/-- The first triangle {(0,0),(50,0),(0,50)} of the spec's two-triangle
mesh; its neighbor across the edge vertices[1]-vertices[2] is triangle 1. -/
def c4Tri0 : Triangle :=
  ⟨0, fun i => match i with | 0 => ⟨0, 0⟩ | 1 => ⟨50, 0⟩ | 2 => ⟨0, 50⟩,
      fun i => match i with | 0 => none | 1 => some 1 | 2 => none⟩

/-- The second triangle {(50,0),(50,50),(0,50)}; its neighbor across the
edge vertices[2]-vertices[0] is triangle 0. -/
def c4Tri1 : Triangle :=
  ⟨1, fun i => match i with | 0 => ⟨50, 0⟩ | 1 => ⟨50, 50⟩ | 2 => ⟨0, 50⟩,
      fun i => match i with | 0 => none | 1 => none | 2 => some 0⟩

/-- The two-triangle navmesh of the C4 scenario. -/
def c4Mesh : NavMesh := ⟨[c4Tri0, c4Tri1]⟩

/-- The portal list the funnel run of the C4 scenario operates on: the
oriented shared edge followed by the zero-width end portal. -/
def c4Portals : List (Vec2 ℚ × Vec2 ℚ) := [(⟨0, 50⟩, ⟨50, 0⟩), (⟨45, 45⟩, ⟨45, 45⟩)]

/-! ## HPA* hierarchical grid pathfinding (src/core-sim/src/pathfinding/hpa.rs) -/

/-- `hpa.rs` `GridMap`: row-major wall grid. `walls.getD _ false` models the
in-bounds index `walls[(y*w+x) as usize]`; the bounds test below guards it
exactly as in the source whenever `walls.length = width*height`. -/
structure GridMap where
  width : ℤ
  height : ℤ
  walls : List Bool
deriving DecidableEq, Repr

def GridMap.new (w h : ℤ) : GridMap := ⟨w, h, List.replicate (w * h).toNat false⟩

/-- `GridMap::is_walkable`. -/
def GridMap.is_walkable (g : GridMap) (pos : Vec2 ℤ) : Bool :=
  if pos.x < 0 ∨ pos.x ≥ g.width ∨ pos.y < 0 ∨ pos.y ≥ g.height then false
  else !(g.walls.getD (pos.y * g.width + pos.x).toNat false)

/-- `GridMap::set_obstacle`. -/
def GridMap.set_obstacle (g : GridMap) (pos : Vec2 ℤ) (is_wall : Bool) : GridMap :=
  if pos.x ≥ 0 ∧ pos.x < g.width ∧ pos.y ≥ 0 ∧ pos.y < g.height then
    ⟨g.width, g.height, g.walls.set (pos.y * g.width + pos.x).toNat is_wall⟩
  else g

/-- `glam::IVec2` componentwise addition. -/
instance : Add (Vec2 ℤ) := ⟨fun a b => ⟨a.x + b.x, a.y + b.y⟩⟩

/-- `glam::IVec2` scalar multiplication `v * k`. -/
def vscale (v : Vec2 ℤ) (k : ℤ) : Vec2 ℤ := ⟨v.x * k, v.y * k⟩

/-- `hpa.rs` `PortalNode` (`PortalId` is a bare `usize`, embedded as `ℕ`). -/
structure PortalNode where
  id : ℕ
  pos : Vec2 ℤ
  cluster_xy : Vec2 ℤ
deriving DecidableEq, Repr

def defaultPortal : PortalNode := ⟨0, ⟨0, 0⟩, ⟨0, 0⟩⟩

/-- `hpa.rs` `AbstractEdge` (`toId` is the source's `to` field; `to` is a
Lean keyword). -/
structure AbstractEdge where
  toId : ℕ
  cost : ℕ
  is_inter_cluster : Bool
  cached_path : Option (List (Vec2 ℤ))
deriving DecidableEq, Repr

/-- `hpa.rs` `HPAGrid`. The Rust `cluster_lookup` keys clusters by the
string `"x,y"`; since `(x, y) ↦ "x,y"` is injective this is the same map
as one keyed by the coordinate pair, which is how it is embedded
(association list, first match = the unique entry). -/
structure HPAGrid where
  grid : GridMap
  cluster_size : ℤ
  portals : List PortalNode
  graph : List (List AbstractEdge)
  cluster_lookup : List ((ℤ × ℤ) × List ℕ)
deriving DecidableEq, Repr

def HPAGrid.new (g : GridMap) (cs : ℤ) : HPAGrid := ⟨g, cs, [], [], []⟩

/-- `hpa.rs` `heuristic`: Manhattan distance as `u32`. -/
def hpaHeuristic (a b : Vec2 ℤ) : ℕ := (a.x - b.x).natAbs + (a.y - b.y).natAbs

/-- The neighbor closure of `a_star_local`: the four axis steps, kept when
inside the `[min, max)` box and walkable, each with unit cost. -/
def localNeighbors (g : GridMap) (bmin bmax : Vec2 ℤ) (pos : Vec2 ℤ) :
    List (Vec2 ℤ × ℕ) :=
  [(⟨0, 1⟩ : Vec2 ℤ), ⟨0, -1⟩, ⟨1, 0⟩, ⟨-1, 0⟩].filterMap (fun dir =>
    let next := pos + dir
    if bmin.x ≤ next.x ∧ next.x < bmax.x ∧ bmin.y ≤ next.y ∧ next.y < bmax.y then
      if g.is_walkable next then some (next, 1) else none
    else none)

/-- `u32` `<` as used by the generic A* when instantiated at `C = u32`. -/
def natLt (a b : ℕ) : Bool := decide (a < b)

/-- `hpa.rs` `a_star_local`: the generic A* on grid cells, bounded to a box. -/
def a_star_local (g : GridMap) (fuel : ℕ) (start endp bmin bmax : Vec2 ℤ) :
    Option (Option (ℕ × List (Vec2 ℤ))) :=
  a_star natLt (fun a b => a + b) 0 fuel start (localNeighbors g bmin bmax)
    (fun pos => hpaHeuristic pos endp) (fun pos => pos == endp)

/-- `HashMap::entry(key).or_default().push(id)`: append to the existing
entry, else create a singleton entry. -/
def entryPush (k : ℤ × ℤ) (v : ℕ) :
    List ((ℤ × ℤ) × List ℕ) → List ((ℤ × ℤ) × List ℕ)
  | [] => [(k, [v])]
  | (k', vs) :: rest =>
    if k' = k then (k', vs ++ [v]) :: rest else (k', vs) :: entryPush k v rest

/-- The state threaded by `create_portals`' `add_portal` closure: the portal
vector and the cluster lookup. -/
def addPortal (st : List PortalNode × List ((ℤ × ℤ) × List ℕ)) (pos : Vec2 ℤ)
    (cx cy : ℤ) : List PortalNode × List ((ℤ × ℤ) × List ℕ) :=
  (st.1 ++ [⟨st.1.length, pos, ⟨cx, cy⟩⟩], entryPush (cx, cy) st.1.length st.2)

/-- `HPAGrid::place_portals_in_segment`: two portals at the segment ends if
it is longer than 5, else one in the middle; each placement adds the cell
and its across-the-border neighbor. -/
def placePortals (st : List PortalNode × List ((ℤ × ℤ) × List ℕ))
    (start : Vec2 ℤ) (len : ℤ) (step ndir : Vec2 ℤ) (c1x c1y c2x c2y : ℤ) :
    List PortalNode × List ((ℤ × ℤ) × List ℕ) :=
  let targets := if len > 5 then [start, start + vscale step (len - 1)]
    else [start + vscale step (len.tdiv 2)]
  targets.foldl (fun st t => addPortal (addPortal st t c1x c1y) (t + ndir) c2x c2y) st

/-- One iteration of `scan_boundary`'s `for` loop over the cursor,
open-segment start, segment length and portal state. -/
def scanStep (g : GridMap) (step ndir : Vec2 ℤ) (c1x c1y c2x c2y : ℤ)
    (acc : Vec2 ℤ × Option (Vec2 ℤ) × ℤ ×
      (List PortalNode × List ((ℤ × ℤ) × List ℕ))) (_i : ℕ) :
    Vec2 ℤ × Option (Vec2 ℤ) × ℤ × (List PortalNode × List ((ℤ × ℤ) × List ℕ)) :=
  let cur := acc.1
  let walkable := g.is_walkable cur && g.is_walkable (cur + ndir)
  if walkable then
    (cur + step, some (acc.2.1.getD cur), acc.2.2.1 + 1, acc.2.2.2)
  else
    match acc.2.1 with
    | some s =>
      (cur + step, none, 0,
       placePortals acc.2.2.2 s acc.2.2.1 step ndir c1x c1y c2x c2y)
    | none => (cur + step, none, acc.2.2.1, acc.2.2.2)

/-- `HPAGrid::scan_boundary`: walk `length` cells from `start_pos` along
`step`, tracking maximal runs where both the cell and its `ndir` neighbor
are walkable, placing portals when a run ends (and at the very limit). -/
def scanBoundary (g : GridMap) (start_pos step : Vec2 ℤ) (length : ℤ)
    (ndir : Vec2 ℤ) (c1x c1y c2x c2y : ℤ)
    (st0 : List PortalNode × List ((ℤ × ℤ) × List ℕ)) :
    List PortalNode × List ((ℤ × ℤ) × List ℕ) :=
  let fin := (List.range length.toNat).foldl
    (scanStep g step ndir c1x c1y c2x c2y) (start_pos, none, 0, st0)
  match fin.2.1 with
  | some s => placePortals fin.2.2.2 s fin.2.2.1 step ndir c1x c1y c2x c2y
  | none => fin.2.2.2

/-- `HPAGrid::create_portals`: scan every vertical and horizontal cluster
boundary. -/
def createPortals (g : GridMap) (cs : ℤ) :
    List PortalNode × List ((ℤ × ℤ) × List ℕ) :=
  let clusters_w := (g.width + cs - 1).tdiv cs
  let clusters_h := (g.height + cs - 1).tdiv cs
  let st1 := (List.range (clusters_w - 1).toNat).foldl (fun st cxn =>
    (List.range clusters_h.toNat).foldl (fun st cyn =>
      let cx : ℤ := cxn
      let cy : ℤ := cyn
      let border_x := (cx + 1) * cs - 1
      let y_start := cy * cs
      let y_end := min (y_start + cs) g.height
      scanBoundary g ⟨border_x, y_start⟩ ⟨0, 1⟩ (y_end - y_start) ⟨1, 0⟩
        cx cy (cx + 1) cy st) st) ([], [])
  (List.range clusters_w.toNat).foldl (fun st cxn =>
    (List.range (clusters_h - 1).toNat).foldl (fun st cyn =>
      let cx : ℤ := cxn
      let cy : ℤ := cyn
      let border_y := (cy + 1) * cs - 1
      let x_start := cx * cs
      let x_end := min (x_start + cs) g.width
      scanBoundary g ⟨x_start, border_y⟩ ⟨1, 0⟩ (x_end - x_start) ⟨0, 1⟩
        cx cy cx (cy + 1) st) st) st1

/-- `build_inter_cluster_edges`' `pos_map`: later inserts shadow earlier
ones (prepend + first-match lookup models `HashMap::insert`). -/
def buildPosMap (portals : List PortalNode) : List (Vec2 ℤ × ℕ) :=
  portals.foldl (fun m p => (p.pos, p.id) :: m) []

/-- The inter-cluster edges of one portal: a unit-cost edge to any portal
one axis step away that lies in a different cluster. -/
def interEdgesFor (portals : List PortalNode) (pos_map : List (Vec2 ℤ × ℕ))
    (p : PortalNode) : List AbstractEdge :=
  [(⟨1, 0⟩ : Vec2 ℤ), ⟨-1, 0⟩, ⟨0, 1⟩, ⟨0, -1⟩].filterMap (fun dir =>
    match alookup (p.pos + dir) pos_map with
    | none => none
    | some nid =>
      if (portals.getD nid defaultPortal).cluster_xy ≠ p.cluster_xy then
        some ⟨nid, 1, true, none⟩
      else none)

/-- `HPAGrid::build_inter_cluster_edges`. -/
def build_inter_cluster_edges (H : HPAGrid) : HPAGrid :=
  let pos_map := buildPosMap H.portals
  let graph' := H.portals.foldl (fun gr p =>
    gr.set p.id (gr.getD p.id [] ++ interEdgesFor H.portals pos_map p)) H.graph
  ⟨H.grid, H.cluster_size, H.portals, graph', H.cluster_lookup⟩

/-- The `(i, j), i < j` index pairs of `build_intra_cluster_edges`' nested
loops, as value pairs. -/
def pairsAux : List ℕ → List (ℕ × ℕ)
  | [] => []
  | a :: rest => rest.map (fun b => (a, b)) ++ pairsAux rest

/-- One cluster's pass of `build_intra_cluster_edges`: local A* between
each portal pair, adding the edge and its reverse on success (`none` =
some local search ran out of fuel). -/
def addIntraPairs (g : GridMap) (fuel : ℕ) (portals : List PortalNode)
    (bmin bmax : Vec2 ℤ) :
    List (ℕ × ℕ) → List (List AbstractEdge) → Option (List (List AbstractEdge))
  | [], graph => some graph
  | (a, b) :: rest, graph =>
    let pos_a := (portals.getD a defaultPortal).pos
    let pos_b := (portals.getD b defaultPortal).pos
    match a_star_local g fuel pos_a pos_b bmin bmax with
    | none => none
    | some none => addIntraPairs g fuel portals bmin bmax rest graph
    | some (some (cost, path)) =>
      let g1 := graph.set a (graph.getD a [] ++ [⟨b, cost, false, some path⟩])
      let g2 := g1.set b (g1.getD b [] ++ [⟨a, cost, false, some path.reverse⟩])
      addIntraPairs g fuel portals bmin bmax rest g2

/-- `HPAGrid::build_intra_cluster_edges`: iterate the cluster lookup
(association-list order stands in for the unspecified `HashMap` iteration
order), skipping clusters with fewer than two portals. -/
def intraLoop (g : GridMap) (cs : ℤ) (fuel : ℕ) (portals : List PortalNode) :
    List ((ℤ × ℤ) × List ℕ) → List (List AbstractEdge) →
    Option (List (List AbstractEdge))
  | [], graph => some graph
  | ((cx, cy), ids) :: rest, graph =>
    if ids.length < 2 then intraLoop g cs fuel portals rest graph
    else
      let bmin : Vec2 ℤ := ⟨cx * cs, cy * cs⟩
      let bmax : Vec2 ℤ := ⟨min ((cx + 1) * cs) g.width, min ((cy + 1) * cs) g.height⟩
      match addIntraPairs g fuel portals bmin bmax (pairsAux ids) graph with
      | none => none
      | some graph' => intraLoop g cs fuel portals rest graph'

/-- `HPAGrid::build`: portals, empty adjacency list of the right length,
inter-cluster then intra-cluster edges. -/
def HPAGrid.build (fuel : ℕ) (H : HPAGrid) : Option HPAGrid :=
  let pl := createPortals H.grid H.cluster_size
  let H1 : HPAGrid :=
    ⟨H.grid, H.cluster_size, pl.1, List.replicate pl.1.length [], pl.2⟩
  let H2 := build_inter_cluster_edges H1
  match intraLoop H2.grid H2.cluster_size fuel H2.portals H2.cluster_lookup H2.graph with
  | none => none
  | some graph' => some ⟨H2.grid, H2.cluster_size, H2.portals, graph', H2.cluster_lookup⟩

/-- `hpa.rs` `State`: the abstract-search priority-queue entry. -/
structure AState where
  cost : ℕ
  position : ℕ
  heuristic_cost : ℕ
deriving DecidableEq, Repr

/-- `State`'s `Ord` restated as "pops before": smaller `heuristic_cost`
first, ties broken toward larger `cost`. -/
def astateBefore (a b : AState) : Bool :=
  decide (a.heuristic_cost < b.heuristic_cost) ||
    (a.heuristic_cost == b.heuristic_cost && decide (b.cost < a.cost))

/-- `BinaryHeap::pop` of the abstract search: an element no other element
pops before (ties resolved to the first such element, one legal heap
behaviour). -/
def popAbs : List AState → Option (AState × List AState)
  | [] => none
  | x :: xs =>
    match popAbs xs with
    | none => some (x, [])
    | some (m, rest) => if astateBefore m x then some (m, x :: rest) else some (x, xs)

def u32MAX : ℕ := 4294967295

/-- The position of portal `i` (`self.portals[i].pos`; out-of-range reads,
which panic in Rust, read the placeholder portal). -/
def portalPos (portals : List PortalNode) (i : ℕ) : Vec2 ℤ :=
  (portals.getD i defaultPortal).pos

/-- The body of the abstract search's `for edge in edges` loop: relax the
edge when strictly better than the recorded distance (`u32::MAX` when
absent), pushing the new state and recording the parent together with the
concrete path segment the edge stands for. -/
def abstractStep (portals : List PortalNode) (endp : Vec2 ℤ) (position cost : ℕ)
    (acc : List AState × List (ℕ × ℕ) × List (ℕ × (ℕ × List (Vec2 ℤ))))
    (edge : AbstractEdge) :
    List AState × List (ℕ × ℕ) × List (ℕ × (ℕ × List (Vec2 ℤ))) :=
  let new_cost := cost + edge.cost
  if new_cost < (alookup edge.toId acc.2.1).getD u32MAX then
    let h := new_cost + hpaHeuristic (portalPos portals edge.toId) endp
    let segment := if edge.is_inter_cluster then
        [portalPos portals position, portalPos portals edge.toId]
      else edge.cached_path.getD []
    (⟨new_cost, edge.toId, h⟩ :: acc.1,
     (edge.toId, new_cost) :: acc.2.1,
     (edge.toId, (position, segment)) :: acc.2.2)
  else acc

/-- The `while let Some(State {..}) = pq.pop()` loop of
`HPAGrid::find_path`'s abstract search, fueled. Returns the chosen final
portal (`none` when the queue empties without touching the end cluster)
and the final `came_from` map of `(parent, path segment)` records. -/
def abstractLoop (portals : List PortalNode) (graph : List (List AbstractEdge))
    (end_costs : List (ℕ × (ℕ × List (Vec2 ℤ)))) (endp : Vec2 ℤ) :
    ℕ → List AState → List (ℕ × ℕ) → List (ℕ × (ℕ × List (Vec2 ℤ))) →
    Option (Option ℕ × List (ℕ × (ℕ × List (Vec2 ℤ))))
  | 0, _, _, _ => none
  | fuel + 1, pq, dists, came_from =>
    match popAbs pq with
    | none => some (none, came_from)
    | some (s, pq') =>
      if (alookup s.position end_costs).isSome then some (some s.position, came_from)
      else if (alookup s.position dists).elim false (fun d => decide (d < s.cost)) then
        abstractLoop portals graph end_costs endp fuel pq' dists came_from
      else
        let st := (graph.getD s.position []).foldl
          (abstractStep portals endp s.position s.cost) (pq', dists, came_from)
        abstractLoop portals graph end_costs endp fuel st.1 st.2.1 st.2.2

/-- The per-portal local connection runs of `find_path` (start cluster:
`start → portal`; end cluster: `portal → end`), with `ends` giving each
run's endpoints. `none` propagates a local search running out of fuel. -/
def portalRuns (g : GridMap) (fuel : ℕ) (bmin bmax : Vec2 ℤ)
    (ends : ℕ → Vec2 ℤ × Vec2 ℤ) :
    List ℕ → Option (List (ℕ × ℕ × List (Vec2 ℤ)))
  | [] => some []
  | pid :: rest =>
    match a_star_local g fuel (ends pid).1 (ends pid).2 bmin bmax with
    | none => none
    | some none => portalRuns g fuel bmin bmax ends rest
    | some (some (c, p)) =>
      (portalRuns g fuel bmin bmax ends rest).map (fun l => (pid, c, p) :: l)

/-- The backward-segments `while let Some((parent, segment)) =
came_from.get(&curr)` loop, fueled; returns the chain's first portal and
the collected segments (end segment first, as in the source). -/
def collectSegments (came_from : List (ℕ × (ℕ × List (Vec2 ℤ)))) :
    ℕ → ℕ → List (List (Vec2 ℤ)) → Option (ℕ × List (List (Vec2 ℤ)))
  | 0, _, _ => none
  | fuel + 1, curr, acc =>
    match alookup curr came_from with
    | none => some (curr, acc)
    | some ps => collectSegments came_from fuel ps.1 (acc ++ [ps.2])

/-- One step of `find_path`'s final concatenation: drop the joining point
when the accumulated path already ends with the segment's first cell. -/
def joinStep (full seg : List (Vec2 ℤ)) : List (Vec2 ℤ) :=
  if full ≠ [] ∧ seg ≠ [] then
    if full.getLast? = seg.head? then full ++ seg.tail else full ++ seg
  else full ++ seg

/-- `HPAGrid::find_path`. Outer `none` = a fueled loop ran out (or one of
the `unwrap`s that cannot fail in real runs would have panicked); inner
`Option` is the source's return value. -/
def HPAGrid.find_path (H : HPAGrid) (fuel : ℕ) (start endp : Vec2 ℤ) :
    Option (Option (List (Vec2 ℤ))) :=
  if ¬(H.grid.is_walkable start = true) ∨ ¬(H.grid.is_walkable endp = true) then
    some none
  else
    let cs := H.cluster_size
    let start_c : Vec2 ℤ := ⟨start.x.tdiv cs, start.y.tdiv cs⟩
    let end_c : Vec2 ℤ := ⟨endp.x.tdiv cs, endp.y.tdiv cs⟩
    if start_c = end_c then
      let bounds_min := vscale start_c cs
      let bounds_max : Vec2 ℤ := ⟨bounds_min.x + cs, bounds_min.y + cs⟩
      match a_star_local H.grid fuel start endp bounds_min bounds_max with
      | none => none
      | some res => some (res.map (fun x => x.2))
    else
      let start_portals := (alookup (start_c.x, start_c.y) H.cluster_lookup).getD []
      let sb_min := vscale start_c cs
      let sb_max : Vec2 ℤ := ⟨sb_min.x + cs, sb_min.y + cs⟩
      match portalRuns H.grid fuel sb_min sb_max
          (fun pid => (start, portalPos H.portals pid)) start_portals with
      | none => none
      | some start_edges =>
        if start_edges = [] then some none
        else
          let end_portals := (alookup (end_c.x, end_c.y) H.cluster_lookup).getD []
          let eb_min := vscale end_c cs
          let eb_max : Vec2 ℤ := ⟨eb_min.x + cs, eb_min.y + cs⟩
          match portalRuns H.grid fuel eb_min eb_max
              (fun pid => (portalPos H.portals pid, endp)) end_portals with
          | none => none
          | some end_runs =>
            if end_runs = [] then some none
            else
              let end_costs := end_runs.foldl
                (fun m r => (r.1, r.2) :: m) ([] : List (ℕ × (ℕ × List (Vec2 ℤ))))
              let dists0 := start_edges.foldl
                (fun m r => (r.1, r.2.1) :: m) ([] : List (ℕ × ℕ))
              let pq0 := start_edges.map (fun r =>
                (⟨r.2.1, r.1, r.2.1 + hpaHeuristic (portalPos H.portals r.1) endp⟩ : AState))
              let start_connections := start_edges.foldl
                (fun m r => (r.1, r.2.2) :: m) ([] : List (ℕ × List (Vec2 ℤ)))
              match abstractLoop H.portals H.graph end_costs endp fuel pq0 dists0 [] with
              | none => none
              | some (none, _) => some none
              | some (some last_p, came_from) =>
                match alookup last_p end_costs with
                | none => none
                | some ec =>
                  match collectSegments came_from fuel last_p [ec.2] with
                  | none => none
                  | some (first, segs) =>
                    match alookup first start_connections with
                    | none => some none
                    | some sseg =>
                      some (some ((segs ++ [sseg]).reverse.foldl joinStep []))

/-! ## Theorems -/

theorem getD_map_const_none (l : List (Option ℕ)) (k : ℕ) :
    (l.map fun _ => (none : Option ℕ)).getD k none = none := by
  induction l generalizing k with
  | nil => simp
  | cons a l ih =>
    cases k with
    | zero => simp
    | succ k => simp only [List.map_cons, List.getD_cons_succ]; exact ih k

theorem getD_set_self {α : Type} (v d : α) :
    ∀ (l : List α) (i : ℕ), i < l.length → (l.set i v).getD i d = v := by
  intro l
  induction l with
  | nil => intro i h; simp at h
  | cons a l ih =>
    intro i h
    cases i with
    | zero => simp
    | succ k => simpa using ih k (by simpa using h)

theorem getD_set_ne {α : Type} (v d : α) :
    ∀ (l : List α) (i j : ℕ), i ≠ j → (l.set i v).getD j d = l.getD j d := by
  intro l
  induction l with
  | nil => intro i j h; simp
  | cons a l ih =>
    intro i j h
    cases i with
    | zero =>
      cases j with
      | zero => exact absurd rfl h
      | succ m => simp
    | succ k =>
      cases j with
      | zero => simp
      | succ m => simpa using ih k m (by omega)

theorem popMin_eq_none {l : List (ℕ × ℕ)} : popMin l = none ↔ l = [] := by
  cases l with
  | nil => simp [popMin]
  | cons x xs =>
    simp only [popMin]
    cases h : popMin xs with
    | none => simp
    | some pr => cases pr with | mk m rest => by_cases hle : x.1 ≤ m.1 <;> simp [hle]

theorem popMin_perm {l : List (ℕ × ℕ)} {m : ℕ × ℕ} {rest : List (ℕ × ℕ)}
    (h : popMin l = some (m, rest)) : l.Perm (m :: rest) := by
  induction l generalizing m rest with
  | nil => simp [popMin] at h
  | cons x xs ih =>
    unfold popMin at h
    cases h2 : popMin xs with
    | none =>
      rw [h2] at h
      have hxs : xs = [] := popMin_eq_none.mp h2
      simp only [Option.some.injEq, Prod.mk.injEq] at h
      obtain ⟨rfl, rfl⟩ := h
      rw [hxs]
    | some pr =>
      obtain ⟨m', rest'⟩ := pr
      rw [h2] at h
      dsimp only at h
      by_cases hle : x.1 ≤ m'.1
      · rw [if_pos hle] at h
        simp only [Option.some.injEq, Prod.mk.injEq] at h
        obtain ⟨rfl, rfl⟩ := h
        exact List.Perm.refl _
      · rw [if_neg hle] at h
        simp only [Option.some.injEq, Prod.mk.injEq] at h
        obtain ⟨rfl, rfl⟩ := h
        exact ((ih h2).cons x).trans (List.Perm.swap m' x rest')

theorem scanGrad_foldl (w h : ℕ) (integ : List (Option ℕ)) (i : ℕ)
    (L : List ((ℤ × ℤ) × Vec2 ℚ)) :
    ∀ (best : Option ℕ) (g : Vec2 ℚ),
    (L.foldl (gradStep w h integ i) (best, g)).2 = scanGrad w h integ i L best g := by
  induction L with
  | nil => intro best g; rfl
  | cons dd rest ih =>
    intro best g
    simp only [List.foldl_cons, scanGrad]
    cases hs : stepIdx w h i dd.1 with
    | none =>
      rw [show gradStep w h integ i (best, g) dd = (best, g) by
        unfold gradStep; rw [hs]]
      exact ih best g
    | some n =>
      show _ = if oLt (integ.getD n none) best = true then
          scanGrad w h integ i rest (integ.getD n none) dd.2
        else scanGrad w h integ i rest best g
      by_cases ho : oLt (integ.getD n none) best = true
      · rw [show gradStep w h integ i (best, g) dd = (integ.getD n none, dd.2) by
          unfold gradStep; rw [hs]; exact if_pos ho]
        rw [if_pos ho]
        exact ih (integ.getD n none) dd.2
      · rw [show gradStep w h integ i (best, g) dd = (best, g) by
          unfold gradStep; rw [hs]; exact if_neg ho]
        rw [if_neg ho]
        exact ih best g

theorem gradAt_eq_specGradient (w h : ℕ) (costs : List ℕ)
    (integ : List (Option ℕ)) (i : ℕ) :
    gradAt w h costs integ i = specGradient w h costs integ i := by
  unfold gradAt specGradient
  by_cases hw : costs.getD i 0 = 255
  · rw [if_pos hw, if_pos hw]
  · rw [if_neg hw, if_neg hw]
    exact scanGrad_foldl w h integ i vecDirs (integ.getD i none) ⟨0, 0⟩

theorem popMin_mem {l : List (ℕ × ℕ)} {m : ℕ × ℕ} {rest : List (ℕ × ℕ)}
    (h : popMin l = some (m, rest)) : ∀ e ∈ rest, e ∈ l :=
  fun _ he => (popMin_perm h).mem_iff.mpr (List.mem_cons_of_mem m he)

/-- C6: after `generate_target` (with the rounded target in bounds), every
cell's stored vector follows the fixed-order up/right/down/left scan rule
(`specGradient`), walls getting the zero vector; and on the 10×10
all-walkable field with target (5,5): `integration[5,5] = 0`,
`integration[0,0] = 10`, `vectors[5,5] = (0,0)`, `vectors[0,0] = (1,0)`. -/
theorem C6_gradient_rule :
    (∀ (fuel : ℕ) (f f' : FlowField) (tx ty : ℚ),
        intToUsize (rustRound tx) < f.width →
        intToUsize (rustRound ty) < f.height →
        FlowField.generate_target fuel f tx ty = some f' →
        f'.vectors = (List.range (f.width * f.height)).map
          (specGradient f.width f.height f.costs f'.integration)) ∧
    (FlowField.generate_target 4000 (FlowField.new 10 10) 5 5).map
        (fun f => (f.integration.getD 55 none, f.integration.getD 0 none,
          f.vectors.getD 55 ⟨9, 9⟩, f.vectors.getD 0 ⟨9, 9⟩))
      = some (some 0, some 10, ⟨0, 0⟩, ⟨1, 0⟩) := by
  constructor
  · intro fuel f f' tx ty hx hy hgen
    unfold FlowField.generate_target at hgen
    rw [if_neg (by omega :
      ¬ (intToUsize (rustRound tx) ≥ f.width ∨ intToUsize (rustRound ty) ≥ f.height))] at hgen
    dsimp only at hgen
    cases hdl : dijkstraLoop f.width f.height f.costs fuel
        ((f.integration.map fun _ => (none : Option ℕ)).set
          (intToUsize (rustRound ty) * f.width + intToUsize (rustRound tx)) (some 0))
        [(0, intToUsize (rustRound ty) * f.width + intToUsize (rustRound tx))] with
    | none => rw [hdl] at hgen; exact absurd hgen (by simp)
    | some integ' =>
      rw [hdl] at hgen
      have hf' := (Option.some.injEq _ _).mp hgen
      subst hf'
      show FlowField.generate_vectors f.width f.height f.costs integ' = _
      unfold FlowField.generate_vectors
      have : gradAt f.width f.height f.costs integ'
          = specGradient f.width f.height f.costs integ' :=
        funext fun i => gradAt_eq_specGradient f.width f.height f.costs integ' i
      rw [this]
  · decide

/-- C6 witness: the general clause instantiated on the 10×10 field. -/
theorem C6_witness :
    ∃ f', FlowField.generate_target 4000 (FlowField.new 10 10) 5 5 = some f' ∧
      f'.vectors = (List.range 100).map
        (specGradient 10 10 (List.replicate 100 1) f'.integration) := by
  cases hg : FlowField.generate_target 4000 (FlowField.new 10 10) 5 5 with
  | none => exact absurd hg (by decide)
  | some f' =>
    exact ⟨f', rfl, C6_gradient_rule.1 4000 (FlowField.new 10 10) f' 5 5
      (by decide) (by decide) hg⟩

/-- C8 counterexample: the claim says a negative rounded coordinate yields
the zero vector, but `as usize` saturates negatives to column 0: on a 2×1
field freshly targeted at (1,0), `get_direction(-0.6, 0)` rounds x to the
negative value -1 yet returns the stored gradient (1,0) of cell 0. -/
theorem C8_counterexample :
    rustRound (mkRat (-3) 5) < 0 ∧
    (FlowField.generate_target 100 (FlowField.new 2 1) 1 0).map
        (fun f => f.get_direction (mkRat (-3) 5) 0) = some ⟨1, 0⟩ ∧
    (⟨1, 0⟩ : Vec2 ℚ) ≠ ⟨0, 0⟩ := by
  refine ⟨by decide, ?_, by decide⟩
  decide

/-- C8 (amended): `get_direction` returns the zero vector exactly when the
saturating-rounded coordinates land at or beyond the width/height; negative
inputs saturate to row/column 0 and return that cell's stored gradient. -/
theorem C8_get_direction_oob (f : FlowField) (x y : ℚ)
    (h : f.width ≤ intToUsize (rustRound x) ∨ f.height ≤ intToUsize (rustRound y)) :
    f.get_direction x y = ⟨0, 0⟩ := by
  unfold FlowField.get_direction
  rw [if_pos h]

/-- C8 witness: a coordinate rounding past the width returns zero. -/
theorem C8_witness : (FlowField.new 2 1).get_direction 5 0 = ⟨0, 0⟩ :=
  C8_get_direction_oob (FlowField.new 2 1) 5 0 (Or.inl (by decide))

/-- C9 counterexample: on the 5×5 wall-column field targeted at (4,2) the
integration of cell (0,2) is not 6 (the route 0,2 → 1,2 → 2,2 → 3,2 → 4,2
has four steps of cost 1, so the code computes 4). -/
theorem C9_counterexample :
    ¬ ((FlowField.generate_target 2000 wallColumnField 4 2).map
        (fun f => f.integration.getD 10 none) = some (some 6)) := by
  decide

/-- C9 (amended): on the 5×5 field with column x=2 walled except (2,2),
after `generate_target(4,2)`: `integration[0,2] = 4`, every wall cell has
the zero gradient, and `get_direction(0,2) = (1,0)`. -/
theorem C9_wall_scenario :
    (FlowField.generate_target 2000 wallColumnField 4 2).map
        (fun f => (f.integration.getD 10 none, f.get_direction 0 2))
      = some (some 4, ⟨1, 0⟩) ∧
    (FlowField.generate_target 2000 wallColumnField 4 2).map
        (fun f => (f.vectors.getD 2 ⟨9, 9⟩, f.vectors.getD 7 ⟨9, 9⟩,
          f.vectors.getD 17 ⟨9, 9⟩, f.vectors.getD 22 ⟨9, 9⟩))
      = some (⟨0, 0⟩, ⟨0, 0⟩, ⟨0, 0⟩, ⟨0, 0⟩) :=
  ⟨by decide, by decide⟩

theorem idx_lt {w h a b : ℕ} (ha : a < h) (hb : b < w) : a * w + b < w * h := by
  calc a * w + b < a * w + w := by omega
    _ = (a + 1) * w := by ring
    _ ≤ h * w := Nat.mul_le_mul_right w ha
    _ = w * h := Nat.mul_comm h w

theorem stepIdx_lt {w h i : ℕ} {d : ℤ × ℤ} {n : ℕ} (hs : stepIdx w h i d = some n) :
    n < w * h := by
  unfold stepIdx at hs
  dsimp only at hs
  split at hs
  · rename_i hcond
    obtain ⟨h1, h2, h3, h4⟩ := hcond
    simp only [Option.some.injEq] at hs
    subst hs
    exact idx_lt (by omega) (by omega)
  · exact absurd hs (by simp)

theorem validPath_single (w h : ℕ) (costs : List ℕ) (t : ℕ) :
    ValidPath w h costs t t [t] ∧ pathCost costs [t] = 0 := by
  refine ⟨⟨rfl, rfl, List.chain'_singleton t, ?_⟩, rfl⟩
  intro j hj
  simp at hj

theorem validPath_extend {w h : ℕ} {costs : List ℕ} {t i n : ℕ} {p : List ℕ}
    (hp : ValidPath w h costs t i p) (hadj : cellAdj w h i n)
    (hc : costs.getD n 0 < 255) :
    ValidPath w h costs t n (p ++ [n]) ∧
      pathCost costs (p ++ [n]) = pathCost costs p + costs.getD n 0 := by
  obtain ⟨hhead, hlast, hchain, htail⟩ := hp
  obtain ⟨a, p', rfl⟩ : ∃ a p', p = a :: p' := by
    cases p with
    | nil => simp at hhead
    | cons a p' => exact ⟨a, p', rfl⟩
  have ha : a = t := by simpa using hhead
  refine ⟨⟨?_, ?_, ?_, ?_⟩, ?_⟩
  · simpa using ha
  · exact List.getLast?_concat _
  · rw [List.chain'_append]
    refine ⟨hchain, List.chain'_singleton n, ?_⟩
    intro x hx y hy
    simp only [List.head?_cons, Option.mem_def, Option.some.injEq] at hy
    rw [hlast] at hx
    simp only [Option.mem_def, Option.some.injEq] at hx
    subst hx; subst hy
    exact hadj
  · intro j hj
    simp only [List.cons_append, List.tail_cons, List.mem_append,
      List.mem_singleton] at hj
    rcases hj with hj | rfl
    · exact htail j hj
    · exact hc
  · simp only [pathCost, List.cons_append, List.tail_cons, List.map_append,
      List.sum_append, List.map_cons, List.map_nil, List.sum_cons, List.sum_nil]
    omega

theorem integLE_refl (a : List (Option ℕ)) : integLE a a :=
  ⟨rfl, fun _ v hv => ⟨v, hv, le_refl v⟩⟩

theorem integLE_trans {a b c : List (Option ℕ)} (h1 : integLE a b) (h2 : integLE b c) :
    integLE a c := by
  refine ⟨h1.1.trans h2.1, ?_⟩
  intro k v hv
  obtain ⟨u, hu, huv⟩ := h2.2 k v hv
  obtain ⟨u', hu', hu'u⟩ := h1.2 k u hu
  exact ⟨u', hu', hu'u.trans huv⟩

theorem relaxOne_step {w h : ℕ} {costs : List ℕ} {t c i : ℕ}
    {integ : List (Option ℕ)} {q : List (ℕ × ℕ)} {d : ℤ × ℤ}
    (hd : d ∈ dijkDirs) (hm : MidInv w h costs t c i integ q) :
    MidInv w h costs t c i (relaxOne costs w h c i (integ, q) d).1
        (relaxOne costs w h c i (integ, q) d).2 ∧
    integLE (relaxOne costs w h c i (integ, q) d).1 integ ∧
    (∀ n, stepIdx w h i d = some n → costs.getD n 0 < 255 →
       ∃ dn, (relaxOne costs w h c i (integ, q) d).1.getD n none = some dn ∧
         dn ≤ c + costs.getD n 0) := by
  cases hs : stepIdx w h i d with
  | none =>
    have heq : relaxOne costs w h c i (integ, q) d = (integ, q) := by
      unfold relaxOne; rw [hs]
    rw [heq]
    refine ⟨hm, integLE_refl integ, ?_⟩
    intro n hn
    exact absurd hn (by simp)
  | some n =>
    have hnlt : n < w * h := stepIdx_lt hs
    have hadj : cellAdj w h i n := ⟨d, hd, hs⟩
    by_cases htile : costs.getD n 0 < 255
    · by_cases hrel : fLt (c + costs.getD n 0) (integ.getD n none) = true
      · -- relaxation fires
        have heq : relaxOne costs w h c i (integ, q) d =
            (integ.set n (some (c + costs.getD n 0)),
             q ++ [(c + costs.getD n 0, n)]) := by
          unfold relaxOne; rw [hs]; dsimp only; rw [if_pos htile, if_pos hrel]
        rw [heq]
        set next := c + costs.getD n 0 with hnext
        have hnl : n < integ.length := by rw [hm.ilen]; exact hnlt
        have hget_n : (integ.set n (some next)).getD n none = some next :=
          getD_set_self (some next) none integ n hnl
        have hget_ne : ∀ k, n ≠ k →
            (integ.set n (some next)).getD k none = integ.getD k none :=
          fun k hk => getD_set_ne (some next) none integ n k hk
        have hlt_of : ∀ v, integ.getD n none = some v → next < v := by
          intro v hv
          rw [hv] at hrel
          unfold fLt at hrel
          simpa using hrel
        have htn : t ≠ n := by
          intro he
          have h0 := hm.tzero
          rw [he] at h0
          have := hlt_of 0 h0
          omega
        have hext : ∃ p, ValidPath w h costs t n p ∧ pathCost costs p = next := by
          obtain ⟨p, hp, hpc⟩ := hm.pbase
          obtain ⟨hvp, hvc⟩ := validPath_extend hp hadj htile
          exact ⟨p ++ [n], hvp, by rw [hvc, hpc]⟩
        refine ⟨⟨?_, ?_, ?_, ?_, ?_, ?_, ?_⟩, ?_, ?_⟩
        · rw [List.length_set]; exact hm.ilen
        · rw [hget_ne t (fun e => htn e.symm)]; exact hm.tzero
        · intro k dk hk
          by_cases hkn : k = n
          · subst hkn
            rw [hget_n] at hk
            obtain rfl : next = dk := by injection hk
            exact hext
          · rw [hget_ne k (fun e => hkn e.symm)] at hk
            exact hm.sound k dk hk
        · intro cq k hq
          rcases List.mem_append.mp hq with hq | hq
          · exact hm.qsound cq k hq
          · obtain ⟨h1, h2⟩ : cq = next ∧ k = n := by
              simpa [Prod.ext_iff] using hq
            subst h1; subst h2
            exact hext
        · intro cq k hq
          rcases List.mem_append.mp hq with hq | hq
          · obtain ⟨dk, hdk, hle⟩ := hm.qle cq k hq
            by_cases hkn : k = n
            · subst hkn
              have := hlt_of dk hdk
              exact ⟨next, hget_n, by omega⟩
            · exact ⟨dk, by rw [hget_ne k (fun e => hkn e.symm)]; exact hdk, hle⟩
          · obtain ⟨h1, h2⟩ : cq = next ∧ k = n := by
              simpa [Prod.ext_iff] using hq
            subst h1; subst h2
            exact ⟨next, hget_n, le_refl next⟩
        · intro k dk hk
          by_cases hkn : k = n
          · subst hkn
            rw [hget_n] at hk
            obtain rfl : next = dk := by injection hk
            exact Or.inl (List.mem_append.mpr (Or.inr (by simp)))
          · rw [hget_ne k (fun e => hkn e.symm)] at hk
            rcases hm.coverM k dk hk with hq | hst | hic
            · exact Or.inl (List.mem_append.mpr (Or.inl hq))
            · refine Or.inr (Or.inl ?_)
              intro j hj hcj
              obtain ⟨dj, hdj, hdjle⟩ := hst j hj hcj
              by_cases hjn : j = n
              · subst hjn
                have := hlt_of dj hdj
                exact ⟨next, hget_n, by omega⟩
              · exact ⟨dj, by rw [hget_ne j (fun e => hjn e.symm)]; exact hdj, hdjle⟩
            · exact Or.inr (Or.inr hic)
        · exact hm.pbase
        · refine ⟨List.length_set integ n (some next), ?_⟩
          intro k u hk
          by_cases hkn : k = n
          · subst hkn
            have := hlt_of u hk
            exact ⟨next, hget_n, by omega⟩
          · exact ⟨u, by rw [hget_ne k (fun e => hkn e.symm)]; exact hk, le_refl u⟩
        · intro n' hn' hc'
          obtain rfl : n = n' := by injection hn'
          exact ⟨next, hget_n, le_refl next⟩
      · -- neighbour already at most `next`
        have heq : relaxOne costs w h c i (integ, q) d = (integ, q) := by
          unfold relaxOne; rw [hs]; dsimp only; rw [if_pos htile, if_neg hrel]
        rw [heq]
        refine ⟨hm, integLE_refl integ, ?_⟩
        intro n' hn' hc'
        obtain rfl : n = n' := by injection hn'
        cases hv : integ.getD n none with
        | none => rw [hv] at hrel; exact absurd rfl hrel
        | some v =>
          refine ⟨v, rfl, ?_⟩
          rw [hv] at hrel
          unfold fLt at hrel
          simp only [decide_eq_true_eq] at hrel
          omega
    · have heq : relaxOne costs w h c i (integ, q) d = (integ, q) := by
        unfold relaxOne; rw [hs]; dsimp only; rw [if_neg htile]
      rw [heq]
      refine ⟨hm, integLE_refl integ, ?_⟩
      intro n' hn' hc'
      obtain rfl : n = n' := by injection hn'
      exact absurd hc' htile

theorem relax_fold {w h : ℕ} {costs : List ℕ} {t c i : ℕ} :
    ∀ (L : List (ℤ × ℤ)), (∀ x ∈ L, x ∈ dijkDirs) →
    ∀ (integ : List (Option ℕ)) (q : List (ℕ × ℕ)),
      MidInv w h costs t c i integ q →
      MidInv w h costs t c i (L.foldl (relaxOne costs w h c i) (integ, q)).1
          (L.foldl (relaxOne costs w h c i) (integ, q)).2 ∧
      integLE (L.foldl (relaxOne costs w h c i) (integ, q)).1 integ ∧
      (∀ x ∈ L, ∀ n, stepIdx w h i x = some n → costs.getD n 0 < 255 →
         ∃ dn, (L.foldl (relaxOne costs w h c i) (integ, q)).1.getD n none = some dn ∧
           dn ≤ c + costs.getD n 0) := by
  intro L
  induction L with
  | nil =>
    intro _ integ q hm
    exact ⟨hm, integLE_refl integ, by simp⟩
  | cons d L' ih =>
    intro hL integ q hm
    obtain ⟨hm1, hle1, hrc1⟩ := relaxOne_step (hL d (by simp)) hm
    obtain ⟨hm2, hle2, hrc2⟩ :=
      ih (fun x hx => hL x (List.mem_cons_of_mem d hx))
        (relaxOne costs w h c i (integ, q) d).1
        (relaxOne costs w h c i (integ, q) d).2 hm1
    rw [List.foldl_cons]
    refine ⟨hm2, integLE_trans hle2 hle1, ?_⟩
    intro x hx n hn hc
    rcases List.mem_cons.mp hx with rfl | hx'
    · obtain ⟨dn, hdn, hdnle⟩ := hrc1 n hn hc
      obtain ⟨v, hv, hvle⟩ := hle2.2 n dn hdn
      exact ⟨v, hv, hvle.trans hdnle⟩
    · exact hrc2 x hx' n hn hc

theorem dijkstraLoop_final {w h : ℕ} {costs : List ℕ} {t : ℕ} :
    ∀ (fuel : ℕ) (integ : List (Option ℕ)) (queue : List (ℕ × ℕ))
      (integ' : List (Option ℕ)),
      DijkInv w h costs t integ queue →
      dijkstraLoop w h costs fuel integ queue = some integ' →
      DijkFinal w h costs t integ' := by
  intro fuel
  induction fuel with
  | zero =>
    intro integ queue integ' _ hrun
    exact absurd hrun (by simp [dijkstraLoop])
  | succ fuel ih =>
    intro integ queue integ' hinv hrun
    unfold dijkstraLoop at hrun
    cases hpop : popMin queue with
    | none =>
      rw [hpop] at hrun
      simp only [Option.some.injEq] at hrun
      subst hrun
      have hq : queue = [] := popMin_eq_none.mp hpop
      refine ⟨hinv.tzero, hinv.sound, ?_⟩
      intro k dk hk
      rcases hinv.cover k dk hk with hmem | hst
      · rw [hq] at hmem; simp at hmem
      · exact hst
    | some pr =>
      obtain ⟨⟨c, i⟩, rest⟩ := pr
      rw [hpop] at hrun
      dsimp only at hrun
      have hperm := popMin_perm hpop
      have hmem_ci : (c, i) ∈ queue := hperm.mem_iff.mpr (by simp)
      have hmem_rest : ∀ e ∈ rest, e ∈ queue := popMin_mem hpop
      by_cases hskip : (integ.getD i none).elim false (fun v => decide (v < c)) = true
      · rw [if_pos hskip] at hrun
        apply ih integ rest integ' _ hrun
        refine ⟨hinv.ilen, hinv.tzero, hinv.sound,
          fun cq k hq => hinv.qsound cq k (hmem_rest _ hq),
          fun cq k hq => hinv.qle cq k (hmem_rest _ hq), ?_⟩
        intro k dk hk
        rcases hinv.cover k dk hk with hmemq | hst
        · rcases List.mem_cons.mp (hperm.mem_iff.mp hmemq) with hmemc | hmemr
          · obtain ⟨rfl, rfl⟩ : dk = c ∧ k = i := by
              simpa [Prod.ext_iff] using hmemc
            rw [hk] at hskip
            simp only [Option.elim, decide_eq_true_eq] at hskip
            omega
          · exact Or.inl hmemr
        · exact Or.inr hst
      · rw [if_neg hskip] at hrun
        obtain ⟨v, hv, hvle⟩ := hinv.qle c i hmem_ci
        have hvc : v = c := by
          rw [hv] at hskip
          simp only [Option.elim, decide_eq_true_eq] at hskip
          omega
        subst hvc
        have hmid : MidInv w h costs t v i integ rest := by
          refine ⟨hinv.ilen, hinv.tzero, hinv.sound,
            fun cq k hq => hinv.qsound cq k (hmem_rest _ hq),
            fun cq k hq => hinv.qle cq k (hmem_rest _ hq), ?_,
            hinv.qsound v i hmem_ci⟩
          intro k dk hk
          rcases hinv.cover k dk hk with hmemq | hst
          · rcases List.mem_cons.mp (hperm.mem_iff.mp hmemq) with hmemc | hmemr
            · obtain ⟨rfl, rfl⟩ : dk = v ∧ k = i := by
                simpa [Prod.ext_iff] using hmemc
              exact Or.inr (Or.inr ⟨rfl, rfl⟩)
            · exact Or.inl hmemr
          · exact Or.inr (Or.inl hst)
        obtain ⟨hm', hle', hrc'⟩ := relax_fold dijkDirs (fun x hx => hx) integ rest hmid
        apply ih _ _ integ' _ hrun
        refine ⟨hm'.ilen, hm'.tzero, hm'.sound, hm'.qsound, hm'.qle, ?_⟩
        intro k dk hk
        rcases hm'.coverM k dk hk with h1 | h2 | h3
        · exact Or.inl h1
        · exact Or.inr h2
        · obtain ⟨rfl, rfl⟩ := h3
          refine Or.inr ?_
          intro j hj hcj
          obtain ⟨d, hd, hs⟩ := hj
          exact hrc' d hd j hs hcj

theorem final_chain {w h : ℕ} {costs : List ℕ} {t : ℕ} {integ : List (Option ℕ)}
    (hf : DijkFinal w h costs t integ) :
    ∀ (rest : List ℕ) (u du : ℕ), integ.getD u none = some du →
      List.Chain' (cellAdj w h) (u :: rest) →
      (∀ j ∈ rest, costs.getD j 0 < 255) →
      ∃ dl, integ.getD ((u :: rest).getLast (by simp)) none = some dl ∧
        dl ≤ du + (rest.map fun j => costs.getD j 0).sum := by
  intro rest
  induction rest with
  | nil =>
    intro u du hu _ _
    exact ⟨du, hu, by simp⟩
  | cons j rest' ih =>
    intro u du hu hchain hwalk
    have hadj : cellAdj w h u j := (List.chain'_cons.mp hchain).1
    have hchain' : List.Chain' (cellAdj w h) (j :: rest') :=
      (List.chain'_cons.mp hchain).2
    have hcj : costs.getD j 0 < 255 := hwalk j (by simp)
    obtain ⟨dj, hdj, hdjle⟩ := hf.stable u du hu j hadj hcj
    obtain ⟨dl, hdl, hdlle⟩ :=
      ih j dj hdj hchain' (fun x hx => hwalk x (List.mem_cons_of_mem j hx))
    refine ⟨dl, ?_, ?_⟩
    · rw [show (u :: j :: rest').getLast (by simp)
          = (j :: rest').getLast (by simp) from List.getLast_cons (by simp)]
      exact hdl
    · simp only [List.map_cons, List.sum_cons]
      omega

theorem final_le_paths {w h : ℕ} {costs : List ℕ} {t : ℕ} {integ : List (Option ℕ)}
    (hf : DijkFinal w h costs t integ) :
    ∀ (p : List ℕ) (c : ℕ), ValidPath w h costs t c p →
      ∃ d, integ.getD c none = some d ∧ d ≤ pathCost costs p := by
  intro p c hp
  obtain ⟨hhead, hlast, hchain, htail⟩ := hp
  obtain ⟨a, rest, rfl⟩ : ∃ a rest, p = a :: rest := by
    cases p with
    | nil => simp at hhead
    | cons a rest => exact ⟨a, rest, rfl⟩
  have ha : a = t := by simpa using hhead
  subst ha
  obtain ⟨dl, hdl, hdlle⟩ := final_chain hf rest a 0 hf.tzero hchain htail
  have hlast' : (a :: rest).getLast (by simp) = c := by
    have := List.getLast?_eq_getLast (a :: rest) (by simp)
    rw [this] at hlast
    exact Option.some.inj hlast
  rw [hlast'] at hdl
  exact ⟨dl, hdl, by simpa [pathCost] using hdlle⟩

/-- C1: after `generate_target` with the rounded target in bounds, every
non-wall cell reachable from the target has integration equal to the least
accumulated traversal cost (sum of destination-cell costs over the steps of
a 4-connected path whose stepped-on cells all have cost `< 255`). -/
theorem C1_integration_optimal
    (fuel : ℕ) (f f' : FlowField) (tx ty : ℚ)
    (hc : f.costs.length = f.width * f.height)
    (hi : f.integration.length = f.width * f.height)
    (hx0 : 0 ≤ rustRound tx) (hy0 : 0 ≤ rustRound ty)
    (hx : intToUsize (rustRound tx) < f.width)
    (hy : intToUsize (rustRound ty) < f.height)
    (hgen : FlowField.generate_target fuel f tx ty = some f')
    (c : ℕ) (hcw : f.costs.getD c 0 < 255)
    (hreach : ∃ p, ValidPath f.width f.height f.costs
      (intToUsize (rustRound ty) * f.width + intToUsize (rustRound tx)) c p) :
    ∃ d, f'.integration.getD c none = some d ∧
      IsLeast (reachCosts f.width f.height f.costs
        (intToUsize (rustRound ty) * f.width + intToUsize (rustRound tx)) c) d := by
  set txn := intToUsize (rustRound tx) with htxn
  set tyn := intToUsize (rustRound ty) with htyn
  set tIdx := tyn * f.width + txn with htIdx
  have htlt : tIdx < f.width * f.height := idx_lt hy hx
  unfold FlowField.generate_target at hgen
  rw [if_neg (by omega : ¬ (txn ≥ f.width ∨ tyn ≥ f.height))] at hgen
  dsimp only at hgen
  set integ0 := (f.integration.map fun _ => (none : Option ℕ)).set tIdx (some 0)
    with hinteg0
  cases hdl : dijkstraLoop f.width f.height f.costs fuel integ0 [(0, tIdx)] with
  | none => rw [hdl] at hgen; exact absurd hgen (by simp)
  | some integ' =>
    rw [hdl] at hgen
    have hf' := (Option.some.injEq _ _).mp hgen
    subst hf'
    have hlen0 : integ0.length = f.width * f.height := by
      rw [hinteg0, List.length_set, List.length_map, hi]
    have hget0_t : integ0.getD tIdx none = some 0 := by
      rw [hinteg0]
      exact getD_set_self (some 0) none _ tIdx (by rw [List.length_map, hi]; exact htlt)
    have hget0_ne : ∀ k, k ≠ tIdx → integ0.getD k none = none := by
      intro k hk
      rw [hinteg0, getD_set_ne (some 0) none _ tIdx k (fun e => hk e.symm)]
      exact getD_map_const_none f.integration k
    have hinit : DijkInv f.width f.height f.costs tIdx integ0 [(0, tIdx)] := by
      refine ⟨hlen0, hget0_t, ?_, ?_, ?_, ?_⟩
      · intro k d hk
        by_cases hkt : k = tIdx
        · subst hkt
          rw [hget0_t] at hk
          obtain rfl : (0 : ℕ) = d := by injection hk
          exact ⟨[tIdx], (validPath_single f.width f.height f.costs tIdx).1,
            (validPath_single f.width f.height f.costs tIdx).2⟩
        · rw [hget0_ne k hkt] at hk; cases hk
      · intro cq k hq
        obtain ⟨rfl, rfl⟩ : cq = 0 ∧ k = tIdx := by simpa [Prod.ext_iff] using hq
        exact ⟨[tIdx], (validPath_single f.width f.height f.costs tIdx).1,
          (validPath_single f.width f.height f.costs tIdx).2⟩
      · intro cq k hq
        obtain ⟨rfl, rfl⟩ : cq = 0 ∧ k = tIdx := by simpa [Prod.ext_iff] using hq
        exact ⟨0, hget0_t, le_refl 0⟩
      · intro k dk hk
        by_cases hkt : k = tIdx
        · subst hkt
          rw [hget0_t] at hk
          obtain rfl : (0 : ℕ) = dk := by injection hk
          exact Or.inl (by simp)
        · rw [hget0_ne k hkt] at hk; cases hk
    have hfin : DijkFinal f.width f.height f.costs tIdx integ' :=
      dijkstraLoop_final fuel integ0 [(0, tIdx)] integ' hinit hdl
    obtain ⟨p0, hp0⟩ := hreach
    obtain ⟨d, hd, hdle⟩ := final_le_paths hfin p0 c hp0
    refine ⟨d, hd, ⟨hfin.sound c d hd, ?_⟩⟩
    intro n hn
    obtain ⟨p, hp, rfl⟩ := hn
    obtain ⟨d2, hd2, hd2le⟩ := final_le_paths hfin p c hp
    rw [hd] at hd2
    obtain rfl : d = d2 := by injection hd2
    exact hd2le

/-- C1 witness: on a fresh 2×1 field targeted at cell (1,0), cell 0 is
reachable and its integration is the least path cost. -/
theorem C1_witness :
    ∃ d, (match FlowField.generate_target 10 (FlowField.new 2 1) 1 0 with
        | some f' => f'.integration.getD 0 none
        | none => none) = some d ∧
      IsLeast (reachCosts 2 1 (List.replicate 2 1) 1 0) d := by
  cases hg : FlowField.generate_target 10 (FlowField.new 2 1) 1 0 with
  | none => exact absurd hg (by decide)
  | some f' =>
    have := C1_integration_optimal 10 (FlowField.new 2 1) f' 1 0
      (by decide) (by decide) (by decide) (by decide) (by decide) (by decide) hg 0
      (by decide)
      ⟨[1, 0], by decide⟩
    simpa using this

theorem export_join_len (l : List Agent) :
    ((l.map (fun a =>
      [(a.id : ℝ), a.position.x, a.position.y, a.velocity.x, a.velocity.y])).join).length
      = 5 * l.length := by
  induction l with
  | nil => rfl
  | cons a l ih =>
    show (([(a.id : ℝ), a.position.x, a.position.y, a.velocity.x, a.velocity.y]
      ++ (l.map _).join).length) = _
    rw [List.length_append, ih]
    simp [Nat.mul_succ]
    omega

/-- C10: `add_agent` appends the agent to the population but leaves the
export buffer (and hence `get_state_len` and the exported 5-tuples)
untouched; only the next rebuild (performed by tick, load_snapshot or
remap_ids) produces a buffer with 5 entries per agent including the new
one. -/
theorem C10_add_agent_no_rebuild (s : Simulation) (idv : ℕ) (x y radius maxSpeed : ℝ) :
    (s.add_agent idv x y radius maxSpeed).export_buffer = s.export_buffer ∧
    (s.add_agent idv x y radius maxSpeed).get_state_len = s.get_state_len ∧
    (s.add_agent idv x y radius maxSpeed).rvo.agents
      = s.rvo.agents ++ [⟨idv, ⟨x, y⟩, ⟨0, 0⟩, radius, maxSpeed, ⟨0, 0⟩⟩] ∧
    ((s.add_agent idv x y radius maxSpeed).rebuild_export_buffer).export_buffer.length
      = 5 * (s.rvo.agents.length + 1) := by
  refine ⟨rfl, rfl, rfl, ?_⟩
  show ((((s.rvo.agents ++ [_]) : List Agent).map _).join).length = _
  rw [export_join_len, List.length_append]
  simp

theorem v2len_smul (a : Vec2 ℝ) (s : ℝ) : v2len (v2smul a s) = |s| * v2len a := by
  unfold v2len v2lenSq v2smul
  dsimp only
  rw [show a.x * s * (a.x * s) + a.y * s * (a.y * s)
      = s ^ 2 * (a.x * a.x + a.y * a.y) by ring]
  rw [Real.sqrt_mul (sq_nonneg s), Real.sqrt_sq_eq_abs]

theorem v2len_normalize {a : Vec2 ℝ} (h : 0 < v2lenSq a) : v2len (v2normalize a) = 1 := by
  unfold v2normalize
  rw [v2len_smul]
  have hl : 0 < v2len a := Real.sqrt_pos.mpr h
  rw [abs_inv, abs_of_pos hl]
  field_simp

theorem clampToMax_le {m : ℝ} (hm : 0 ≤ m) (nv : Vec2 ℝ) :
    v2len (clampToMax m nv) ≤ m := by
  unfold clampToMax
  by_cases hc : v2lenSq nv > m * m
  · rw [if_pos hc]
    have hpos : 0 < v2lenSq nv := lt_of_le_of_lt (mul_self_nonneg m) hc
    rw [v2len_smul, v2len_normalize hpos, abs_of_nonneg hm, mul_one]
  · rw [if_neg hc]
    push_neg at hc
    unfold v2len
    calc Real.sqrt (v2lenSq nv) ≤ Real.sqrt (m * m) := Real.sqrt_le_sqrt hc
      _ = m := Real.sqrt_mul_self hm

theorem compute_clamped (m : RvoManager) (i : ℕ)
    (hm : 0 ≤ (m.agents.getD i defaultAgent).max_speed) :
    v2len (m.compute_new_velocity i) ≤ (m.agents.getD i defaultAgent).max_speed := by
  unfold RvoManager.compute_new_velocity
  exact clampToMax_le hm _

/-- C7: after every tick, every agent with non-negative max speed has
velocity magnitude at most its max speed (the clamp at the end of
`compute_new_velocity` renormalises any excess). -/
theorem C7_velocity_clamped (fuel : ℕ) (s s' : Simulation) (inputs : List InputCommand)
    (htick : Simulation.tick fuel s inputs = some s') :
    ∀ a ∈ s'.rvo.agents, 0 ≤ a.max_speed → v2len a.velocity ≤ a.max_speed := by
  unfold Simulation.tick at htick
  dsimp only at htick
  cases hpi : processInputs fuel { s with tick_count := s.tick_count + 1 } inputs with
  | none => rw [hpi] at htick; exact absurd htick (by simp)
  | some s2 =>
    rw [hpi] at htick
    dsimp only at htick
    have hs' := (Option.some.injEq _ _).mp htick
    subst hs'
    intro a ha hm
    have ha' : a ∈ ((pathfindingPhase s2).rvo.agents.zip
        ((List.range (pathfindingPhase s2).rvo.agents.length).map
          (fun i => (pathfindingPhase s2).rvo.compute_new_velocity i))).map applyVel := ha
    obtain ⟨i, hi, hEq⟩ := List.mem_iff_getElem.mp ha'
    rw [List.getElem_map, List.getElem_zip] at hEq
    have hiA : i < (pathfindingPhase s2).rvo.agents.length := by
      simpa using hi
    have hiB : i < ((List.range (pathfindingPhase s2).rvo.agents.length).map
        (fun i => (pathfindingPhase s2).rvo.compute_new_velocity i)).length := by
      simpa using hiA
    have hnv : ((List.range (pathfindingPhase s2).rvo.agents.length).map
        (fun i => (pathfindingPhase s2).rvo.compute_new_velocity i))[i]
        = (pathfindingPhase s2).rvo.compute_new_velocity i := by
      rw [List.getElem_map, List.getElem_range]
    rw [hnv] at hEq
    have hmax : a.max_speed
        = ((pathfindingPhase s2).rvo.agents.getD i defaultAgent).max_speed := by
      rw [← hEq]
      unfold applyVel
      dsimp only
      rw [List.getD_eq_getElem (pathfindingPhase s2).rvo.agents defaultAgent hiA]
    have hvel : a.velocity = (pathfindingPhase s2).rvo.compute_new_velocity i := by
      rw [← hEq]; rfl
    rw [hvel, hmax]
    exact compute_clamped (pathfindingPhase s2).rvo i (by rw [← hmax]; exact hm)

/-- C7 witness: one agent, empty command stream, one tick; the single
agent of the resulting state obeys the speed clamp. -/
theorem C7_witness :
    0 ≤ ((Simulation.rebuild_export_buffer (updatePhase (pathfindingPhase
        { Simulation.add_agent Simulation.new 7 0 0 1 1 with
            tick_count := 1 }))).rvo.agents.getD 0 defaultAgent).max_speed ∧
    v2len ((Simulation.rebuild_export_buffer (updatePhase (pathfindingPhase
        { Simulation.add_agent Simulation.new 7 0 0 1 1 with
            tick_count := 1 }))).rvo.agents.getD 0 defaultAgent).velocity
      ≤ ((Simulation.rebuild_export_buffer (updatePhase (pathfindingPhase
        { Simulation.add_agent Simulation.new 7 0 0 1 1 with
            tick_count := 1 }))).rvo.agents.getD 0 defaultAgent).max_speed := by
  have hms : 0 ≤ ((Simulation.rebuild_export_buffer (updatePhase (pathfindingPhase
      { Simulation.add_agent Simulation.new 7 0 0 1 1 with
          tick_count := 1 }))).rvo.agents.getD 0 defaultAgent).max_speed := by
    simp [Simulation.rebuild_export_buffer, updatePhase, pathfindingPhase,
      Simulation.add_agent, Simulation.new, RvoManager.new, RvoManager.add_agent,
      applyVel]
  have hlen : 0 < (Simulation.rebuild_export_buffer (updatePhase (pathfindingPhase
      { Simulation.add_agent Simulation.new 7 0 0 1 1 with
          tick_count := 1 }))).rvo.agents.length := by
    simp [Simulation.rebuild_export_buffer, updatePhase, pathfindingPhase,
      Simulation.add_agent, Simulation.new, RvoManager.new, RvoManager.add_agent]
  have hmem : ((Simulation.rebuild_export_buffer (updatePhase (pathfindingPhase
      { Simulation.add_agent Simulation.new 7 0 0 1 1 with
          tick_count := 1 }))).rvo.agents.getD 0 defaultAgent)
      ∈ (Simulation.rebuild_export_buffer (updatePhase (pathfindingPhase
        { Simulation.add_agent Simulation.new 7 0 0 1 1 with
            tick_count := 1 }))).rvo.agents := by
    rw [List.getD_eq_getElem _ defaultAgent hlen]
    exact List.getElem_mem hlen
  exact ⟨hms,
    C7_velocity_clamped 1 (Simulation.add_agent Simulation.new 7 0 0 1 1) _ [] rfl
      _ hmem hms⟩


theorem sqrt_nine : Real.sqrt 9 = 3 := by
  rw [show (9 : ℝ) = 3 ^ 2 by norm_num, Real.sqrt_sq (by norm_num : (0:ℝ) ≤ 3)]

/-- C5 counterexample: in the tie case (adjusted velocity exactly
perpendicular to `rel_pos`, dot product zero) the code adds the NEGATIVE
perpendicular: with A's preferred velocity zero and B approaching head-on,
the computed velocity is (0,-1), not the positive perpendicular (0,1) the
claim predicts. -/
theorem C5_counterexample :
    RvoManager.compute_new_velocity ⟨[rvoAgentA, rvoAgentB]⟩ 0 = ⟨0, -1⟩ ∧
    v2normalize ⟨-(v2sub rvoAgentB.position rvoAgentA.position).y,
        (v2sub rvoAgentB.position rvoAgentA.position).x⟩ = ⟨0, 1⟩ ∧
    (⟨0, -1⟩ : Vec2 ℝ) ≠ (⟨0, 1⟩ : Vec2 ℝ) := by
  refine ⟨?_, ?_, ?_⟩
  · unfold RvoManager.compute_new_velocity
    norm_num [rvoAgentA, rvoAgentB, List.getD, List.enum, List.enumFrom, rvoPairStep,
      v2distSq, v2sub, v2lenSq, v2dot, v2add, v2smul, v2neg, v2normalize,
      v2normalizeOrZero, v2len, clampToMax, sqrt_nine]
  · norm_num [rvoAgentA, rvoAgentB, v2sub, v2normalize, v2len, v2lenSq, v2smul, sqrt_nine]
  · intro h
    have := congrArg Vec2.y h
    norm_num at this

/-- C5 (amended): for a neighbour within range, not overlapping and
approaching, the added impulse lies along the perpendicular of `rel_pos`
aligned with the current adjusted velocity, tie-broken to the NEGATIVE
perpendicular when the dot product is exactly zero, scaled by
`2·(1 − dist/(3·combined_radius))`. -/
theorem C5_approaching_steer (agent other : Agent) (nv : Vec2 ℝ)
    (hcr : 0 < agent.radius + other.radius)
    (hrange : v2distSq agent.position other.position
      ≤ ((agent.radius + other.radius) * 2) ^ 2)
    (hsep : agent.radius + other.radius
      ≤ Real.sqrt (v2distSq agent.position other.position))
    (happr : 0 < v2dot (v2sub agent.velocity other.velocity)
      (v2sub other.position agent.position)) :
    rvoPairStep agent nv other =
      v2add nv (v2smul
        (if 0 < v2dot nv (v2normalize ⟨-(v2sub other.position agent.position).y,
              (v2sub other.position agent.position).x⟩)
         then v2normalize ⟨-(v2sub other.position agent.position).y,
              (v2sub other.position agent.position).x⟩
         else v2neg (v2normalize ⟨-(v2sub other.position agent.position).y,
              (v2sub other.position agent.position).x⟩))
        (2 * (1 - Real.sqrt (v2distSq agent.position other.position)
            / ((agent.radius + other.radius) * 3)))) := by
  have hdistpos : 0 < Real.sqrt (v2distSq agent.position other.position) :=
    lt_of_lt_of_le hcr hsep
  have hdsq : 0 < v2distSq agent.position other.position := by
    by_contra hle
    push_neg at hle
    rw [Real.sqrt_eq_zero'.mpr hle] at hdistpos
    exact lt_irrefl 0 hdistpos
  unfold rvoPairStep
  dsimp only
  rw [if_neg (not_lt.mpr hrange), if_neg (not_lt.mpr hsep),
    if_pos (div_pos happr hdsq)]

/-- C5 witness: the amended steering rule instantiated at the concrete
head-on configuration. -/
theorem C5_witness :
    rvoPairStep rvoAgentA ⟨0, 0⟩ rvoAgentB =
      v2add ⟨0, 0⟩ (v2smul
        (if 0 < v2dot ⟨0, 0⟩ (v2normalize ⟨-(v2sub rvoAgentB.position rvoAgentA.position).y,
              (v2sub rvoAgentB.position rvoAgentA.position).x⟩)
         then v2normalize ⟨-(v2sub rvoAgentB.position rvoAgentA.position).y,
              (v2sub rvoAgentB.position rvoAgentA.position).x⟩
         else v2neg (v2normalize ⟨-(v2sub rvoAgentB.position rvoAgentA.position).y,
              (v2sub rvoAgentB.position rvoAgentA.position).x⟩))
        (2 * (1 - Real.sqrt (v2distSq rvoAgentA.position rvoAgentB.position)
            / ((rvoAgentA.radius + rvoAgentB.radius) * 3)))) := by
  have hd : v2distSq rvoAgentA.position rvoAgentB.position = 9 := by
    norm_num [rvoAgentA, rvoAgentB, v2distSq, v2sub, v2lenSq]
  refine C5_approaching_steer rvoAgentA rvoAgentB ⟨0, 0⟩ ?_ ?_ ?_ ?_
  · norm_num [rvoAgentA, rvoAgentB]
  · rw [hd]; norm_num [rvoAgentA, rvoAgentB]
  · rw [hd, sqrt_nine]; norm_num [rvoAgentA, rvoAgentB]
  · norm_num [rvoAgentA, rvoAgentB, v2dot, v2sub]

theorem updateFirst_ne (idv : ℕ) (pos pv : Vec2 ℝ) :
    ∀ (l : List Agent) (j : ℕ) (a : Agent), l[j]? = some a → a.id ≠ idv →
      (updateFirstAgent idv pos pv l)[j]? = some a := by
  intro l
  induction l with
  | nil => intro j a hj; simp at hj
  | cons b rest ih =>
    intro j a hj hne
    cases j with
    | zero =>
      simp only [List.getElem?_cons_zero, Option.some.injEq] at hj
      subst hj
      unfold updateFirstAgent
      rw [if_neg hne]
      simp
    | succ k =>
      simp only [List.getElem?_cons_succ] at hj
      unfold updateFirstAgent
      by_cases hb : b.id = idv
      · rw [if_pos hb]
        simpa using hj
      · rw [if_neg hb]
        simpa using ih k a hj hne

theorem updateFirst_id (idv : ℕ) (pos pv : Vec2 ℝ) :
    ∀ (l : List Agent) (j : ℕ) (b' : Agent),
      (updateFirstAgent idv pos pv l)[j]? = some b' →
      ∃ b, l[j]? = some b ∧ b.id = b'.id := by
  intro l
  induction l with
  | nil => intro j b' hj; simp [updateFirstAgent] at hj
  | cons b rest ih =>
    intro j b' hj
    unfold updateFirstAgent at hj
    by_cases hb : b.id = idv
    · rw [if_pos hb] at hj
      cases j with
      | zero =>
        simp only [List.getElem?_cons_zero, Option.some.injEq] at hj
        exact ⟨b, by simp, by rw [← hj]⟩
      | succ k =>
        simp only [List.getElem?_cons_succ] at hj
        exact ⟨b', by simpa using hj, rfl⟩
    · rw [if_neg hb] at hj
      cases j with
      | zero =>
        simp only [List.getElem?_cons_zero, Option.some.injEq] at hj
        exact ⟨b, by simp, by rw [hj]⟩
      | succ k =>
        simp only [List.getElem?_cons_succ] at hj
        obtain ⟨b0, hb0, hbid⟩ := ih k b' hj
        exact ⟨b0, by simpa using hb0, hbid⟩

theorem updateFirst_hit (idv : ℕ) (pos pv : Vec2 ℝ) :
    ∀ (l : List Agent) (j : ℕ) (a : Agent), l[j]? = some a → a.id = idv →
      (∀ k b, k < j → l[k]? = some b → b.id ≠ idv) →
      (updateFirstAgent idv pos pv l)[j]?
        = some { a with position := pos, pref_velocity := pv } := by
  intro l
  induction l with
  | nil => intro j a hj; simp at hj
  | cons b rest ih =>
    intro j a hj ha hfirst
    cases j with
    | zero =>
      simp only [List.getElem?_cons_zero, Option.some.injEq] at hj
      subst hj
      unfold updateFirstAgent
      rw [if_pos ha]
      simp
    | succ k =>
      simp only [List.getElem?_cons_succ] at hj
      have hb : b.id ≠ idv := hfirst 0 b (Nat.succ_pos k) (by simp)
      unfold updateFirstAgent
      rw [if_neg hb]
      have hfirst' : ∀ k' b', k' < k → rest[k']? = some b' → b'.id ≠ idv := by
        intro k' b' hk' hb'
        exact hfirst (k' + 1) b' (by omega) (by simpa using hb')
      simpa using ih k a hj ha hfirst'

/-- C3 (amended): a MOVE command without FLOW mode sets the addressed
agent's position to the target and zeroes its PREFERRED velocity during
the input phase, before pathfinding and avoidance run; the velocity itself
is unchanged by the command (the code passes zero into
`update_agent_state`'s `pref_vel` parameter), and the last writer wins
when an id appears twice. -/
theorem C3_amended (fuel : ℕ) :
    ∀ (cmds : List InputCommand) (s s' : Simulation),
      processInputs fuel s cmds = some s' →
      ∀ (j : ℕ) (a : Agent), s.rvo.agents[j]? = some a →
      (∀ k b, k < j → s.rvo.agents[k]? = some b → b.id ≠ a.id) →
      (match (cmds.filter (addressedMove a.id)).getLast? with
       | none => s'.rvo.agents[j]? = some a
       | some c => s'.rvo.agents[j]? =
           some { a with position := ⟨c.target_x, c.target_y⟩,
                         pref_velocity := ⟨0, 0⟩ }) := by
  intro cmds
  induction cmds with
  | nil =>
    intro s s' hpi j a hj hfirst
    have hs : s = s' := by
      simpa [processInputs] using hpi
    subst hs
    simpa using hj
  | cons c rest ih =>
    intro s s' hpi j a hj hfirst
    unfold processInputs at hpi
    cases hpc : processCommand fuel s c with
    | none => rw [hpc] at hpi; exact absurd hpi (by simp)
    | some s1 =>
      rw [hpc] at hpi
      dsimp only at hpi
      by_cases hmove : c.action = "MOVE"
      · by_cases hflow : c.mode = some "FLOW"
        · -- flow retarget: agents untouched, command not addressed
          have hnot : addressedMove a.id c = false := by
            unfold addressedMove
            rw [hflow]
            simp
          have hagents : s1.rvo.agents = s.rvo.agents := by
            unfold processCommand at hpc
            rw [if_pos hmove, if_pos hflow] at hpc
            cases hg : FlowField.generate_target_r fuel s.flow_field c.target_x c.target_y with
            | none => rw [hg] at hpc; exact absurd hpc (by simp)
            | some ff =>
              rw [hg] at hpc
              dsimp only [Option.map] at hpc
              have h1 : { s with flow_field := ff } = s1 := (Option.some.injEq _ _).mp hpc
              rw [← h1]
          have := ih s1 s' hpi j a (by rw [hagents]; exact hj)
            (by intro k b hk hb; exact hfirst k b hk (by rw [← hagents]; exact hb))
          simpa [List.filter_cons, hnot] using this
        · -- direct relocation
          have hs1 : s1 = { s with rvo := (s.rvo.update_agent_state c.id ⟨c.target_x, c.target_y⟩ ⟨0, 0⟩) } := by
            unfold processCommand at hpc
            rw [if_pos hmove, if_neg hflow] at hpc
            exact ((Option.some.injEq _ _).mp hpc).symm
          by_cases hid : c.id = a.id
          · -- addressed: the first agent with this id is updated
            have hyes : addressedMove a.id c = true := by
              unfold addressedMove
              simp [hmove, hid, hflow]
            have hup : s1.rvo.agents[j]? = some { a with
                position := ⟨c.target_x, c.target_y⟩, pref_velocity := ⟨0, 0⟩ } := by
              rw [hs1]
              show (updateFirstAgent c.id _ _ s.rvo.agents)[j]? = _
              rw [hid]
              exact updateFirst_hit a.id ⟨c.target_x, c.target_y⟩ ⟨0, 0⟩
                s.rvo.agents j a hj rfl (fun k b hk hb => hfirst k b hk hb)
            have hfirst1 : ∀ k b, k < j → s1.rvo.agents[k]? = some b → b.id ≠ a.id := by
              intro k b hk hb
              rw [hs1] at hb
              obtain ⟨b0, hb0, hbid⟩ := updateFirst_id c.id
                ⟨c.target_x, c.target_y⟩ ⟨0, 0⟩ s.rvo.agents k b hb
              rw [← hbid]
              exact hfirst k b0 hk hb0
            have hmain := ih s1 s' hpi j _ hup hfirst1
            dsimp only at hmain
            have hfilter : List.filter (addressedMove a.id) (c :: rest)
                = c :: List.filter (addressedMove a.id) rest := by
              simp [List.filter_cons, hyes]
            rw [hfilter]
            cases hfr : List.filter (addressedMove a.id) rest with
            | nil =>
              rw [hfr] at hmain
              simp only [List.getLast?_nil] at hmain
              simp only [List.getLast?_singleton]
              exact hmain
            | cons c1 cs =>
              rw [List.getLast?_cons_cons]
              rw [hfr] at hmain
              exact hmain
          · -- different id: not addressed, and this agent untouched
            have hnot : addressedMove a.id c = false := by
              unfold addressedMove
              simp only [Bool.and_eq_false_iff]
              right
              simpa using hid
            have hup : s1.rvo.agents[j]? = some a := by
              rw [hs1]
              exact updateFirst_ne c.id ⟨c.target_x, c.target_y⟩ ⟨0, 0⟩
                s.rvo.agents j a hj (fun h => hid h.symm)
            have hfirst1 : ∀ k b, k < j → s1.rvo.agents[k]? = some b → b.id ≠ a.id := by
              intro k b hk hb
              rw [hs1] at hb
              obtain ⟨b0, hb0, hbid⟩ := updateFirst_id c.id
                ⟨c.target_x, c.target_y⟩ ⟨0, 0⟩ s.rvo.agents k b hb
              rw [← hbid]
              exact hfirst k b0 hk hb0
            have := ih s1 s' hpi j a hup hfirst1
            simpa [List.filter_cons, hnot] using this
      · -- not a MOVE: no-op on the simulation
        have hnot : addressedMove a.id c = false := by
          unfold addressedMove
          simp [hmove]
        have hs1 : s1 = s := by
          unfold processCommand at hpc
          rw [if_neg hmove] at hpc
          exact ((Option.some.injEq _ _).mp hpc).symm
        have := ih s1 s' hpi j a (by rw [hs1]; exact hj)
          (by intro k b hk hb; rw [hs1] at hb; exact hfirst k b hk hb)
        simpa [List.filter_cons, hnot] using this

/-- C3 counterexample: after the input phase processes a non-FLOW MOVE,
the addressed agent's velocity is NOT zero — it keeps its old value (1,0);
only the preferred velocity is zeroed. -/
theorem C3_counterexample :
    (processInputs 1 c3Sim [c3Cmd]).map
        (fun s => ((s.rvo.agents.getD 0 defaultAgent).velocity,
                   (s.rvo.agents.getD 0 defaultAgent).position,
                   (s.rvo.agents.getD 0 defaultAgent).pref_velocity))
      = some (⟨1, 0⟩, ⟨2, 3⟩, ⟨0, 0⟩) ∧
    (⟨1, 0⟩ : Vec2 ℝ) ≠ ⟨0, 0⟩ := by
  refine ⟨rfl, ?_⟩
  intro h
  have := congrArg Vec2.x h
  norm_num at this

/-- C3 witness: the amended MOVE semantics instantiated on the one-agent
simulation. -/
theorem C3_witness :
    ∃ s', processInputs 1 c3Sim [c3Cmd] = some s' ∧
      s'.rvo.agents[0]? = some ⟨7, ⟨2, 3⟩, ⟨1, 0⟩, 1, 5, ⟨0, 0⟩⟩ := by
  refine ⟨_, rfl, ?_⟩
  have h := C3_amended 1 [c3Cmd] c3Sim _ rfl 0 ⟨7, ⟨0, 0⟩, ⟨1, 0⟩, 1, 5, ⟨0, 0⟩⟩ rfl
    (fun k b hk _ => absurd hk (Nat.not_lt_zero k))
  exact h

theorem c4_find_triangle_start : c4Mesh.find_triangle ⟨5, 5⟩ = some 0 := by
  norm_num [NavMesh.find_triangle, NavMesh.point_in_triangle, navSign, c4Mesh, c4Tri0,
    c4Tri1, List.find?]

theorem c4_find_triangle_end : c4Mesh.find_triangle ⟨45, 45⟩ = some 1 := by
  norm_num [NavMesh.find_triangle, NavMesh.point_in_triangle, navSign, c4Mesh, c4Tri0,
    c4Tri1, List.find?]

theorem c4_astar : c4Mesh.compute_a_star 10 0 1 = some [0, 1] := rfl

theorem c4_shared_edge :
    NavMesh.find_shared_edge c4Tri0 c4Tri1 = some (⟨0, 50⟩, ⟨50, 0⟩) := by
  norm_num [NavMesh.find_shared_edge, qdistSq, navEpsilon, c4Tri0, c4Tri1,
    List.foldl, List.findIdx?]


theorem c4_funnel_step1 :
    funnelLoop c4Portals 10 [⟨5, 5⟩] ⟨5, 5⟩ ⟨0, 50⟩ ⟨50, 0⟩ 0 0 0 =
      funnelLoop c4Portals 9 [⟨5, 5⟩, ⟨0, 50⟩] ⟨0, 50⟩ ⟨0, 50⟩ ⟨0, 50⟩ 0 0 1 := by
  have f1 : tri_area_2 ⟨5, 5⟩ ⟨50, 0⟩ ⟨50, 0⟩ ≤ 0 := by norm_num [tri_area_2]
  have f2 : ¬((⟨5, 5⟩ : Vec2 ℚ) = ⟨50, 0⟩ ∨ tri_area_2 ⟨5, 5⟩ ⟨0, 50⟩ ⟨50, 0⟩ > 0) := by
    rintro (h | h)
    · exact absurd h (by norm_num [Vec2.mk.injEq])
    · norm_num [tri_area_2] at h
  rw [show (10 : ℕ) = 9 + 1 from rfl, funnelLoop]
  rw [show c4Portals[(0 : ℕ)]? = some (⟨0, 50⟩, ⟨50, 0⟩) from rfl]
  dsimp only
  rw [if_pos ⟨f1, f2⟩]
  rfl

theorem c4_funnel_step2 :
    funnelLoop c4Portals 9 [⟨5, 5⟩, ⟨0, 50⟩] ⟨0, 50⟩ ⟨0, 50⟩ ⟨0, 50⟩ 0 0 1 =
      funnelLoop c4Portals 8 [⟨5, 5⟩, ⟨0, 50⟩] ⟨0, 50⟩ ⟨45, 45⟩ ⟨45, 45⟩ 1 1 2 := by
  have h2 : tri_area_2 ⟨0, 50⟩ ⟨0, 50⟩ ⟨45, 45⟩ ≤ 0 := by norm_num [tri_area_2]
  have h4 : tri_area_2 ⟨0, 50⟩ ⟨0, 50⟩ ⟨45, 45⟩ ≥ 0 := by norm_num [tri_area_2]
  rw [show (9 : ℕ) = 8 + 1 from rfl, funnelLoop]
  rw [show c4Portals[(1 : ℕ)]? = some (⟨45, 45⟩, ⟨45, 45⟩) from rfl]
  dsimp only
  rw [if_neg (fun h => h.2 (Or.inl rfl))]
  rw [if_pos h2, if_pos h2]
  rw [if_neg (fun h => h.2 (Or.inl rfl))]
  rw [if_pos h4, if_pos h4]

theorem c4_funnel_done :
    funnelLoop c4Portals 8 [⟨5, 5⟩, ⟨0, 50⟩] ⟨0, 50⟩ ⟨45, 45⟩ ⟨45, 45⟩ 1 1 2 =
      some [⟨5, 5⟩, ⟨0, 50⟩] := by
  rw [show (8 : ℕ) = 7 + 1 from rfl, funnelLoop]
  rw [show c4Portals[(2 : ℕ)]? = (none : Option (Vec2 ℚ × Vec2 ℚ)) from rfl]

theorem c4_string_pulling :
    c4Mesh.string_pulling 10 ⟨5, 5⟩ ⟨45, 45⟩ [0, 1] =
      some [⟨5, 5⟩, ⟨0, 50⟩, ⟨45, 45⟩] := by
  have hp : (List.range (([0, 1] : List ℕ).length - 1)).filterMap (fun i =>
      NavMesh.find_shared_edge
        (c4Mesh.triangles.getD (([0, 1] : List ℕ).getD i 0) defaultTriangle)
        (c4Mesh.triangles.getD (([0, 1] : List ℕ).getD (i + 1) 0) defaultTriangle)) =
      [(⟨0, 50⟩, ⟨50, 0⟩)] := by
    rw [show List.range (([0, 1] : List ℕ).length - 1) = [0] from rfl]
    simp only [List.filterMap_cons, List.filterMap_nil]
    rw [show c4Mesh.triangles.getD (([0, 1] : List ℕ).getD 0 0) defaultTriangle = c4Tri0
          from rfl,
        show c4Mesh.triangles.getD (([0, 1] : List ℕ).getD (0 + 1) 0) defaultTriangle = c4Tri1
          from rfl,
        c4_shared_edge]
  rw [NavMesh.string_pulling]
  dsimp only
  rw [hp]
  rw [show ([(⟨0, 50⟩, ⟨50, 0⟩)] ++ [((⟨45, 45⟩ : Vec2 ℚ), (⟨45, 45⟩ : Vec2 ℚ))])
        = c4Portals from rfl]
  rw [show (c4Portals.getD 0 ((⟨45, 45⟩ : Vec2 ℚ), (⟨45, 45⟩ : Vec2 ℚ))).1 = ⟨0, 50⟩ from rfl,
      show (c4Portals.getD 0 ((⟨45, 45⟩ : Vec2 ℚ), (⟨45, 45⟩ : Vec2 ℚ))).2 = ⟨50, 0⟩ from rfl]
  rw [c4_funnel_step1, c4_funnel_step2, c4_funnel_done]
  rfl

/-- C4: on the two-triangle mesh {(0,0),(50,0),(0,50)} / {(50,0),(50,50),(0,50)}
linked across their shared edge, `find_path((5,5),(45,45))` does NOT return the
spec's two-point polyline [(5,5),(45,45)]: the inverted sign convention of
`tri_area_2` relative to the funnel comparisons makes the first funnel
iteration take the "Right crossed Left" branch and emit the portal's left
vertex (0,50) as a spurious corner, so the result is [(5,5),(0,50),(45,45)]. -/
theorem C4_funnel_extra_corner :
    c4Mesh.find_path 10 ⟨5, 5⟩ ⟨45, 45⟩ = some [⟨5, 5⟩, ⟨0, 50⟩, ⟨45, 45⟩] ∧
      ([⟨5, 5⟩, ⟨0, 50⟩, ⟨45, 45⟩] : List (Vec2 ℚ)) ≠ [⟨5, 5⟩, ⟨45, 45⟩] := by
  constructor
  · rw [NavMesh.find_path]
    rw [c4_find_triangle_start, c4_find_triangle_end]
    dsimp only
    rw [if_neg (by decide : ¬(0 = 1))]
    rw [c4_astar]
    dsimp only
    rw [if_neg (by decide : ¬([0, 1] : List ℕ) = [])]
    exact c4_string_pulling
  · decide

theorem alookup_cons {N α : Type} [DecidableEq N] (k k' : N) (v : α) (l : List (N × α)) :
    alookup k ((k', v) :: l) = if k' = k then some v else alookup k l := rfl

theorem popMinBy_mem {N C : Type} {lt : C → C → Bool} :
    ∀ {l : List (N × C)} {x : N × C} {rest : List (N × C)},
      popMinBy lt l = some (x, rest) → x ∈ l := by
  intro l
  induction l with
  | nil => intro x rest h; simp [popMinBy] at h
  | cons a as ih =>
    intro x rest h
    rw [popMinBy] at h
    cases hm : popMinBy lt as with
    | none => rw [hm] at h; injection h with h'; cases h'; exact List.mem_cons_self _ _
    | some mr =>
      obtain ⟨m, rest'⟩ := mr
      rw [hm] at h
      dsimp only at h
      by_cases hlt : lt m.2 a.2 = true
      · rw [if_pos hlt] at h
        injection h with h'
        have hmem := ih (by rw [hm] : popMinBy lt as = some (m, rest'))
        cases h'
        exact List.mem_cons_of_mem _ hmem
      · rw [if_neg hlt] at h
        injection h with h'
        cases h'
        exact List.mem_cons_self _ _

theorem popMinBy_rest_subset {N C : Type} {lt : C → C → Bool} :
    ∀ {l : List (N × C)} {x : N × C} {rest : List (N × C)},
      popMinBy lt l = some (x, rest) → ∀ y ∈ rest, y ∈ l := by
  intro l
  induction l with
  | nil => intro x rest h; simp [popMinBy] at h
  | cons a as ih =>
    intro x rest h y hy
    rw [popMinBy] at h
    cases hm : popMinBy lt as with
    | none => rw [hm] at h; injection h with h'; cases h'; simp at hy
    | some mr =>
      obtain ⟨m, rest'⟩ := mr
      rw [hm] at h
      dsimp only at h
      by_cases hlt : lt m.2 a.2 = true
      · rw [if_pos hlt] at h
        injection h with h'
        cases h'
        rcases List.mem_cons.mp hy with rfl | hy'
        · exact List.mem_cons_self _ _
        · exact List.mem_cons_of_mem _ (ih hm _ hy')
      · rw [if_neg hlt] at h
        injection h with h'
        cases h'
        exact List.mem_cons_of_mem _ hy

theorem alookup_cons_self {N α : Type} [DecidableEq N] (k : N) (v : α) (l : List (N × α)) :
    alookup k ((k, v) :: l) = some v := by
  rw [alookup_cons, if_pos rfl]

theorem alookup_cons_mono {N α : Type} [DecidableEq N] {k : N} {l : List (N × α)}
    (k' : N) (v : α) (h : alookup k l ≠ none) : alookup k ((k', v) :: l) ≠ none := by
  rw [alookup_cons]
  by_cases hk : k' = k
  · rw [if_pos hk]; simp
  · rw [if_neg hk]; exact h

/-- The joint invariant of the generic A* loop state used to prove path
validity: open-set nodes are scored, scored nodes satisfy `Q` (or are the
start), `came_from` records `R`-edges between `Q` nodes, the start keeps
its initial score and never acquires a parent, and every scored non-start
node has a parent. -/
structure AInv {N C : Type} [DecidableEq N] (dflt : C) (start : N)
    (R : N → N → Prop) (Q : N → Prop)
    (os : List (N × C)) (cf : List (N × N)) (gs : List (N × C)) : Prop where
  hopen : ∀ nf ∈ os, alookup nf.1 gs ≠ none
  hgsQ : ∀ n, alookup n gs ≠ none → (Q n ∨ n = start)
  hcf : ∀ n p, alookup n cf = some p → R p n ∧ Q n ∧ (p = start ∨ alookup p gs ≠ none)
  hstartg : alookup start gs = some dflt
  hkg : ∀ n, n ≠ start → alookup n gs ≠ none → alookup n cf ≠ none

theorem reconstructPath_valid {N C : Type} [DecidableEq N] {start : N}
    {R : N → N → Prop} {Q : N → Prop}
    (cf : List (N × N)) (gs : List (N × C))
    (hcf : ∀ n p, alookup n cf = some p → R p n ∧ Q n ∧ (p = start ∨ alookup p gs ≠ none))
    (hkg : ∀ n, n ≠ start → alookup n gs ≠ none → alookup n cf ≠ none) :
    ∀ (fuel : ℕ) (v : N) (p : List N),
      reconstructPath cf fuel v = some p →
      (v = start ∨ alookup v gs ≠ none) →
      p.head? = some start ∧ p.getLast? = some v ∧ List.Chain' R p ∧
        ∀ x ∈ p, Q x ∨ x = start := by
  intro fuel
  induction fuel with
  | zero => intro v p h _; rw [reconstructPath] at h; exact absurd h (by simp)
  | succ f ih =>
    intro v p h hv
    rw [reconstructPath] at h
    cases hl : alookup v cf with
    | none =>
      rw [hl] at h
      injection h with h'
      subst h'
      have hvstart : v = start := by
        rcases hv with h0 | h0
        · exact h0
        · by_contra hne
          exact (hkg v hne h0) hl
      subst hvstart
      exact ⟨rfl, rfl, List.chain'_singleton _, fun x hx => Or.inr (by simpa using hx)⟩
    | some par =>
      rw [hl] at h
      dsimp only at h
      cases hr : reconstructPath cf f par with
      | none => rw [hr] at h; exact absurd h (by simp)
      | some q =>
        rw [hr] at h
        injection h with h'
        subst h'
        obtain ⟨hR, hQv, hpar⟩ := hcf v par hl
        obtain ⟨qh, ql, qc, qm⟩ := ih par q hr hpar
        have hqne : q ≠ [] := by intro hq; rw [hq] at qh; exact absurd qh (by simp)
        refine ⟨?_, ?_, ?_, ?_⟩
        · cases q with
          | nil => exact absurd rfl hqne
          | cons a q' => simpa using qh
        · exact List.getLast?_concat _
        · refine List.chain'_append.mpr ⟨qc, List.chain'_singleton _, ?_⟩
          intro x hx y hy
          rw [ql] at hx
          injection hx with hx'
          subst hx'
          have hyv : y = v := by
            have := hy
            simp only [List.head?_cons, Option.mem_def, Option.some.injEq] at this
            exact this.symm
          subst hyv
          exact hR
        · intro x hx
          rcases List.mem_append.mp hx with hx' | hx'
          · exact qm x hx'
          · have : x = v := by simpa using hx'
            subst this
            exact Or.inl hQv

theorem aStarStep_inv {N C : Type} [DecidableEq N] {lt : C → C → Bool}
    {add : C → C → C} {dflt : C} {gh : N → C} {start current : N}
    {R : N → N → Prop} {Q : N → Prop}
    (Hnolt : ∀ a b : C, lt (add a b) dflt = false) (current_g : C) :
    ∀ (l : List (N × C)) (os : List (N × C)) (cf : List (N × N)) (gs : List (N × C)),
      (∀ nk ∈ l, R current nk.1 ∧ Q nk.1) →
      AInv dflt start R Q os cf gs →
      alookup current gs ≠ none →
      AInv dflt start R Q
        (l.foldl (aStarStep lt add gh current current_g) (os, cf, gs)).1
        (l.foldl (aStarStep lt add gh current current_g) (os, cf, gs)).2.1
        (l.foldl (aStarStep lt add gh current current_g) (os, cf, gs)).2.2 := by
  intro l
  induction l with
  | nil => intro os cf gs _ inv _; exact inv
  | cons nk rest ih =>
    intro os cf gs hl inv hcur
    rw [List.foldl_cons]
    have hnk := hl nk (List.mem_cons_self _ _)
    have hrest : ∀ x ∈ rest, R current x.1 ∧ Q x.1 :=
      fun x hx => hl x (List.mem_cons_of_mem _ hx)
    rw [aStarStep]
    by_cases hb : (match alookup nk.1 gs with
        | none => true
        | some g => lt (add current_g nk.2) g) = true
    · rw [if_pos hb]
      have hnkne : nk.1 ≠ start := by
        intro he
        rw [he, inv.hstartg] at hb
        dsimp only at hb
        rw [Hnolt] at hb
        exact Bool.false_ne_true hb
      refine ih _ _ _ hrest ?_ (alookup_cons_mono _ _ hcur)
      refine ⟨?_, ?_, ?_, ?_, ?_⟩
      · intro nf hnf
        rcases List.mem_cons.mp hnf with rfl | hnf'
        · rw [alookup_cons_self]; simp
        · exact alookup_cons_mono _ _ (inv.hopen nf hnf')
      · intro n hn
        rw [alookup_cons] at hn
        by_cases hk : nk.1 = n
        · exact hk ▸ Or.inl hnk.2
        · rw [if_neg hk] at hn
          exact inv.hgsQ n hn
      · intro n p hp
        rw [alookup_cons] at hp
        by_cases hk : nk.1 = n
        · rw [if_pos hk] at hp
          injection hp with hp'
          subst hp'
          exact ⟨hk ▸ hnk.1, hk ▸ hnk.2, Or.inr (alookup_cons_mono _ _ hcur)⟩
        · rw [if_neg hk] at hp
          obtain ⟨h1, h2, h3⟩ := inv.hcf n p hp
          refine ⟨h1, h2, ?_⟩
          rcases h3 with h3 | h3
          · exact Or.inl h3
          · exact Or.inr (alookup_cons_mono _ _ h3)
      · rw [alookup_cons, if_neg hnkne]
        exact inv.hstartg
      · intro n hne hn
        rw [alookup_cons] at hn
        by_cases hk : nk.1 = n
        · rw [alookup_cons, if_pos hk]; simp
        · rw [if_neg hk] at hn
          rw [alookup_cons, if_neg hk]
          exact inv.hkg n hne hn
    · rw [if_neg hb]
      exact ih _ _ _ hrest inv hcur

theorem aStarLoop_valid {N C : Type} [DecidableEq N] {lt : C → C → Bool}
    {add : C → C → C} {dflt : C} {gn : N → List (N × C)} {gh : N → C}
    {goal : N → Bool} {start : N} {R : N → N → Prop} {Q : N → Prop}
    (Hn : ∀ c nk, nk ∈ gn c → R c nk.1 ∧ Q nk.1)
    (Hnolt : ∀ a b : C, lt (add a b) dflt = false) :
    ∀ (fuel : ℕ) (os : List (N × C)) (cf : List (N × N)) (gs : List (N × C)),
      AInv dflt start R Q os cf gs →
      ∀ {c : C} {path : List N},
        aStarLoop lt add dflt gn gh goal fuel os cf gs = some (some (c, path)) →
        path.head? = some start ∧
          (∃ lastn, path.getLast? = some lastn ∧ goal lastn = true) ∧
          List.Chain' R path ∧ ∀ x ∈ path, Q x ∨ x = start := by
  intro fuel
  induction fuel with
  | zero => intro os cf gs _ c path h; rw [aStarLoop] at h; exact absurd h (by simp)
  | succ f ih =>
    intro os cf gs inv c path h
    rw [aStarLoop] at h
    cases hp : popMinBy lt os with
    | none => rw [hp] at h; exact absurd h (by simp)
    | some pr =>
      obtain ⟨⟨current, fsc⟩, rest⟩ := pr
      rw [hp] at h
      dsimp only at h
      have hcur : alookup current gs ≠ none :=
        inv.hopen (current, fsc) (popMinBy_mem hp)
      by_cases hg : goal current = true
      · rw [if_pos hg] at h
        cases hgs : alookup current gs with
        | none => exact absurd hgs hcur
        | some total =>
          rw [hgs] at h
          cases hrec : reconstructPath cf (f + 1) current with
          | none => rw [hrec] at h; exact absurd h (by simp)
          | some p0 =>
            rw [hrec] at h
            dsimp only at h
            injection h with h'
            injection h' with h''
            injection h'' with h1 h2
            subst h2
            obtain ⟨ph, pl, pc, pm⟩ := reconstructPath_valid cf gs inv.hcf inv.hkg
              (f + 1) current p0 hrec (Or.inr hcur)
            exact ⟨ph, ⟨current, pl, hg⟩, pc, pm⟩
      · rw [if_neg hg] at h
        refine ih _ _ _ ?_ h
        refine aStarStep_inv Hnolt _ (gn current) rest cf gs
          (fun nk hnk => Hn current nk hnk) ?_ hcur
        refine ⟨?_, inv.hgsQ, inv.hcf, inv.hstartg, inv.hkg⟩
        intro nf hnf
        exact inv.hopen nf (popMinBy_rest_subset hp nf hnf)

theorem a_star_valid {N C : Type} [DecidableEq N] {lt : C → C → Bool}
    {add : C → C → C} {dflt : C} {gn : N → List (N × C)} {gh : N → C}
    {goal : N → Bool} {start : N} {R : N → N → Prop} {Q : N → Prop}
    (Hn : ∀ c nk, nk ∈ gn c → R c nk.1 ∧ Q nk.1)
    (Hnolt : ∀ a b : C, lt (add a b) dflt = false)
    {fuel : ℕ} {c : C} {path : List N}
    (h : a_star lt add dflt fuel start gn gh goal = some (some (c, path))) :
    path.head? = some start ∧
      (∃ lastn, path.getLast? = some lastn ∧ goal lastn = true) ∧
      List.Chain' R path ∧ ∀ x ∈ path, Q x ∨ x = start := by
  refine aStarLoop_valid Hn Hnolt fuel _ _ _ ?_ h
  refine ⟨?_, ?_, ?_, ?_, ?_⟩
  · intro nf hnf
    have : nf = (start, gh start) := by simpa using hnf
    subst this
    rw [alookup_cons_self]
    simp
  · intro n hn
    rw [alookup_cons] at hn
    by_cases hk : start = n
    · exact Or.inr hk.symm
    · rw [if_neg hk] at hn
      exact absurd rfl hn
  · intro n p hp
    exact absurd hp (by rw [alookup]; simp)
  · exact alookup_cons_self _ _ _
  · intro n hne hn
    rw [alookup_cons] at hn
    by_cases hk : start = n
    · exact absurd hk.symm hne
    · rw [if_neg hk] at hn
      exact absurd rfl hn

/-- The claim's 4-connectivity: the two cells differ by exactly one axis
step. -/
def oneStep (a b : Vec2 ℤ) : Prop :=
  (b.x - a.x).natAbs + (b.y - a.y).natAbs = 1

/-- A path that witnesses C2: consecutive cells one step apart, every cell
walkable. -/
def ValidSeg (g : GridMap) (p : List (Vec2 ℤ)) : Prop :=
  List.Chain' oneStep p ∧ ∀ x ∈ p, g.is_walkable x = true

theorem oneStep_symm {a b : Vec2 ℤ} (h : oneStep a b) : oneStep b a := by
  unfold oneStep at h ⊢
  omega

theorem localNeighbors_spec {g : GridMap} {bmin bmax pos : Vec2 ℤ} :
    ∀ nk ∈ localNeighbors g bmin bmax pos,
      (oneStep pos nk.1 ∧ g.is_walkable nk.1 = true) ∧ g.is_walkable nk.1 = true := by
  intro nk hnk
  rw [localNeighbors] at hnk
  rw [List.mem_filterMap] at hnk
  obtain ⟨dir, hdir, hsome⟩ := hnk
  dsimp only at hsome
  by_cases hbounds : bmin.x ≤ (pos + dir).x ∧ (pos + dir).x < bmax.x ∧
      bmin.y ≤ (pos + dir).y ∧ (pos + dir).y < bmax.y
  · rw [if_pos hbounds] at hsome
    by_cases hw : g.is_walkable (pos + dir) = true
    · rw [if_pos hw] at hsome
      injection hsome with hsome'
      subst hsome'
      have hstep : oneStep pos (pos + dir) := by
        have hx : (pos + dir).x = pos.x + dir.x := rfl
        have hy : (pos + dir).y = pos.y + dir.y := rfl
        unfold oneStep
        rw [hx, hy]
        fin_cases hdir <;> simp
      exact ⟨⟨hstep, hw⟩, hw⟩
    · rw [if_neg hw] at hsome
      exact absurd hsome (by simp)
  · rw [if_neg hbounds] at hsome
    exact absurd hsome (by simp)

theorem a_star_local_valid {g : GridMap} {fuel : ℕ} {s e bmin bmax : Vec2 ℤ}
    {c : ℕ} {p : List (Vec2 ℤ)}
    (h : a_star_local g fuel s e bmin bmax = some (some (c, p)))
    (hs : g.is_walkable s = true) :
    p.head? = some s ∧ p.getLast? = some e ∧ ValidSeg g p := by
  have hmain := @a_star_valid (Vec2 ℤ) ℕ _ natLt (fun a b => a + b) 0
    (localNeighbors g bmin bmax) (fun pos => hpaHeuristic pos e)
    (fun pos => pos == e) s
    (fun a b => oneStep a b ∧ g.is_walkable b = true)
    (fun n => g.is_walkable n = true)
    (fun cpos nk hnk => localNeighbors_spec nk hnk)
    (fun a b => by simp [natLt]) fuel c p h
  obtain ⟨hh, ⟨lastn, hl, hgoal⟩, hc, hm⟩ := hmain
  have hle : lastn = e := by
    have := of_decide_eq_true hgoal
    exact this
  subst hle
  refine ⟨hh, hl, ?_, ?_⟩
  · exact List.Chain'.imp (fun a b hab => hab.1) hc
  · intro x hx
    rcases hm x hx with hx' | hx'
    · exact hx'
    · subst hx'
      exact hs

theorem vadd_x (a b : Vec2 ℤ) : (a + b).x = a.x + b.x := rfl

theorem vadd_y (a b : Vec2 ℤ) : (a + b).y = a.y + b.y := rfl

theorem vscale_x (v : Vec2 ℤ) (k : ℤ) : (vscale v k).x = v.x * k := rfl

theorem vscale_y (v : Vec2 ℤ) (k : ℤ) : (vscale v k).y = v.y * k := rfl

theorem vec2_ext {a b : Vec2 ℤ} (hx : a.x = b.x) (hy : a.y = b.y) : a = b := by
  cases a; cases b; cases hx; cases hy; rfl

theorem vscale_succ_add (s v : Vec2 ℤ) (n : ℤ) :
    s + vscale v n + v = s + vscale v (n + 1) := by
  refine vec2_ext ?_ ?_ <;> simp [vadd_x, vadd_y, vscale_x, vscale_y] <;> ring

theorem foldl_inv_mem {α β : Type} {P : β → Prop} (f : β → α → β) :
    ∀ (l : List α) (b : β), P b → (∀ b' x, x ∈ l → P b' → P (f b' x)) →
      P (l.foldl f b) := by
  intro l
  induction l with
  | nil => intro b hb _; exact hb
  | cons a as ih =>
    intro b hb hf
    rw [List.foldl_cons]
    exact ih _ (hf b a (List.mem_cons_self _ _) hb)
      (fun b' x hx => hf b' x (List.mem_cons_of_mem _ hx))

theorem alookup_all {N α : Type} [DecidableEq N] {P : N × α → Prop} :
    ∀ {l : List (N × α)}, (∀ e ∈ l, P e) → ∀ {k : N} {v : α},
      alookup k l = some v → P (k, v) := by
  intro l
  induction l with
  | nil => intro _ k v h; rw [alookup] at h; exact absurd h (by simp)
  | cons e es ih =>
    intro hl k v h
    obtain ⟨k', v'⟩ := e
    rw [alookup_cons] at h
    by_cases hk : k' = k
    · rw [if_pos hk] at h
      injection h with h'
      have hP := hl (k', v') (List.mem_cons_self _ _)
      rw [← hk, ← h']
      exact hP
    · rw [if_neg hk] at h
      exact ih (fun e he => hl e (List.mem_cons_of_mem _ he)) h

/-- The invariant carried through `create_portals`: every created portal is
walkable, portal ids equal their index, and the cluster lookup only holds
ids of existing portals. -/
def PortalStateOK (g : GridMap)
    (st : List PortalNode × List ((ℤ × ℤ) × List ℕ)) : Prop :=
  (∀ p ∈ st.1, g.is_walkable p.pos = true) ∧
  (∀ k, k < st.1.length → (st.1.getD k defaultPortal).id = k) ∧
  (∀ e ∈ st.2, ∀ i ∈ e.2, i < st.1.length)

theorem entryPush_mem {P : ℕ → Prop} {k : ℤ × ℤ} {v : ℕ} (hv : P v) :
    ∀ {l : List ((ℤ × ℤ) × List ℕ)}, (∀ e ∈ l, ∀ i ∈ e.2, P i) →
      ∀ e ∈ entryPush k v l, ∀ i ∈ e.2, P i := by
  intro l
  induction l with
  | nil =>
    intro _ e he i hi
    rw [entryPush] at he
    have : e = (k, [v]) := by simpa using he
    subst this
    have : i = v := by simpa using hi
    subst this
    exact hv
  | cons a as ih =>
    intro hl e he i hi
    obtain ⟨k', vs⟩ := a
    rw [entryPush] at he
    by_cases hk : k' = k
    · rw [if_pos hk] at he
      rcases List.mem_cons.mp he with rfl | he'
      · rcases List.mem_append.mp hi with hi' | hi'
        · exact hl (k', vs) (List.mem_cons_self _ _) i hi'
        · have : i = v := by simpa using hi'
          subst this
          exact hv
      · exact hl e (List.mem_cons_of_mem _ he') i hi
    · rw [if_neg hk] at he
      rcases List.mem_cons.mp he with rfl | he'
      · exact hl (k', vs) (List.mem_cons_self _ _) i hi
      · exact ih (fun e' he' => hl e' (List.mem_cons_of_mem _ he')) e he' i hi

theorem getD_append_lt {α : Type} (l l' : List α) (d : α) (k : ℕ) (hk : k < l.length) :
    (l ++ l').getD k d = l.getD k d := by
  rw [List.getD_eq_getElem?_getD, List.getD_eq_getElem?_getD, List.getElem?_append,
    if_pos hk]

theorem getD_append_self {α : Type} (l : List α) (x : α) (d : α) :
    (l ++ [x]).getD l.length d = x := by
  rw [List.getD_eq_getElem?_getD, List.getElem?_append, if_neg (by omega)]
  simp

theorem addPortal_ok {g : GridMap} {st : List PortalNode × List ((ℤ × ℤ) × List ℕ)}
    {pos : Vec2 ℤ} {cx cy : ℤ} (hst : PortalStateOK g st)
    (hw : g.is_walkable pos = true) : PortalStateOK g (addPortal st pos cx cy) := by
  obtain ⟨h1, h2, h3⟩ := hst
  refine ⟨?_, ?_, ?_⟩
  · intro p hp
    rcases List.mem_append.mp hp with hp' | hp'
    · exact h1 p hp'
    · have : p = ⟨st.1.length, pos, ⟨cx, cy⟩⟩ := by simpa using hp'
      subst this
      exact hw
  · intro k hk
    rw [addPortal] at hk ⊢
    dsimp only at hk ⊢
    rw [List.length_append, List.length_singleton] at hk
    by_cases hlt : k < st.1.length
    · rw [getD_append_lt _ _ _ _ hlt]
      exact h2 k hlt
    · have hke : k = st.1.length := by omega
      subst hke
      rw [getD_append_self]
  · rw [addPortal]
    dsimp only
    rw [List.length_append, List.length_singleton]
    exact entryPush_mem (by omega)
      (fun e he i hi => Nat.lt_succ_of_lt (h3 e he i hi))

theorem tdiv_two_bounds {len : ℤ} (h : 1 ≤ len) : 0 ≤ len.tdiv 2 ∧ len.tdiv 2 < len := by
  rw [Int.tdiv_eq_ediv (by omega) (by omega)]
  omega

theorem placePortals_ok {g : GridMap} {st : List PortalNode × List ((ℤ × ℤ) × List ℕ)}
    {s : Vec2 ℤ} {len : ℤ} {step ndir : Vec2 ℤ} {c1x c1y c2x c2y : ℤ}
    (hst : PortalStateOK g st) (hlen : 1 ≤ len)
    (hseg : ∀ j : ℤ, 0 ≤ j → j < len →
      g.is_walkable (s + vscale step j) = true ∧
      g.is_walkable (s + vscale step j + ndir) = true) :
    PortalStateOK g (placePortals st s len step ndir c1x c1y c2x c2y) := by
  rw [placePortals]
  have htargets : ∀ t ∈ (if len > 5 then [s, s + vscale step (len - 1)]
      else [s + vscale step (len.tdiv 2)]),
      g.is_walkable t = true ∧ g.is_walkable (t + ndir) = true := by
    intro t ht
    by_cases h5 : len > 5
    · rw [if_pos h5] at ht
      rcases List.mem_cons.mp ht with heq | ht'
      · have h0 := hseg 0 (le_refl _) (by omega)
        have hz : s + vscale step 0 = s := by
          refine vec2_ext ?_ ?_ <;> simp [vadd_x, vadd_y, vscale_x, vscale_y]
        rw [hz] at h0
        rw [heq]
        exact h0
      · have : t = s + vscale step (len - 1) := by simpa using ht'
        subst this
        exact hseg (len - 1) (by omega) (by omega)
    · rw [if_neg h5] at ht
      have : t = s + vscale step (len.tdiv 2) := by simpa using ht
      subst this
      obtain ⟨hd0, hdlt⟩ := tdiv_two_bounds hlen
      exact hseg (len.tdiv 2) hd0 hdlt
  refine foldl_inv_mem _ _ _ hst ?_
  intro st' t ht hst'
  obtain ⟨hw1, hw2⟩ := htargets t ht
  exact addPortal_ok (addPortal_ok hst' hw1) hw2

/-- The loop invariant of `scan_boundary`: the portal state stays sound,
and an open segment records only pairwise-walkable cells ending at the
cursor. -/
def ScanInv (g : GridMap) (step ndir : Vec2 ℤ)
    (acc : Vec2 ℤ × Option (Vec2 ℤ) × ℤ ×
      (List PortalNode × List ((ℤ × ℤ) × List ℕ))) : Prop :=
  PortalStateOK g acc.2.2.2 ∧
  (acc.2.1 = none → acc.2.2.1 = 0) ∧
  (∀ s, acc.2.1 = some s → 1 ≤ acc.2.2.1 ∧ acc.1 = s + vscale step acc.2.2.1 ∧
    ∀ j : ℤ, 0 ≤ j → j < acc.2.2.1 →
      g.is_walkable (s + vscale step j) = true ∧
      g.is_walkable (s + vscale step j + ndir) = true)

theorem scanStep_inv {g : GridMap} {step ndir : Vec2 ℤ} {c1x c1y c2x c2y : ℤ}
    (acc : Vec2 ℤ × Option (Vec2 ℤ) × ℤ ×
      (List PortalNode × List ((ℤ × ℤ) × List ℕ))) (i : ℕ)
    (hinv : ScanInv g step ndir acc) :
    ScanInv g step ndir (scanStep g step ndir c1x c1y c2x c2y acc i) := by
  obtain ⟨hpst, hnone, hsome⟩ := hinv
  rw [scanStep]
  by_cases hw : (g.is_walkable acc.1 && g.is_walkable (acc.1 + ndir)) = true
  · rw [if_pos hw]
    rw [Bool.and_eq_true] at hw
    cases hss : acc.2.1 with
    | none =>
      have hz := hnone hss
      refine ⟨hpst, by simp, ?_⟩
      intro s hs
      dsimp only at hs
      simp only [Option.getD_none] at hs
      injection hs with hs'
      subst hs'
      dsimp only
      rw [hz]
      refine ⟨by omega, ?_, ?_⟩
      · refine vec2_ext ?_ ?_ <;> simp [vadd_x, vadd_y, vscale_x, vscale_y]
      · intro j hj0 hj1
        have hj : j = 0 := by omega
        subst hj
        have hz2 : acc.1 + vscale step 0 = acc.1 := by
          refine vec2_ext ?_ ?_ <;> simp [vadd_x, vadd_y, vscale_x, vscale_y]
        rw [hz2]
        exact ⟨hw.1, hw.2⟩
    | some s0 =>
      obtain ⟨hlen, hcur, hwalk⟩ := hsome s0 hss
      refine ⟨hpst, by simp, ?_⟩
      intro s hs
      dsimp only at hs
      simp only [Option.getD_some] at hs
      injection hs with hs'
      subst hs'
      dsimp only
      refine ⟨by omega, ?_, ?_⟩
      · rw [hcur]
        exact vscale_succ_add _ _ _
      · intro j hj0 hj1
        by_cases hjlt : j < acc.2.2.1
        · exact hwalk j hj0 hjlt
        · have hj : j = acc.2.2.1 := by omega
          subst hj
          rw [← hcur]
          exact ⟨hw.1, hw.2⟩
  · rw [if_neg hw]
    cases hss : acc.2.1 with
    | none =>
      exact ⟨hpst, fun _ => hnone hss, fun s hs => by simp at hs⟩
    | some s0 =>
      obtain ⟨hlen, _, hwalk⟩ := hsome s0 hss
      refine ⟨?_, fun _ => rfl, fun s hs => by simp at hs⟩
      exact placePortals_ok hpst hlen hwalk

theorem scanBoundary_ok {g : GridMap} {start_pos step : Vec2 ℤ} {length : ℤ}
    {ndir : Vec2 ℤ} {c1x c1y c2x c2y : ℤ}
    {st0 : List PortalNode × List ((ℤ × ℤ) × List ℕ)} (hst : PortalStateOK g st0) :
    PortalStateOK g (scanBoundary g start_pos step length ndir c1x c1y c2x c2y st0) := by
  rw [scanBoundary]
  have hfin : ScanInv g step ndir ((List.range length.toNat).foldl
      (scanStep g step ndir c1x c1y c2x c2y) (start_pos, none, 0, st0)) := by
    refine foldl_inv_mem _ _ _ ⟨hst, fun _ => rfl, fun s hs => by simp at hs⟩ ?_
    intro acc i _ hinv
    exact scanStep_inv acc i hinv
  obtain ⟨hpst, hnone, hsome⟩ := hfin
  cases hss : ((List.range length.toNat).foldl
      (scanStep g step ndir c1x c1y c2x c2y) (start_pos, none, 0, st0)).2.1 with
  | none => exact hpst
  | some s0 =>
    obtain ⟨hlen, _, hwalk⟩ := hsome s0 hss
    exact placePortals_ok hpst hlen hwalk

theorem createPortals_ok {g : GridMap} {cs : ℤ} :
    PortalStateOK g (createPortals g cs) := by
  rw [createPortals]
  refine foldl_inv_mem _ _ _ ?_ ?_
  · refine foldl_inv_mem _ _ _ ?_ ?_
    · exact ⟨fun p hp => by simp at hp, fun k hk => by simp at hk, fun e he => by simp at he⟩
    · intro b x _ hb
      exact foldl_inv_mem _ _ _ hb (fun b' y _ hb' => scanBoundary_ok hb')
  · intro b x _ hb
    exact foldl_inv_mem _ _ _ hb (fun b' y _ hb' => scanBoundary_ok hb')

/-- Soundness of one abstract edge stored at `graph[i]`: an inter-cluster
edge links two adjacent walkable portal positions; an intra-cluster edge
carries a cached path that is valid and runs from portal `i`'s position to
the target portal's position. -/
def EdgeOK (g : GridMap) (portals : List PortalNode) (i : ℕ) (e : AbstractEdge) : Prop :=
  (e.is_inter_cluster = true →
    oneStep (portalPos portals i) (portalPos portals e.toId) ∧
    g.is_walkable (portalPos portals i) = true ∧
    g.is_walkable (portalPos portals e.toId) = true) ∧
  (e.is_inter_cluster = false →
    ∃ p, e.cached_path = some p ∧ ValidSeg g p ∧
      p.head? = some (portalPos portals i) ∧
      p.getLast? = some (portalPos portals e.toId))

/-- Soundness of the whole abstract graph. -/
def GraphOK (g : GridMap) (portals : List PortalNode) (graph : List (List AbstractEdge)) : Prop :=
  ∀ i e, e ∈ graph.getD i [] → EdgeOK g portals i e

theorem getD_set_cases {α : Type} :
    ∀ (l : List (List α)) (k : ℕ) (v : List α) (i : ℕ),
      (l.set k v).getD i [] = if i = k ∧ k < l.length then v else l.getD i [] := by
  intro l
  induction l with
  | nil => intro k v i; simp [List.getD]
  | cons a as ih =>
    intro k v i
    cases k with
    | zero =>
      cases i with
      | zero => simp [List.getD]
      | succ i' => simp [List.getD]
    | succ k' =>
      cases i with
      | zero => simp [List.getD]
      | succ i' =>
        rw [List.set_cons_succ]
        have := ih k' v i'
        simp only [List.getD_cons_succ, List.length_cons]
        rw [this]
        by_cases h1 : i' = k' ∧ k' < as.length
        · rw [if_pos h1, if_pos (by omega)]
        · rw [if_neg h1, if_neg (by omega)]

theorem mem_replicate_getD {α : Type} (n : ℕ) (i : ℕ) {e : α} :
    e ∈ (List.replicate n ([] : List α)).getD i [] → False := by
  intro h
  rcases Nat.lt_or_ge i n with hi | hi
  · rw [List.getD_eq_getElem?_getD, List.getElem?_replicate, if_pos hi] at h
    simp at h
  · rw [List.getD_eq_getElem?_getD, List.getElem?_replicate, if_neg (by omega)] at h
    simp at h

theorem portals_getD_self {portals : List PortalNode}
    (hids : ∀ k, k < portals.length → (portals.getD k defaultPortal).id = k)
    {p : PortalNode} (hp : p ∈ portals) : portals.getD p.id defaultPortal = p := by
  obtain ⟨k, hk, hgk⟩ := List.mem_iff_getElem.mp hp
  have hgd : portals.getD k defaultPortal = p := by
    rw [List.getD_eq_getElem?_getD, List.getElem?_eq_getElem hk, Option.getD_some, hgk]
  have hid : p.id = k := by rw [← hgd]; exact hids k hk
  rw [hid, hgd]

theorem posMap_spec {portals : List PortalNode}
    (hids : ∀ k, k < portals.length → (portals.getD k defaultPortal).id = k)
    {q : Vec2 ℤ} {nid : ℕ} (h : alookup q (buildPosMap portals) = some nid) :
    nid < portals.length ∧ portalPos portals nid = q := by
  have hall : ∀ (l : List PortalNode) (acc : List (Vec2 ℤ × ℕ)),
      (∀ e ∈ acc, e.2 < portals.length ∧ portalPos portals e.2 = e.1) →
      (∀ p ∈ l, p ∈ portals) →
      ∀ e ∈ l.foldl (fun m p => (p.pos, p.id) :: m) acc,
        e.2 < portals.length ∧ portalPos portals e.2 = e.1 := by
    intro l
    induction l with
    | nil => intro acc hacc _ e he; exact hacc e he
    | cons p l ih =>
      intro acc hacc hl e he
      rw [List.foldl_cons] at he
      refine ih _ ?_ (fun p' hp' => hl p' (List.mem_cons_of_mem _ hp')) e he
      intro e' he'
      rcases List.mem_cons.mp he' with rfl | he''
      · have hpmem := hl p (List.mem_cons_self _ _)
        have hgd := portals_getD_self hids hpmem
        have hlen : p.id < portals.length := by
          obtain ⟨k, hk, hgk⟩ := List.mem_iff_getElem.mp hpmem
          have hidk : (portals.getD k defaultPortal).id = k := hids k hk
          rw [List.getD_eq_getElem?_getD, List.getElem?_eq_getElem hk,
            Option.getD_some, hgk] at hidk
          omega
        exact ⟨hlen, by rw [portalPos, hgd]⟩
      · exact hacc e' he''
  have hfin : ∀ e ∈ buildPosMap portals,
      e.2 < portals.length ∧ portalPos portals e.2 = e.1 := by
    rw [buildPosMap]
    exact hall portals [] (fun e he => by simp at he) (fun p hp => hp)
  exact @alookup_all (Vec2 ℤ) ℕ _
    (fun e => e.2 < portals.length ∧ portalPos portals e.2 = e.1)
    (buildPosMap portals) hfin q nid h

theorem interEdgesFor_spec {g : GridMap} {portals : List PortalNode}
    {p : PortalNode} (hp : p ∈ portals)
    (hwalk : ∀ p' ∈ portals, g.is_walkable p'.pos = true)
    (hids : ∀ k, k < portals.length → (portals.getD k defaultPortal).id = k)
    {e : AbstractEdge} (he : e ∈ interEdgesFor portals (buildPosMap portals) p) :
    EdgeOK g portals p.id e := by
  rw [interEdgesFor] at he
  rw [List.mem_filterMap] at he
  obtain ⟨dir, hdir, hsome⟩ := he
  cases hl : alookup (p.pos + dir) (buildPosMap portals) with
  | none => rw [hl] at hsome; exact absurd hsome (by simp)
  | some nid =>
    rw [hl] at hsome
    dsimp only at hsome
    by_cases hc : (portals.getD nid defaultPortal).cluster_xy ≠ p.cluster_xy
    · rw [if_pos hc] at hsome
      injection hsome with hsome'
      subst hsome'
      obtain ⟨hnlt, hnpos⟩ := posMap_spec hids hl
      have hppos : portalPos portals p.id = p.pos := by
        rw [portalPos, portals_getD_self hids hp]
      have hmem : portals.getD nid defaultPortal ∈ portals := by
        have h1 : portals.getD nid defaultPortal = portals[nid] := by
          rw [List.getD_eq_getElem?_getD, List.getElem?_eq_getElem hnlt, Option.getD_some]
        rw [h1]
        exact List.getElem_mem _
      constructor
      · intro _
        refine ⟨?_, ?_, ?_⟩
        · show oneStep (portalPos portals p.id) (portalPos portals nid)
          rw [hppos, hnpos]
          unfold oneStep
          rw [vadd_x, vadd_y]
          fin_cases hdir <;> simp
        · rw [hppos]; exact hwalk p hp
        · show g.is_walkable (portalPos portals nid) = true
          rw [portalPos]
          exact hwalk _ hmem
      · intro hfalse
        exact absurd hfalse (by simp)
    · rw [if_neg hc] at hsome
      exact absurd hsome (by simp)

theorem graphOK_set_append {g : GridMap} {portals : List PortalNode}
    {graph : List (List AbstractEdge)} (hg : GraphOK g portals graph)
    {k : ℕ} {new : List AbstractEdge} (hnew : ∀ e ∈ new, EdgeOK g portals k e) :
    GraphOK g portals (graph.set k (graph.getD k [] ++ new)) := by
  intro i e he
  rw [getD_set_cases] at he
  by_cases hik : i = k ∧ k < graph.length
  · rw [if_pos hik] at he
    rcases List.mem_append.mp he with he' | he'
    · exact hik.1 ▸ hg k e he'
    · exact hik.1 ▸ hnew e he'
  · rw [if_neg hik] at he
    exact hg i e he

theorem build_inter_ok {H : HPAGrid}
    (hwalk : ∀ p ∈ H.portals, H.grid.is_walkable p.pos = true)
    (hids : ∀ k, k < H.portals.length → (H.portals.getD k defaultPortal).id = k)
    (hg : GraphOK H.grid H.portals H.graph) :
    GraphOK H.grid H.portals (build_inter_cluster_edges H).graph := by
  rw [build_inter_cluster_edges]
  show GraphOK H.grid H.portals
    (H.portals.foldl (fun gr p =>
      gr.set p.id (gr.getD p.id [] ++ interEdgesFor H.portals (buildPosMap H.portals) p))
      H.graph)
  have : ∀ (l : List PortalNode) (gr : List (List AbstractEdge)),
      (∀ p ∈ l, p ∈ H.portals) → GraphOK H.grid H.portals gr →
      GraphOK H.grid H.portals (l.foldl (fun gr p =>
        gr.set p.id (gr.getD p.id [] ++ interEdgesFor H.portals (buildPosMap H.portals) p))
        gr) := by
    intro l
    induction l with
    | nil => intro gr _ hgr; exact hgr
    | cons p l ih =>
      intro gr hl hgr
      rw [List.foldl_cons]
      refine ih _ (fun p' hp' => hl p' (List.mem_cons_of_mem _ hp')) ?_
      refine graphOK_set_append hgr ?_
      intro e he
      exact interEdgesFor_spec (hl p (List.mem_cons_self _ _)) hwalk hids he
  exact this H.portals H.graph (fun p hp => hp) hg

theorem pairsAux_mem {ids : List ℕ} :
    ∀ {ab : ℕ × ℕ}, ab ∈ pairsAux ids → ab.1 ∈ ids ∧ ab.2 ∈ ids := by
  induction ids with
  | nil => intro ab h; rw [pairsAux] at h; simp at h
  | cons a rest ih =>
    intro ab h
    rw [pairsAux] at h
    rcases List.mem_append.mp h with h' | h'
    · rw [List.mem_map] at h'
      obtain ⟨b, hb, rfl⟩ := h'
      exact ⟨List.mem_cons_self _ _, List.mem_cons_of_mem _ hb⟩
    · obtain ⟨h1, h2⟩ := ih h'
      exact ⟨List.mem_cons_of_mem _ h1, List.mem_cons_of_mem _ h2⟩

theorem validSeg_reverse {g : GridMap} {p : List (Vec2 ℤ)} (h : ValidSeg g p) :
    ValidSeg g p.reverse := by
  obtain ⟨hc, hm⟩ := h
  refine ⟨?_, fun x hx => hm x (List.mem_reverse.mp hx)⟩
  rw [List.chain'_reverse]
  exact List.Chain'.imp (fun a b hab => oneStep_symm hab) hc

theorem addIntraPairs_ok {g : GridMap} {fuel : ℕ} {portals : List PortalNode}
    {bmin bmax : Vec2 ℤ}
    (hwq : ∀ i : ℕ, i < portals.length → g.is_walkable (portalPos portals i) = true) :
    ∀ (prs : List (ℕ × ℕ)) (graph : List (List AbstractEdge)) (graph' : List (List AbstractEdge)),
      (∀ ab ∈ prs, ab.1 < portals.length ∧ ab.2 < portals.length) →
      GraphOK g portals graph →
      addIntraPairs g fuel portals bmin bmax prs graph = some graph' →
      GraphOK g portals graph' := by
  intro prs
  induction prs with
  | nil =>
    intro graph graph' _ hgr h
    rw [addIntraPairs] at h
    injection h with h'
    exact h' ▸ hgr
  | cons ab rest ih =>
    intro graph graph' hprs hgr h
    obtain ⟨a, b⟩ := ab
    rw [addIntraPairs] at h
    have hab := hprs (a, b) (List.mem_cons_self _ _)
    have hrest := fun ab' hab' => hprs ab' (List.mem_cons_of_mem _ hab')
    cases hrun : a_star_local g fuel (portals.getD a defaultPortal).pos
        (portals.getD b defaultPortal).pos bmin bmax with
    | none => rw [hrun] at h; exact absurd h (by simp)
    | some r =>
      rw [hrun] at h
      cases r with
      | none =>
        dsimp only at h
        exact ih _ _ hrest hgr h
      | some cp =>
        obtain ⟨cost, path⟩ := cp
        dsimp only at h
        obtain ⟨hhd, hlast, hseg⟩ := a_star_local_valid hrun (hwq a hab.1)
        refine ih _ _ hrest ?_ h
        have hab_edge : EdgeOK g portals a ⟨b, cost, false, some path⟩ := by
          constructor
          · intro hfalse; exact absurd hfalse (by simp)
          · intro _
            exact ⟨path, rfl, hseg, hhd, hlast⟩
        have hba_edge : EdgeOK g portals b ⟨a, cost, false, some path.reverse⟩ := by
          constructor
          · intro hfalse; exact absurd hfalse (by simp)
          · intro _
            refine ⟨path.reverse, rfl, validSeg_reverse hseg, ?_, ?_⟩
            · rw [List.head?_reverse]; exact hlast
            · rw [List.getLast?_reverse]; exact hhd
        refine graphOK_set_append (graphOK_set_append hgr ?_) ?_
        · intro e he
          have : e = ⟨b, cost, false, some path⟩ := by simpa using he
          subst this
          exact hab_edge
        · intro e he
          have : e = ⟨a, cost, false, some path.reverse⟩ := by simpa using he
          subst this
          exact hba_edge

theorem intraLoop_ok {g : GridMap} {cs : ℤ} {fuel : ℕ} {portals : List PortalNode}
    (hwq : ∀ i : ℕ, i < portals.length → g.is_walkable (portalPos portals i) = true) :
    ∀ (lk : List ((ℤ × ℤ) × List ℕ)) (graph graph' : List (List AbstractEdge)),
      (∀ e ∈ lk, ∀ i ∈ e.2, i < portals.length) →
      GraphOK g portals graph →
      intraLoop g cs fuel portals lk graph = some graph' →
      GraphOK g portals graph' := by
  intro lk
  induction lk with
  | nil =>
    intro graph graph' _ hgr h
    rw [intraLoop] at h
    injection h with h'
    exact h' ▸ hgr
  | cons e rest ih =>
    intro graph graph' hlk hgr h
    obtain ⟨⟨cx, cy⟩, ids⟩ := e
    rw [intraLoop] at h
    have hids := hlk ((cx, cy), ids) (List.mem_cons_self _ _)
    have hrest := fun e' he' => hlk e' (List.mem_cons_of_mem _ he')
    by_cases hlen : ids.length < 2
    · rw [if_pos hlen] at h
      exact ih _ _ hrest hgr h
    · rw [if_neg hlen] at h
      dsimp only at h
      cases hadd : addIntraPairs g fuel portals ⟨cx * cs, cy * cs⟩
          ⟨min ((cx + 1) * cs) g.width, min ((cy + 1) * cs) g.height⟩
          (pairsAux ids) graph with
      | none => rw [hadd] at h; exact absurd h (by simp)
      | some graph1 =>
        rw [hadd] at h
        refine ih _ _ hrest ?_ h
        refine addIntraPairs_ok hwq _ _ _ ?_ hgr hadd
        intro ab hab
        obtain ⟨h1, h2⟩ := pairsAux_mem hab
        exact ⟨hids ab.1 h1, hids ab.2 h2⟩

theorem build_ok {bfuel : ℕ} {g : GridMap} {cs : ℤ} {H : HPAGrid}
    (h : HPAGrid.build bfuel (HPAGrid.new g cs) = some H) :
    H.grid = g ∧ H.cluster_size = cs ∧
    (∀ p ∈ H.portals, g.is_walkable p.pos = true) ∧
    (∀ k, k < H.portals.length → (H.portals.getD k defaultPortal).id = k) ∧
    (∀ e ∈ H.cluster_lookup, ∀ i ∈ e.2, i < H.portals.length) ∧
    GraphOK g H.portals H.graph := by
  rw [HPAGrid.build] at h
  obtain ⟨hw, hid, hlk⟩ := @createPortals_ok g cs
  dsimp only [HPAGrid.new] at h
  cases hloop : intraLoop g cs bfuel (createPortals g cs).1
      (build_inter_cluster_edges
        ⟨g, cs, (createPortals g cs).1, List.replicate (createPortals g cs).1.length [],
          (createPortals g cs).2⟩).cluster_lookup
      (build_inter_cluster_edges
        ⟨g, cs, (createPortals g cs).1, List.replicate (createPortals g cs).1.length [],
          (createPortals g cs).2⟩).graph with
  | none =>
    rw [show (build_inter_cluster_edges
        ⟨g, cs, (createPortals g cs).1, List.replicate (createPortals g cs).1.length [],
          (createPortals g cs).2⟩).grid = g from rfl,
      show (build_inter_cluster_edges
        ⟨g, cs, (createPortals g cs).1, List.replicate (createPortals g cs).1.length [],
          (createPortals g cs).2⟩).cluster_size = cs from rfl,
      show (build_inter_cluster_edges
        ⟨g, cs, (createPortals g cs).1, List.replicate (createPortals g cs).1.length [],
          (createPortals g cs).2⟩).portals = (createPortals g cs).1 from rfl] at h
    rw [hloop] at h
    exact absurd h (by simp)
  | some graph' =>
    rw [show (build_inter_cluster_edges
        ⟨g, cs, (createPortals g cs).1, List.replicate (createPortals g cs).1.length [],
          (createPortals g cs).2⟩).grid = g from rfl,
      show (build_inter_cluster_edges
        ⟨g, cs, (createPortals g cs).1, List.replicate (createPortals g cs).1.length [],
          (createPortals g cs).2⟩).cluster_size = cs from rfl,
      show (build_inter_cluster_edges
        ⟨g, cs, (createPortals g cs).1, List.replicate (createPortals g cs).1.length [],
          (createPortals g cs).2⟩).portals = (createPortals g cs).1 from rfl] at h
    rw [hloop] at h
    dsimp only at h
    injection h with h'
    subst h'
    have hwq : ∀ i : ℕ, i < (createPortals g cs).1.length →
        g.is_walkable (portalPos (createPortals g cs).1 i) = true := by
      intro i hi
      rw [portalPos]
      refine hw _ ?_
      have h1 : (createPortals g cs).1.getD i defaultPortal = (createPortals g cs).1[i] := by
        rw [List.getD_eq_getElem?_getD, List.getElem?_eq_getElem hi, Option.getD_some]
      rw [h1]
      exact List.getElem_mem _
    refine ⟨rfl, rfl, hw, hid, hlk, ?_⟩
    refine intraLoop_ok hwq _ _ _ hlk ?_ hloop
    refine build_inter_ok hw hid ?_
    intro i e he
    exact absurd he (mem_replicate_getD _ _)

theorem alookup_mem {N α : Type} [DecidableEq N] :
    ∀ {l : List (N × α)} {k : N} {v : α}, alookup k l = some v → (k, v) ∈ l := by
  intro l
  induction l with
  | nil => intro k v h; rw [alookup] at h; exact absurd h (by simp)
  | cons e es ih =>
    intro k v h
    obtain ⟨k', v'⟩ := e
    rw [alookup_cons] at h
    by_cases hk : k' = k
    · rw [if_pos hk] at h
      injection h with h'
      subst hk
      subst h'
      exact List.mem_cons_self _ _
    · rw [if_neg hk] at h
      exact List.mem_cons_of_mem _ (ih h)

theorem foldl_prepend_mem {α β : Type} (f : α → β) :
    ∀ (l : List α) (acc : List β) (x : β), x ∈ l.foldl (fun m r => f r :: m) acc →
      (∃ r ∈ l, x = f r) ∨ x ∈ acc := by
  intro l
  induction l with
  | nil => intro acc x hx; exact Or.inr hx
  | cons a as ih =>
    intro acc x hx
    rw [List.foldl_cons] at hx
    rcases ih _ _ hx with ⟨r, hr, hxr⟩ | hx'
    · exact Or.inl ⟨r, List.mem_cons_of_mem _ hr, hxr⟩
    · rcases List.mem_cons.mp hx' with rfl | hx''
      · exact Or.inl ⟨a, List.mem_cons_self _ _, rfl⟩
      · exact Or.inr hx''

theorem portalRuns_mem {g : GridMap} {fuel : ℕ} {bmin bmax : Vec2 ℤ}
    {ends : ℕ → Vec2 ℤ × Vec2 ℤ} :
    ∀ {ids : List ℕ} {runs : List (ℕ × ℕ × List (Vec2 ℤ))},
      portalRuns g fuel bmin bmax ends ids = some runs →
      ∀ r ∈ runs, r.1 ∈ ids ∧
        a_star_local g fuel (ends r.1).1 (ends r.1).2 bmin bmax =
          some (some (r.2.1, r.2.2)) := by
  intro ids
  induction ids with
  | nil =>
    intro runs h r hr
    rw [portalRuns] at h
    injection h with h'
    subst h'
    simp at hr
  | cons pid rest ih =>
    intro runs h r hr
    rw [portalRuns] at h
    cases hrun : a_star_local g fuel (ends pid).1 (ends pid).2 bmin bmax with
    | none => rw [hrun] at h; exact absurd h (by simp)
    | some res =>
      rw [hrun] at h
      cases res with
      | none =>
        dsimp only at h
        obtain ⟨h1, h2⟩ := ih h r hr
        exact ⟨List.mem_cons_of_mem _ h1, h2⟩
      | some cp =>
        dsimp only at h
        cases hrest : portalRuns g fuel bmin bmax ends rest with
        | none => rw [hrest] at h; exact absurd h (by simp)
        | some runs' =>
          rw [hrest] at h
          dsimp only [Option.map] at h
          injection h with h'
          subst h'
          rcases List.mem_cons.mp hr with rfl | hr'
          · exact ⟨List.mem_cons_self _ _, by rw [hrun]⟩
          · obtain ⟨h1, h2⟩ := ih hrest r hr'
            exact ⟨List.mem_cons_of_mem _ h1, h2⟩

/-- Soundness of the abstract search's `came_from` records: each stored
segment is valid and runs from the parent portal's position to the
recorded portal's position. -/
def CFOK (g : GridMap) (portals : List PortalNode)
    (cf : List (ℕ × (ℕ × List (Vec2 ℤ)))) : Prop :=
  ∀ n ps, alookup n cf = some ps →
    ValidSeg g ps.2 ∧ ps.2.head? = some (portalPos portals ps.1) ∧
    ps.2.getLast? = some (portalPos portals n)

theorem abstractStep_cfok {g : GridMap} {portals : List PortalNode} {endp : Vec2 ℤ}
    {position cost : ℕ} :
    ∀ (edges : List AbstractEdge)
      (acc : List AState × List (ℕ × ℕ) × List (ℕ × (ℕ × List (Vec2 ℤ)))),
      (∀ e ∈ edges, EdgeOK g portals position e) →
      CFOK g portals acc.2.2 →
      CFOK g portals ((edges.foldl (abstractStep portals endp position cost) acc).2.2) := by
  intro edges
  induction edges with
  | nil => intro acc _ hcf; exact hcf
  | cons e rest ih =>
    intro acc hed hcf
    rw [List.foldl_cons]
    have hok := hed e (List.mem_cons_self _ _)
    have hrest := fun e' he' => hed e' (List.mem_cons_of_mem _ he')
    rw [abstractStep]
    by_cases hbetter : cost + e.cost < (alookup e.toId acc.2.1).getD u32MAX
    · rw [if_pos hbetter]
      refine ih _ hrest ?_
      intro n ps hps
      dsimp only at hps
      rw [alookup_cons] at hps
      by_cases hk : e.toId = n
      · rw [if_pos hk] at hps
        injection hps with hps'
        subst hps'
        obtain ⟨hinter, hintra⟩ := hok
        by_cases hic : e.is_inter_cluster = true
        · obtain ⟨hstep, hw1, hw2⟩ := hinter hic
          rw [if_pos hic]
          subst hk
          refine ⟨⟨?_, ?_⟩, rfl, rfl⟩
          · exact List.chain'_pair.mpr hstep
          · intro x hx
            rcases List.mem_cons.mp hx with rfl | hx'
            · exact hw1
            · have : x = portalPos portals e.toId := by simpa using hx'
              subst this
              exact hw2
        · have hic' : e.is_inter_cluster = false := by
            cases hb : e.is_inter_cluster
            · rfl
            · exact absurd hb hic
          obtain ⟨p, hcp, hvs, hhd, hlast⟩ := hintra hic'
          rw [if_neg hic]
          subst hk
          rw [hcp]
          exact ⟨hvs, hhd, hlast⟩
      · rw [if_neg hk] at hps
        exact hcf n ps hps
    · rw [if_neg hbetter]
      exact ih _ hrest hcf

theorem abstractLoop_cfok {g : GridMap} {portals : List PortalNode}
    {graph : List (List AbstractEdge)}
    {end_costs : List (ℕ × (ℕ × List (Vec2 ℤ)))} {endp : Vec2 ℤ}
    (hg : GraphOK g portals graph) :
    ∀ (fuel : ℕ) (pq : List AState) (dists : List (ℕ × ℕ))
      (cf : List (ℕ × (ℕ × List (Vec2 ℤ))))
      {res : Option ℕ} {cf' : List (ℕ × (ℕ × List (Vec2 ℤ)))},
      CFOK g portals cf →
      abstractLoop portals graph end_costs endp fuel pq dists cf = some (res, cf') →
      CFOK g portals cf' := by
  intro fuel
  induction fuel with
  | zero => intro pq dists cf res cf' _ h; rw [abstractLoop] at h; exact absurd h (by simp)
  | succ f ih =>
    intro pq dists cf res cf' hcf h
    rw [abstractLoop] at h
    cases hpop : popAbs pq with
    | none =>
      rw [hpop] at h
      injection h with h'
      injection h' with h1 h2
      exact h2 ▸ hcf
    | some sr =>
      obtain ⟨s, pq'⟩ := sr
      rw [hpop] at h
      dsimp only at h
      by_cases hend : (alookup s.position end_costs).isSome = true
      · rw [if_pos hend] at h
        injection h with h'
        injection h' with h1 h2
        exact h2 ▸ hcf
      · rw [if_neg hend] at h
        by_cases hskip : (alookup s.position dists).elim false
            (fun d => decide (d < s.cost)) = true
        · rw [if_pos hskip] at h
          exact ih _ _ _ hcf h
        · rw [if_neg hskip] at h
          refine ih _ _ _ ?_ h
          exact abstractStep_cfok _ _ (fun e he => hg s.position e he) hcf

/-- Invariant of the backward-segments collection: all gathered segments
are valid and nonempty, consecutive ones share their junction portal
position, and the last gathered segment starts at the current portal. -/
def SegsOK (g : GridMap) (portals : List PortalNode) (curr : ℕ)
    (acc : List (List (Vec2 ℤ))) : Prop :=
  acc ≠ [] ∧ (∀ s ∈ acc, ValidSeg g s ∧ s ≠ []) ∧
  List.Chain' (fun s t => t.getLast? = s.head?) acc ∧
  (∃ lastseg, acc.getLast? = some lastseg ∧
    lastseg.head? = some (portalPos portals curr))

theorem collectSegments_ok {g : GridMap} {portals : List PortalNode}
    {cf : List (ℕ × (ℕ × List (Vec2 ℤ)))} (hcf : CFOK g portals cf) :
    ∀ (fuel : ℕ) (curr : ℕ) (acc : List (List (Vec2 ℤ)))
      {first : ℕ} {segs : List (List (Vec2 ℤ))},
      SegsOK g portals curr acc →
      collectSegments cf fuel curr acc = some (first, segs) →
      SegsOK g portals first segs := by
  intro fuel
  induction fuel with
  | zero => intro curr acc first segs _ h; rw [collectSegments] at h; exact absurd h (by simp)
  | succ f ih =>
    intro curr acc first segs hok h
    rw [collectSegments] at h
    cases hl : alookup curr cf with
    | none =>
      rw [hl] at h
      injection h with h'
      injection h' with h1 h2
      subst h1
      subst h2
      exact hok
    | some ps =>
      rw [hl] at h
      dsimp only at h
      obtain ⟨hvs, hhd, hlast⟩ := hcf curr ps hl
      obtain ⟨hne, hall, hchain, lastseg, hls, hlh⟩ := hok
      refine ih _ _ ?_ h
      refine ⟨by simp, ?_, ?_, ?_⟩
      · intro s hs
        rcases List.mem_append.mp hs with hs' | hs'
        · exact hall s hs'
        · have : s = ps.2 := by simpa using hs'
          subst this
          refine ⟨hvs, ?_⟩
          intro hnil
          rw [hnil] at hhd
          exact absurd hhd (by simp)
      · refine List.chain'_append.mpr ⟨hchain, List.chain'_singleton _, ?_⟩
        intro x hx y hy
        have hy0 : ps.2 = y := by simpa using hy
        subst hy0
        rw [hls] at hx
        injection hx with hx'
        subst hx'
        rw [hlast, hlh]
      · exact ⟨ps.2, List.getLast?_concat _, hhd⟩

theorem getLast?_join {accp seg : List (Vec2 ℤ)}
    (hlink : accp.getLast? = seg.head?) (hne : seg ≠ []) :
    (accp ++ seg.tail).getLast? = seg.getLast? := by
  cases seg with
  | nil => exact absurd rfl hne
  | cons s0 st =>
    cases hst : st with
    | nil =>
      simp only [List.tail_cons, List.append_nil]
      rw [hlink]
      rfl
    | cons s1 st' =>
      simp only [List.tail_cons]
      rw [List.getLast?_append, List.getLast?_cons_cons]
      cases hlast : (s1 :: st').getLast? with
      | none =>
        rw [List.getLast?_eq_none_iff] at hlast
        exact absurd hlast (by simp)
      | some v => rfl

theorem chain'_head_rel {R : Vec2 ℤ → Vec2 ℤ → Prop} {s0 y : Vec2 ℤ}
    {st : List (Vec2 ℤ)} (hc : List.Chain' R (s0 :: st)) (hy : st.head? = some y) :
    R s0 y := by
  cases st with
  | nil => simp at hy
  | cons s1 st' =>
    injection hy with hy'
    subst hy'
    exact (List.chain'_cons.mp hc).1

theorem joinStep_valid {g : GridMap} {accp seg : List (Vec2 ℤ)}
    (ha : ValidSeg g accp) (hane : accp ≠ []) (hs : ValidSeg g seg) (hsne : seg ≠ [])
    (hlink : accp.getLast? = seg.head?) :
    ValidSeg g (joinStep accp seg) ∧ joinStep accp seg ≠ [] ∧
      (joinStep accp seg).getLast? = seg.getLast? := by
  rw [joinStep, if_pos ⟨hane, hsne⟩, if_pos hlink]
  refine ⟨⟨?_, ?_⟩, ?_, getLast?_join hlink hsne⟩
  · refine List.chain'_append.mpr ⟨ha.1, ?_, ?_⟩
    · cases seg with
      | nil => exact absurd rfl hsne
      | cons s0 st => exact (List.chain'_cons'.mp hs.1).2
    · intro x hx y hy
      cases seg with
      | nil => exact absurd rfl hsne
      | cons s0 st =>
        rw [hlink] at hx
        injection hx with hx'
        subst hx'
        exact chain'_head_rel hs.1 hy
  · intro x hx
    rcases List.mem_append.mp hx with hx' | hx'
    · exact ha.2 x hx'
    · exact hs.2 x (List.mem_of_mem_tail hx')
  · intro hnil
    rw [List.append_eq_nil] at hnil
    exact hane hnil.1

theorem joinFold_valid {g : GridMap} :
    ∀ (segs : List (List (Vec2 ℤ))) (accp : List (Vec2 ℤ)),
      ValidSeg g accp → accp ≠ [] →
      (∀ s ∈ segs, ValidSeg g s ∧ s ≠ []) →
      List.Chain' (fun s t => s.getLast? = t.head?) (accp :: segs) →
      ValidSeg g (segs.foldl joinStep accp) := by
  intro segs
  induction segs with
  | nil => intro accp ha _ _ _; exact ha
  | cons seg rest ih =>
    intro accp ha hane hall hchain
    rw [List.foldl_cons]
    have hseg := hall seg (List.mem_cons_self _ _)
    have hlink : accp.getLast? = seg.head? := (List.chain'_cons.mp hchain).1
    obtain ⟨hv, hne, hlast⟩ := joinStep_valid ha hane hseg.1 hseg.2 hlink
    refine ih _ hv hne (fun s hs => hall s (List.mem_cons_of_mem _ hs)) ?_
    have hrest := (List.chain'_cons.mp hchain).2
    cases rest with
    | nil => exact List.chain'_singleton _
    | cons r0 rest' =>
      refine List.chain'_cons.mpr ⟨?_, (List.chain'_cons.mp hrest).2⟩
      rw [hlast]
      exact (List.chain'_cons.mp hrest).1

theorem joinStep_nil (seg : List (Vec2 ℤ)) : joinStep [] seg = seg := by
  rw [joinStep, if_neg (by simp)]
  rfl

theorem portal_walkable_of_lookup {g : GridMap} {H : HPAGrid}
    (hwalk : ∀ p ∈ H.portals, g.is_walkable p.pos = true)
    (_hids : ∀ k, k < H.portals.length → (H.portals.getD k defaultPortal).id = k)
    (hlk : ∀ e ∈ H.cluster_lookup, ∀ i ∈ e.2, i < H.portals.length)
    {key : ℤ × ℤ} {pid : ℕ}
    (hpid : pid ∈ (alookup key H.cluster_lookup).getD []) :
    g.is_walkable (portalPos H.portals pid) = true := by
  cases hl : alookup key H.cluster_lookup with
  | none => rw [hl] at hpid; simp at hpid
  | some ids =>
    rw [hl] at hpid
    dsimp only [Option.getD] at hpid
    have hmem := alookup_mem hl
    have hlt := hlk (key, ids) hmem pid hpid
    rw [portalPos]
    refine hwalk _ ?_
    have h1 : H.portals.getD pid defaultPortal = H.portals[pid] := by
      rw [List.getD_eq_getElem?_getD, List.getElem?_eq_getElem hlt, Option.getD_some]
    rw [h1]
    exact List.getElem_mem _

/-- C2: for every grid, cluster size, start and end, any path returned by
`HPAGrid::find_path` on the built HPA grid steps through 4-connected,
walkable cells only — the same-cluster case comes from the local A*'s
neighbor generation, the cross-cluster case from the validity of every
concatenated segment (start connection, cached or inter-cluster portal
segments, end connection) and of the duplicate-dropping join. -/
theorem C2_hpa_path_valid (g : GridMap) (cs : ℤ) (bfuel ffuel : ℕ) (H : HPAGrid)
    (start endp : Vec2 ℤ) (path : List (Vec2 ℤ))
    (hbuild : HPAGrid.build bfuel (HPAGrid.new g cs) = some H)
    (hfind : H.find_path ffuel start endp = some (some path)) :
    ValidSeg g path := by
  obtain ⟨hgrid, hcsz, hwalk, hids, hlk, hgok⟩ := build_ok hbuild
  rw [HPAGrid.find_path] at hfind
  rw [hgrid] at hfind
  by_cases hw : ¬(g.is_walkable start = true) ∨ ¬(g.is_walkable endp = true)
  · rw [if_pos hw] at hfind
    simp at hfind
  rw [if_neg hw] at hfind
  push_neg at hw
  obtain ⟨hws, hwe⟩ := hw
  dsimp only at hfind
  by_cases hsame : (⟨start.x.tdiv H.cluster_size, start.y.tdiv H.cluster_size⟩ : Vec2 ℤ)
      = ⟨endp.x.tdiv H.cluster_size, endp.y.tdiv H.cluster_size⟩
  · rw [if_pos hsame] at hfind
    cases hloc : a_star_local g ffuel start endp
        (vscale ⟨start.x.tdiv H.cluster_size, start.y.tdiv H.cluster_size⟩ H.cluster_size)
        ⟨(vscale ⟨start.x.tdiv H.cluster_size, start.y.tdiv H.cluster_size⟩
            H.cluster_size).x + H.cluster_size,
         (vscale ⟨start.x.tdiv H.cluster_size, start.y.tdiv H.cluster_size⟩
            H.cluster_size).y + H.cluster_size⟩ with
    | none => rw [hloc] at hfind; simp at hfind
    | some res =>
      rw [hloc] at hfind
      cases res with
      | none => simp at hfind
      | some cp =>
        obtain ⟨c0, p0⟩ := cp
        dsimp only [Option.map] at hfind
        injection hfind with h1
        injection h1 with h2
        subst h2
        exact (a_star_local_valid hloc hws).2.2
  · rw [if_neg hsame] at hfind
    cases hsr : portalRuns g ffuel
        (vscale ⟨start.x.tdiv H.cluster_size, start.y.tdiv H.cluster_size⟩ H.cluster_size)
        ⟨(vscale ⟨start.x.tdiv H.cluster_size, start.y.tdiv H.cluster_size⟩
            H.cluster_size).x + H.cluster_size,
         (vscale ⟨start.x.tdiv H.cluster_size, start.y.tdiv H.cluster_size⟩
            H.cluster_size).y + H.cluster_size⟩
        (fun pid => (start, portalPos H.portals pid))
        ((alookup (start.x.tdiv H.cluster_size, start.y.tdiv H.cluster_size)
          H.cluster_lookup).getD []) with
    | none => rw [hsr] at hfind; simp at hfind
    | some start_edges =>
      rw [hsr] at hfind
      dsimp only at hfind
      by_cases hse : start_edges = []
      · rw [if_pos hse] at hfind; simp at hfind
      rw [if_neg hse] at hfind
      cases her : portalRuns g ffuel
          (vscale ⟨endp.x.tdiv H.cluster_size, endp.y.tdiv H.cluster_size⟩ H.cluster_size)
          ⟨(vscale ⟨endp.x.tdiv H.cluster_size, endp.y.tdiv H.cluster_size⟩
              H.cluster_size).x + H.cluster_size,
           (vscale ⟨endp.x.tdiv H.cluster_size, endp.y.tdiv H.cluster_size⟩
              H.cluster_size).y + H.cluster_size⟩
          (fun pid => (portalPos H.portals pid, endp))
          ((alookup (endp.x.tdiv H.cluster_size, endp.y.tdiv H.cluster_size)
            H.cluster_lookup).getD []) with
      | none => rw [her] at hfind; simp at hfind
      | some end_runs =>
        rw [her] at hfind
        dsimp only at hfind
        by_cases hee : end_runs = []
        · rw [if_pos hee] at hfind; simp at hfind
        rw [if_neg hee] at hfind
        cases habs : abstractLoop H.portals H.graph
            (end_runs.foldl (fun m r => (r.1, r.2) :: m) []) endp ffuel
            (start_edges.map (fun r =>
              (⟨r.2.1, r.1, r.2.1 + hpaHeuristic (portalPos H.portals r.1) endp⟩ : AState)))
            (start_edges.foldl (fun m r => (r.1, r.2.1) :: m) []) [] with
        | none => rw [habs] at hfind; simp at hfind
        | some pr =>
          rw [habs] at hfind
          obtain ⟨resopt, cf⟩ := pr
          cases resopt with
          | none => simp at hfind
          | some last_p =>
            dsimp only at hfind
            cases hec2 : alookup last_p
                (end_runs.foldl (fun m r => (r.1, r.2) :: m) []) with
            | none => rw [hec2] at hfind; simp at hfind
            | some ecp =>
              rw [hec2] at hfind
              dsimp only at hfind
              cases hcoll : collectSegments cf ffuel last_p [ecp.2] with
              | none => rw [hcoll] at hfind; simp at hfind
              | some fs =>
                rw [hcoll] at hfind
                obtain ⟨first, segs⟩ := fs
                dsimp only at hfind
                cases hscon : alookup first
                    (start_edges.foldl (fun m r => (r.1, r.2.2) :: m) []) with
                | none => rw [hscon] at hfind; simp at hfind
                | some sseg =>
                  rw [hscon] at hfind
                  injection hfind with h1
                  injection h1 with h2
                  subst h2
                  -- end segment validity
                  have hecv : ValidSeg g ecp.2 ∧ ecp.2.head? = some (portalPos H.portals last_p) ∧
                      ecp.2.getLast? = some endp := by
                    have hmem := alookup_mem hec2
                    rcases foldl_prepend_mem _ end_runs [] _ hmem with ⟨r, hr, hreq⟩ | habsurd
                    · obtain ⟨hrin, hrloc⟩ := portalRuns_mem her r hr
                      injection hreq with hq1 hq2
                      have hwp := portal_walkable_of_lookup hwalk hids hlk hrin
                      obtain ⟨hh, hl2, hv⟩ := a_star_local_valid hrloc hwp
                      subst hq1
                      rw [hq2]
                      exact ⟨hv, hh, hl2⟩
                    · simp at habsurd
                  -- came_from soundness
                  have hcfok : CFOK g H.portals cf :=
                    abstractLoop_cfok hgok ffuel _ _ []
                      (fun n ps hps => absurd hps (by rw [alookup]; simp)) habs
                  -- collected segments
                  have hsegsok : SegsOK g H.portals first segs := by
                    refine collectSegments_ok hcfok ffuel last_p [ecp.2] ?_ hcoll
                    refine ⟨by simp, ?_, List.chain'_singleton _, ecp.2, rfl, hecv.2.1⟩
                    intro s hs
                    have : s = ecp.2 := by simpa using hs
                    subst this
                    refine ⟨hecv.1, ?_⟩
                    intro hnil
                    rw [hnil] at hecv
                    exact absurd hecv.2.1 (by simp)
                  -- start connection validity
                  have hsconv : ValidSeg g sseg ∧ sseg ≠ [] ∧
                      sseg.getLast? = some (portalPos H.portals first) := by
                    have hmem := alookup_mem hscon
                    rcases foldl_prepend_mem _ start_edges [] _ hmem with ⟨r, hr, hreq⟩ | habsurd
                    · obtain ⟨hrin, hrloc⟩ := portalRuns_mem hsr r hr
                      obtain ⟨hh, hl2, hv⟩ := a_star_local_valid hrloc hws
                      injection hreq with hq1 hq2
                      subst hq1
                      rw [hq2]
                      refine ⟨hv, ?_, hl2⟩
                      intro hnil
                      rw [hnil] at hh
                      exact absurd hh (by simp)
                    · simp at habsurd
                  -- assemble the reversed chain and fold
                  obtain ⟨hne, hall, hchain, lastseg, hls, hlh⟩ := hsegsok
                  have hallv : ∀ s ∈ segs ++ [sseg], ValidSeg g s ∧ s ≠ [] := by
                    intro s hs
                    rcases List.mem_append.mp hs with hs' | hs'
                    · exact hall s hs'
                    · have : s = sseg := by simpa using hs'
                      subst this
                      exact ⟨hsconv.1, hsconv.2.1⟩
                  have hchain2 : List.Chain' (fun s t => t.getLast? = s.head?)
                      (segs ++ [sseg]) := by
                    refine List.chain'_append.mpr ⟨hchain, List.chain'_singleton _, ?_⟩
                    intro x hx y hy
                    have hy0 : sseg = y := by simpa using hy
                    subst hy0
                    rw [hls] at hx
                    injection hx with hx'
                    subst hx'
                    rw [hsconv.2.2, hlh]
                  have hrev : List.Chain' (fun s t => s.getLast? = t.head?)
                      (segs ++ [sseg]).reverse := by
                    rw [List.chain'_reverse]
                    exact List.Chain'.imp (fun a b hab => hab) hchain2
                  cases hr : (segs ++ [sseg]).reverse with
                  | nil =>
                    have : segs ++ [sseg] = [] := by
                      rw [← List.reverse_reverse (segs ++ [sseg]), hr]
                      rfl
                    simp at this
                  | cons r0 rrest =>
                    rw [List.foldl_cons, joinStep_nil]
                    have hr0 : r0 ∈ segs ++ [sseg] := by
                      rw [← List.mem_reverse, hr]
                      exact List.mem_cons_self _ _
                    have hrrest : ∀ s ∈ rrest, ValidSeg g s ∧ s ≠ [] := by
                      intro s hs
                      refine hallv s ?_
                      rw [← List.mem_reverse, hr]
                      exact List.mem_cons_of_mem _ hs
                    rw [hr] at hrev
                    exact joinFold_valid rrest r0 (hallv r0 hr0).1 (hallv r0 hr0).2
                      hrrest hrev

theorem C2_witness :
    ∃ (H : HPAGrid) (path : List (Vec2 ℤ)),
      HPAGrid.build 30 (HPAGrid.new (GridMap.new 2 2) 1) = some H ∧
      H.find_path 60 ⟨0, 0⟩ ⟨1, 1⟩ = some (some path) ∧
      ValidSeg (GridMap.new 2 2) path :=
  ⟨_, _, rfl, rfl, C2_hpa_path_valid (GridMap.new 2 2) 1 30 60 _ ⟨0, 0⟩ ⟨1, 1⟩ _ rfl rfl⟩
